import Mathlib

/-!
Verification of the disk-resident R-tree (SpatialStorage) against its
specification.  The definitions below are a shallow embedding of the
authoritative draft of `RTree.h` (the first draft in the repository,
using address-based contexts), together with `Node.h` and `Type.h`.

Coordinates are modelled as `Int` (the C++ code instantiates `KeyType<T>`
with `double`; every concrete input used below is an integer, exactly
representable in `double`, and the algebra uses only `+ - * min max <`
which agree with `Int` on such values).

The memory-mapped block store (`FileCache.h`) is not present in the
sources; following the specification (§4.1, §5: block views are stable
across growth, blocks are identified by their byte offset) the file is
modelled as an association list from block address to decoded node,
plus the index header and the current file size.  Assertion failures
and aborts are modelled by `Option`: a `none` result is an aborted
execution.
-/

namespace SpatialStorage

/-- An MBR as stored in `KeyType<T>::data`: a flat list
`[lo₀, …, lo_{D−1}, hi₀, …, hi_{D−1}]`. -/
abbrev MBR := List Int

/-- `KeyType::area`: product over the axes of `hi_i − lo_i`. -/
def area (a : MBR) : Int :=
  (List.range (a.length / 2)).foldl
    (fun acc i => acc * (a.getD (a.length / 2 + i) 0 - a.getD i 0)) 1

/-- `KeyType::enlargement`: the area of the axis-wise union of the two
rectangles, `∏ᵢ (max aᵢʰ bᵢʰ − min aᵢˡ bᵢˡ)`.  (In this code base the
"enlargement" metric is the absolute area of the union, not a
difference of areas.) -/
def enlargement (a b : MBR) : Int :=
  (List.range (a.length / 2)).foldl
    (fun acc i =>
      acc * (max (a.getD (a.length / 2 + i) 0) (b.getD (a.length / 2 + i) 0)
             - min (a.getD i 0) (b.getD i 0))) 1

/-- `KeyType::mbr_enlarge`: in-place axis-wise union (min of lows, max
of highs). -/
def mbrEnlarge (a b : MBR) : MBR :=
  (List.range a.length).map
    (fun i =>
      if i < a.length / 2 then min (a.getD i 0) (b.getD i 0)
      else max (a.getD i 0) (b.getD i 0))

/-- `KeyType::operator>=`: `a ≥ b` holds when `a` contains `b`
(every low of `a` is ≤ the corresponding low of `b` and every high of
`a` is ≥ the corresponding high of `b`). -/
def mbrGe (a b : MBR) : Bool :=
  ((List.range (a.length / 2)).all fun i => a.getD i 0 ≤ b.getD i 0) &&
  ((List.range (a.length / 2)).all fun i =>
    b.getD (a.length / 2 + i) 0 ≤ a.getD (a.length / 2 + i) 0)

/-- `KeyType::IsOverlap`: on every axis the two intervals intersect. -/
def isOverlap (a b : MBR) : Bool :=
  (List.range (a.length / 2)).all fun i =>
    a.getD i 0 ≤ b.getD (a.length / 2 + i) 0 &&
    b.getD i 0 ≤ a.getD (a.length / 2 + i) 0

/-- A key is a well-formed MBR when `lo_i ≤ hi_i` on every axis
(data-model invariant of §3). -/
def validMbr (a : MBR) : Bool :=
  (List.range (a.length / 2)).all fun i =>
    a.getD i 0 ≤ a.getD (a.length / 2 + i) 0

/-- The index header stored in block 0 (`IndexHeader` in `Node.h`). -/
structure IndexHeader where
  dimensions : Nat
  key_size : Nat
  value_size : Nat
  block_size : Nat
  root_addr : Nat
deriving DecidableEq, Repr

/-- A decoded node block: its `NodeHeader` (block type and self
address; the entry count is the length of `entries`) and the packed
entry slots.  In a leaf the second component of an entry is the
caller's payload, in an inner node it is the child block address (the
C++ code stores raw bytes and reinterprets them per block type). -/
structure Node where
  isLeaf : Bool
  selfAddr : Nat
  entries : List (MBR × Nat)
deriving DecidableEq, Repr

/-- `sizeof(NodeHeader)`: 1 enum (padded to 8) + 2 × uint64. -/
def NODE_HEADER_SIZE : Nat := 24

/-- The index file: header block, decoded node blocks addressed by byte
offset, and the current file size (the allocator appends at
`fileSize`).  Per the spec's block-store contract (§4.1/§5) block views
are stable, so an association list from address to node is a faithful
model of the memory-mapped file. -/
structure Disk where
  hdr : IndexHeader
  nodes : List (Nat × Node)
  fileSize : Nat
deriving DecidableEq, Repr

/-- `FileCache::get_block` followed by `get_node_handler`: look up the
block at `addr`.  A failed lookup is the aborted execution of
`get_address` (`abort()` on a null block). -/
def getNode (d : Disk) (addr : Nat) : Option Node :=
  (d.nodes.find? (fun p => p.1 = addr)).map Prod.snd

/-- Write back the node stored at `addr` (blocks are mutated in place
through the cache). -/
def setNode (d : Disk) (addr : Nat) (nd : Node) : Disk :=
  if (d.nodes.find? (fun p => p.1 = addr)).isSome then
    { d with nodes := d.nodes.map (fun p => if p.1 = addr then (addr, nd) else p) }
  else
    { d with nodes := (addr, nd) :: d.nodes }

/-- `NodeHandler::get_entry_capacity`, with the per-type slot value
size chosen by `get_node_handler`: `value_size` bytes in a leaf,
8 bytes (a child offset) in an inner node. -/
def capacity (h : IndexHeader) (isLeaf : Bool) : Nat :=
  (h.block_size - NODE_HEADER_SIZE) / (h.key_size + (if isLeaf then h.value_size else 8))

/-- `RTree::get_node_mbr`: the fold of `mbr_enlarge` over the node's
entry keys, starting from entry 0.  `get_elem_key(0)` asserts
`0 < count`, so an empty node aborts (`none`). -/
def getNodeMbr (nd : Node) : Option MBR :=
  match nd.entries with
  | [] => none
  | e :: rest => some (rest.foldl (fun m p => mbrEnlarge m p.1) e.1)

/-- `NodeHandler::insert`: append at slot `count`; asserts
`count < capacity` and that the key has `2·D` coordinates. -/
def nodeInsert (cap dims : Nat) (nd : Node) (kvp : MBR × Nat) : Option Node :=
  if nd.entries.length < cap ∧ kvp.1.length = 2 * dims then
    some { nd with entries := nd.entries ++ [kvp] }
  else none

/-- `NodeHandler::set_elem_key`: overwrite the key of slot `idx`;
asserts `idx < count` and the key size. -/
def setElemKey (dims : Nat) (nd : Node) (k : MBR) (idx : Nat) : Option Node :=
  if idx < nd.entries.length ∧ k.length = 2 * dims then
    some { nd with entries := nd.entries.set idx (k, (nd.entries.getD idx ([], 0)).2) }
  else none

/-- `NodeHandler::delete_elem_key`: shift slots `idx+1 …` left by one
and decrement the count; silently a no-op when `idx ≥ count`. -/
def deleteElemKey (nd : Node) (idx : Nat) : Node :=
  if idx < nd.entries.length then { nd with entries := nd.entries.eraseIdx idx } else nd

/-- `NodeHandler::clear`: reset the entry count. -/
def clearNode (nd : Node) : Node := { nd with entries := [] }

/-- `RTree::allocate_block`: append one block at the end of the file. -/
def allocate (d : Disk) : Nat × Disk :=
  (d.fileSize, { d with fileSize := d.fileSize + d.hdr.block_size })

/-- The fuel used for the descent recursions: a well-formed tree's
height is below the number of allocated nodes. -/
def fuelOf (d : Disk) : Nat := d.nodes.length + 1

inductive SearchMode where
  | overlap
  | comprise
deriving DecidableEq, Repr

/-- The leaf predicate of `RTree::search`: `IsOverlap` in overlap
mode, `key >= mbr` (the query contains the stored MBR) in comprise
mode. -/
def leafMatch (mode : SearchMode) (key : MBR) (e : MBR × Nat) : Bool :=
  match mode with
  | .overlap => isOverlap e.1 key
  | .comprise => mbrGe key e.1

/-- The inner-node entry loop of `RTree::search`: **both** modes
descend into a child iff `mbr.IsOverlap(key)`; `rec` is the recursive
visit of a child address. -/
def searchEnts (rec : Nat → Option (List (MBR × Nat))) (key : MBR) :
    List (MBR × Nat) → Option (List (MBR × Nat))
  | [] => some []
  | e :: rest =>
    if isOverlap e.1 key then
      match rec e.2 with
      | none => none
      | some sub =>
        match searchEnts rec key rest with
        | none => none
        | some l => some (sub ++ l)
    else searchEnts rec key rest

/-- `RTree::search`: visit the node at `addr` and scan its entries in
order, appending matches (leaf) and the recursive results of
overlapping children (inner) to the shared result vector. -/
def searchGo : Nat → Disk → MBR → SearchMode → Nat → Option (List (MBR × Nat))
  | 0, _, _, _, _ => none
  | Nat.succ fuel, d, key, mode, addr =>
    match getNode d addr with
    | none => none
    | some nd =>
      if nd.isLeaf then some (nd.entries.filter (leafMatch mode key))
      else searchEnts (fun a => searchGo fuel d key mode a) key nd.entries

/-- The child loop of `collect_leaf_entries` for an inner node. -/
def collectEnts (rec : Nat → Option (List (MBR × Nat))) :
    List (MBR × Nat) → Option (List (MBR × Nat))
  | [] => some []
  | e :: rest =>
    match rec e.2 with
    | none => none
    | some sub =>
      match collectEnts rec rest with
      | none => none
      | some l => some (sub ++ l)

/-- `RTree::collect_leaf_entries`: depth-first collection of every
leaf entry below `addr`. -/
def collectGo : Nat → Disk → Nat → Option (List (MBR × Nat))
  | 0, _, _ => none
  | Nat.succ fuel, d, addr =>
    match getNode d addr with
    | none => none
    | some nd =>
      if nd.isLeaf then some nd.entries
      else collectEnts (fun a => collectGo fuel d a) nd.entries

/-- The entry-selection loop of `RTree::ChooseLeaf`.  `min_enlarge`
is a pointer that, once set, points at the loop-local variable
`enlarge` itself; by the C++ object-lifetime rules the later
dereference `*min_enlarge` reads the **current** iteration's value, so
the guard `enlarge < *min_enlarge` compares `enlarge` with itself and
is never true.  The state is `(min_enlarge set?, min_enlarge_index,
next index)`. -/
def chooseEntryIdx (key : MBR) (entries : List (MBR × Nat)) : Nat :=
  (entries.foldl
    (fun (st : Bool × Nat × Nat) e =>
      let enl := enlargement e.1 key
      if st.1 = false ∨ enl < enl then (true, st.2.2, st.2.2 + 1)
      else (st.1, st.2.1, st.2.2 + 1))
    (false, 0, 0)).2.1

/-- `RTree::ChooseLeaf`: descend to a leaf, recording
`(node address, chosen entry index)` frames; the leaf frame carries a
dummy index 0.  Reading the child slot of an empty inner node yields
unspecified bytes whose block lookup aborts; this is the `none` of
`List.get?`. -/
def chooseLeafGo : Nat → Disk → MBR → Nat → List (Nat × Nat) →
    Option (List (Nat × Nat) × Nat)
  | 0, _, _, _, _ => none
  | Nat.succ fuel, d, key, addr, path =>
    match getNode d addr with
    | none => none
    | some nd =>
      if nd.isLeaf then some (path ++ [(addr, 0)], addr)
      else
        let idx := chooseEntryIdx key nd.entries
        match nd.entries.get? idx with
        | none => none
        | some e => chooseLeafGo fuel d key e.2 (path ++ [(addr, idx)])

/-- The entry loop of `FindLeaf` at an inner node (`i` is the index of
the first entry of `l` within the node at `addr`; `rec` is the
recursive visit of a child address). -/
def findEnts (rec : Nat → Option (Option (List (Nat × Nat)))) (key : MBR)
    (addr : Nat) : Nat → List (MBR × Nat) → Option (Option (List (Nat × Nat)))
  | _, [] => some none
  | i, e :: rest =>
    if mbrGe e.1 key then
      match rec e.2 with
      | none => none
      | some (some sub) => some (some ((addr, i) :: sub))
      | some none => findEnts rec key addr (i + 1) rest
    else findEnts rec key addr (i + 1) rest

/-- `RTree::FindLeaf`: at a leaf, scan for the first entry whose key
equals the target; at an inner node, descend (in entry order) into
every child whose entry key contains the target (`entry.key >= key`),
keeping the frames of the first successful branch.  The outer `none`
is an aborted execution; `some none` is "not found". -/
def findLeafGo : Nat → Disk → MBR → Nat → Option (Option (List (Nat × Nat)))
  | 0, _, _, _ => none
  | Nat.succ fuel, d, key, addr =>
    match getNode d addr with
    | none => none
    | some nd =>
      if nd.isLeaf then
        match nd.entries.findIdx? (fun e => e.1 = key) with
        | some i => some (some [(addr, i)])
        | none => some none
      else findEnts (fun a => findLeafGo fuel d key a) key addr 0 nd.entries

/-- `RTree::modify_parent_entry_mbr`, on the reversed context path
(deepest frame first).  Pops a frame, records the node's covering MBR,
optionally overwrites the entry at the frame's index, recomputes the
covering MBR and recurses only when it changed. -/
def modifyParentGo (dims : Nat) : Disk → List (Nat × Nat) → Option MBR → Option Disk
  | d, [], _ => some d
  | d, (addr, idx) :: rest, mkey =>
    match getNode d addr with
    | none => none
    | some nd =>
      match getNodeMbr nd with
      | none => none
      | some oldMbr =>
        let upd : Option (Disk × Node) :=
          match mkey with
          | none => some (d, nd)
          | some k => (setElemKey dims nd k idx).map (fun nd' => (setNode d addr nd', nd'))
        match upd with
        | none => none
        | some (d', nd') =>
          match getNodeMbr nd' with
          | none => none
          | some newKey =>
            if oldMbr = newKey then some d'
            else modifyParentGo dims d' rest (some newKey)

/-- The quadratic waste metric of the seed pick:
`area(union(a,b)) − area(a) − area(b)` (in this code base
`enlargement` already is the area of the union). -/
def wasteOf (a b : MBR) : Int := enlargement a b - area a - area b

/-- All index pairs `(i, j)` with `i < j < n`, in the scan order of the
double loop of `RTree::pickseed` (ascending `i`, then ascending `j`). -/
def pairsLex (n : Nat) : List (Nat × Nat) :=
  (List.range n).flatMap
    (fun i => (List.range' (i + 1) (n - (i + 1))).map (fun j => (i, j)))

/-- Strict lexicographic order on index pairs. -/
def lexLt (a b : Nat × Nat) : Prop := a.1 < b.1 ∨ (a.1 = b.1 ∧ a.2 < b.2)

/-- Lexicographic order on index pairs. -/
def lexLe (a b : Nat × Nat) : Prop := a.1 < b.1 ∨ (a.1 = b.1 ∧ a.2 ≤ b.2)

/-- The seed-selection double loop of `RTree::pickseed`: starting from
the pair `(0, 1)` and its waste, keep a strictly greater waste
(`waste > min_waste`), so the first pair in scan order attaining the
maximum wins. -/
def pickSeedPair (whole : List (MBR × Nat)) : Nat × Nat :=
  let st := (pairsLex whole.length).foldl
    (fun (st : Nat × Nat × Int) pr =>
      let w := wasteOf (whole.getD pr.1 ([], 0)).1 (whole.getD pr.2 ([], 0)).1
      if st.2.2 < w then (pr.1, pr.2, w) else st)
    (0, 1, wasteOf (whole.getD 0 ([], 0)).1 (whole.getD 1 ([], 0)).1)
  (st.1, st.2.1)

/-- The inner scan of the distribution loop of `RTree::pickseed`:
for each remaining item compute the two subtractive expansions
`enlargement(group, e) − area(group)` and keep the item of largest
`|exp1 − exp2|`; the comparison is `>=`, so the **last** maximum in
scan order wins.  Returns `(pick, exp1, exp2)`. -/
def distribPick (mbr1 mbr2 : MBR) (whole : List (MBR × Nat)) : Nat × Int × Int :=
  (whole.foldl
    (fun (st : Nat × (Nat × Int × Int) × Int) e =>
      let exp1 := enlargement mbr1 e.1 - area mbr1
      let exp2 := enlargement mbr2 e.1 - area mbr2
      let diff := |exp1 - exp2|
      if st.2.2 ≤ diff then (st.1 + 1, (st.1, exp1, exp2), diff)
      else (st.1 + 1, st.2.1, st.2.2))
    (0, (0, 0, 0), 0)).2.1

/-- The distribution `while` loop of `RTree::pickseed`: pick an item by
`distribPick`, append it to group 1 when `exp1 < exp2` and to group 2
otherwise (ties go to group 2), and enlarge that group's covering MBR.
The fuel is the number of remaining items. -/
def distribGo : Nat → List (MBR × Nat) → List (MBR × Nat) → List (MBR × Nat) →
    MBR → MBR → List (MBR × Nat) × List (MBR × Nat)
  | 0, _, res1, res2, _, _ => (res1, res2)
  | Nat.succ fuel, whole, res1, res2, mbr1, mbr2 =>
    if whole.isEmpty then (res1, res2)
    else
      let (pick, exp1, exp2) := distribPick mbr1 mbr2 whole
      let e := whole.getD pick ([], 0)
      if exp1 < exp2 then
        distribGo fuel (whole.eraseIdx pick) (res1 ++ [e]) res2 (mbrEnlarge mbr1 e.1) mbr2
      else
        distribGo fuel (whole.eraseIdx pick) res1 (res2 ++ [e]) mbr1 (mbrEnlarge mbr2 e.1)

/-- `RTree::pickseed`: gather the node's entries plus the new pair,
pick the two seeds, erase them (larger index first, as the source
does) and distribute the rest. -/
def pickseed (entries : List (MBR × Nat)) (kvp : MBR × Nat) :
    List (MBR × Nat) × List (MBR × Nat) :=
  let whole := entries ++ [kvp]
  let pr := pickSeedPair whole
  let res1 := [whole.getD pr.1 ([], 0)]
  let res2 := [whole.getD pr.2 ([], 0)]
  let rem := (whole.eraseIdx pr.2).eraseIdx pr.1
  distribGo rem.length rem res1 res2 (whole.getD pr.1 ([], 0)).1 (whole.getD pr.2 ([], 0)).1

/-- The covering MBR a split partition is folded into
(`KeyType(partition[0].key)` then `mbr_enlarge` over every element,
including element 0 again). -/
def coverOf (l : List (MBR × Nat)) : MBR :=
  match l with
  | [] => []
  | e :: _ => l.foldl (fun m x => mbrEnlarge m x.1) e.1

/-- Insert a list of pairs into a node one by one
(`NodeHandler::insert` per element, with its capacity assertion). -/
def insertAll (cap dims : Nat) (nd : Node) (l : List (MBR × Nat)) : Option Node :=
  l.foldlM (fun n e => nodeInsert cap dims n e) nd

/-- `RTree::split`, on the reversed context path (deepest frame
first).  Pops a frame, optionally rewrites the entry at the frame's
index with `modify_key`, then installs `insert_kvp` directly when the
node has room (propagating the new covering MBR upward), and otherwise
allocates a sibling, runs the quadratic pickseed, rewrites the node
with partition 2 and the sibling with partition 1, promotes a new root
when the split node is the root, and else recurses upward with the new
sibling entry.  `path.back()` on an empty deque is undefined and
modelled as an abort. -/
def splitGo (d : Disk) : List (Nat × Nat) → (MBR × Nat) → Option MBR → Option Disk
  | [], _, _ => none
  | (addr, pid) :: rest, insertKvp, mkey =>
    match getNode d addr with
    | none => none
    | some nd =>
      let dims := d.hdr.dimensions
      let upd : Option (Disk × Node) :=
        match mkey with
        | none => some (d, nd)
        | some k => (setElemKey dims nd k pid).map (fun nd' => (setNode d addr nd', nd'))
      match upd with
      | none => none
      | some (d1, nd1) =>
        if nd1.entries.length < capacity d1.hdr nd1.isLeaf then
          match nodeInsert (capacity d1.hdr nd1.isLeaf) dims nd1 insertKvp with
          | none => none
          | some nd2 =>
            let d2 := setNode d1 addr nd2
            match getNodeMbr nd2 with
            | none => none
            | some newMbr => modifyParentGo dims d2 rest (some newMbr)
        else
          let (newAddr, d2) := allocate d1
          let parts := pickseed nd1.entries insertKvp
          let mbr2 := coverOf parts.2
          let mbr1 := coverOf parts.1
          match insertAll (capacity d2.hdr nd1.isLeaf) dims (clearNode nd1) parts.2 with
          | none => none
          | some cur' =>
            match insertAll (capacity d2.hdr nd1.isLeaf) dims
                ⟨nd1.isLeaf, newAddr, []⟩ parts.1 with
            | none => none
            | some newNode =>
              let d3 := setNode (setNode d2 addr cur') newAddr newNode
              if cur'.selfAddr = d3.hdr.root_addr then
                let (newRootAddr, d4) := allocate d3
                let root0 : Node := ⟨false, newRootAddr, []⟩
                match nodeInsert (capacity d4.hdr false) dims root0 (mbr2, addr) with
                | none => none
                | some root1 =>
                  match nodeInsert (capacity d4.hdr false) dims root1 (mbr1, newAddr) with
                  | none => none
                  | some root2 =>
                    let d5 := setNode d4 newRootAddr root2
                    some { d5 with hdr := { d5.hdr with root_addr := newRootAddr } }
              else splitGo d3 rest (mbr1, newAddr) (some mbr2)

/-- `RTree::Insert`. -/
def rtreeInsert (d : Disk) (kvp : MBR × Nat) : Option Disk :=
  if d.hdr.root_addr = 0 then
    let (newAddr, d1) := allocate d
    let d2 : Disk := { d1 with hdr := { d1.hdr with root_addr := newAddr } }
    let nd : Node := ⟨true, newAddr, []⟩
    let d3 := setNode d2 newAddr nd
    (nodeInsert (capacity d3.hdr true) d3.hdr.dimensions nd kvp).map
      (fun nd' => setNode d3 newAddr nd')
  else
    match chooseLeafGo (fuelOf d) d kvp.1 d.hdr.root_addr [] with
    | none => none
    | some (path, _) => splitGo d path.reverse kvp none

/-- `RTree::Delete`: find the leaf holding an entry with exactly the
given key; if none, report `false` with the tree untouched; otherwise
remove the slot recorded in the last context frame and run the
(modify-key-less) upward MBR walk over the **whole** recorded path,
the leaf frame included. -/
def rtreeDelete (d : Disk) (key : MBR) : Option (Bool × Disk) :=
  match findLeafGo (fuelOf d) d key d.hdr.root_addr with
  | none => none
  | some none => some (false, d)
  | some (some path) =>
    match path.getLast? with
    | none => none
    | some (taddr, pid) =>
      match getNode d taddr with
      | none => none
      | some nd =>
        let d' := setNode d taddr (deleteElemKey nd pid)
        (modifyParentGo d.hdr.dimensions d' path.reverse none).map (fun d2 => (true, d2))

/-- `RTree::Overlap_Search` (asserts `key.size()/2 == dimensions`). -/
def rtreeOverlapSearch (d : Disk) (key : MBR) : Option (List (MBR × Nat)) :=
  if key.length / 2 = d.hdr.dimensions then
    searchGo (fuelOf d) d key .overlap d.hdr.root_addr
  else none

/-- `RTree::Comprise_Search` (containment search; same assertion). -/
def rtreeCompriseSearch (d : Disk) (key : MBR) : Option (List (MBR × Nat)) :=
  if key.length / 2 = d.hdr.dimensions then
    searchGo (fuelOf d) d key .comprise d.hdr.root_addr
  else none

/-- `RTree::GetAllEntries`. -/
def rtreeGetAllEntries (d : Disk) : Option (List (MBR × Nat)) :=
  if d.hdr.root_addr = 0 then some [] else collectGo (fuelOf d) d d.hdr.root_addr

/-- The disk produced by `RTree::create`: one header block, no nodes,
root set to the invalid sentinel 0. -/
def createDisk (key_size value_size block_size dims : Nat) : Disk :=
  ⟨⟨dims, key_size, value_size, block_size, 0⟩, [], block_size⟩

/-- An `RTree` object as the caller sees it: the file descriptor held
by the `FileCache` and the caller-supplied schema.  (`FileCache.h` is
not among the sources; per the spec's block-store contract it owns one
file descriptor, returned by `get_fd`.) -/
structure RTreeHandle where
  fd : Int
  key_size : Nat
  value_size : Nat
  block_size : Nat
  dimensions : Nat
deriving DecidableEq, Repr

/-- `RTree::open` for an existing file: `fd` is the result of
`openat` (−1 on failure) and `hdr` the index header read from block 0.
Every branch of the source — `openat` failure, schema mismatch and
success — returns `RTree{index, key_size, value_size, block_size,
dimensions}`, i.e. a handle holding `fd` and the caller's schema. -/
def rtreeOpenHandle (fd : Int) (hdr : IndexHeader)
    (key_size value_size block_size dimensions : Nat) : RTreeHandle :=
  if fd = -1 then ⟨fd, key_size, value_size, block_size, dimensions⟩
  else if hdr.key_size ≠ key_size ∨ hdr.value_size ≠ value_size ∨
          hdr.block_size ≠ block_size ∨ hdr.dimensions ≠ dimensions then
    ⟨fd, key_size, value_size, block_size, dimensions⟩
  else ⟨fd, key_size, value_size, block_size, dimensions⟩

/-- `RTree::create`: on `openat`/`ftruncate` failure the handle holds
fd −1 (the invalid-handle convention of this API); on success it holds
the new file's descriptor. -/
def rtreeCreateHandle (fd : Int)
    (key_size value_size block_size dimensions : Nat) : RTreeHandle :=
  if fd = -1 then ⟨-1, key_size, value_size, block_size, dimensions⟩
  else ⟨fd, key_size, value_size, block_size, dimensions⟩

/-- A public mutating operation of the index façade. -/
inductive Op where
  | ins (kvp : MBR × Nat)
  | del (k : MBR)
deriving DecidableEq, Repr

/-- Apply one public operation (a failed/aborted operation is `none`). -/
def applyOp (d : Disk) : Op → Option Disk
  | .ins kvp => rtreeInsert d kvp
  | .del k => (rtreeDelete d k).map Prod.snd

/-- Run a sequence of public operations. -/
def runOps (d : Disk) (ops : List Op) : Option Disk :=
  ops.foldlM applyOp d

/-- Side conditions on a later public operation for the round trip of
the pair keyed `k`: a later insertion carries a well-sized valid
rectangle, and a later deletion targets a key different from `k`. -/
def opOkB (dims : Nat) (k : MBR) : Op → Bool
  | .ins kvp => decide ((kvp.1 : MBR).length = 2 * dims) && validMbr kvp.1
  | .del k2 => decide (k2 ≠ k)

/-- The payload condition on one mutating operation: an inserted
rectangle has `2·D` coordinates and is valid; deletions are
unrestricted. -/
def insOkB (dims : Nat) : Op → Bool
  | .ins kvp => decide ((kvp.1 : MBR).length = 2 * dims) && validMbr kvp.1
  | .del _ => true

/-- The choose-leaf contract stated by the specification (for
comparison with the source's `ChooseLeaf`): minimise
`enlargementCost(key, insertKey) = area(union) − area(key)`, break
ties by smaller `area(key)`, further ties by lowest index. -/
def specEnlargementCost (current new : MBR) : Int :=
  enlargement current new - area current

/-- The entry index the specification's choose-leaf rule selects
(lowest index among minimal cost, then minimal area). -/
def specChooseLeafIdx (key : MBR) (entries : List (MBR × Nat)) : Nat :=
  (entries.foldl
    (fun (st : Option (Nat × Int × Int) × Nat) e =>
      let c := specEnlargementCost e.1 key
      let a := area e.1
      match st.1 with
      | none => (some (st.2, c, a), st.2 + 1)
      | some (bi, bc, ba) =>
        if c < bc ∨ (c = bc ∧ a < ba) then (some (st.2, c, a), st.2 + 1)
        else (some (bi, bc, ba), st.2 + 1))
    (none, 0)).1.elim 0 (fun x => x.1)

/-- The assignment rule claimed for the split distribution: lower
enlargement cost wins; equal costs go to the smaller-area group;
equal areas go to G₁. -/
def specDistribToG1 (exp1 exp2 area1 area2 : Int) : Bool :=
  exp1 < exp2 ∨ (exp1 = exp2 ∧ (area1 < area2 ∨ area1 = area2))

/-- The demo schema: dimensions 2, 32-byte keys (4 coordinates),
2000-byte payloads, 4096-byte blocks.  Leaf capacity
`(4096−24)/2032 = 2`, inner capacity `(4096−24)/40 = 101`. -/
def demoDisk0 : Disk := createDisk 32 2000 4096 2

/-- The state after inserting `([0,0,1,1],1)`, `([10,10,11,11],2)`
and `([20,20,21,21],3)` into the demo index: the third insert splits
the root leaf and promotes an inner root. -/
def demoDisk3 : Disk :=
  ⟨⟨2, 32, 2000, 4096, 12288⟩,
   [(12288, ⟨false, 12288, [([10, 10, 21, 21], 4096), ([0, 0, 1, 1], 8192)]⟩),
    (8192, ⟨true, 8192, [([0, 0, 1, 1], 1)]⟩),
    (4096, ⟨true, 4096, [([20, 20, 21, 21], 3), ([10, 10, 11, 11], 2)]⟩)],
   16384⟩

/-- The state after additionally deleting `[10,10,11,11]`: the leaf at
4096 shrank to `{[20,20,21,21]}` but the root entry covering it still
reads `[10,10,21,21]`. -/
def demoDisk4 : Disk :=
  ⟨⟨2, 32, 2000, 4096, 12288⟩,
   [(12288, ⟨false, 12288, [([10, 10, 21, 21], 4096), ([0, 0, 1, 1], 8192)]⟩),
    (8192, ⟨true, 8192, [([0, 0, 1, 1], 1)]⟩),
    (4096, ⟨true, 4096, [([20, 20, 21, 21], 3)]⟩)],
   16384⟩

/-- A one-leaf index holding a single entry (used for the
empty-the-leaf deletion scenario). -/
def demoLeafDisk : Disk :=
  ⟨⟨2, 32, 2000, 4096, 4096⟩,
   [(4096, ⟨true, 4096, [([0, 0, 1, 1], 7)]⟩)],
   8192⟩

/-- The one-leaf demo index after additionally inserting
`([10,10,11,11],2)` and running a failing `Delete` of the absent key
`[5,5,6,6]`. -/
def demoTraceDisk : Disk :=
  ⟨⟨2, 32, 2000, 4096, 4096⟩,
   [(4096, ⟨true, 4096, [([0, 0, 1, 1], 7), ([10, 10, 11, 11], 2)]⟩)],
   8192⟩

/-- A two-level index used for the choose-leaf scenario: the root has
an entry `[0,0,3,3]` (area 9) and an entry `[5,5,6,6]` (area 1). -/
def demoChooseDisk : Disk :=
  ⟨⟨2, 32, 2000, 4096, 12288⟩,
   [(12288, ⟨false, 12288, [([0, 0, 3, 3], 4096), ([5, 5, 6, 6], 8192)]⟩),
    (4096, ⟨true, 4096, [([0, 0, 3, 3], 11)]⟩),
    (8192, ⟨true, 8192, [([5, 5, 6, 6], 12)]⟩)],
   16384⟩

/-- The state after inserting the **inverted** rectangle `[1,1,0,0]`
(lo > hi on both axes) into the empty demo index. -/
def demoBadDisk : Disk :=
  ⟨⟨2, 32, 2000, 4096, 4096⟩,
   [(4096, ⟨true, 4096, [([1, 1, 0, 0], 9)]⟩)],
   8192⟩

/-- Well-formedness of one entry's key: `2·D` coordinates with
`lo ≤ hi` on every axis. -/
def entryOkB (dims : Nat) (e : MBR × Nat) : Bool :=
  decide (e.1.length = 2 * dims) && validMbr e.1

/-- The covering condition of an inner entry: its key contains the
covering MBR (`get_node_mbr`) of the node its value points to. -/
def childCoverOkB (d : Disk) (e : MBR × Nat) : Bool :=
  match getNode d e.2 with
  | none => false
  | some c =>
    match getNodeMbr c with
    | none => false
    | some cov => mbrGe e.1 cov

/-- Structural well-formedness of the subtree rooted at `addr`
(`fuel` bounds its height): the node exists, knows its own address,
lives inside the allocated file, respects its capacity, is non-empty,
has well-formed keys, and every inner entry points to a well-formed
subtree whose covering MBR it contains. -/
def goodNodeB : Nat → Disk → Nat → Bool
  | 0, _, _ => false
  | Nat.succ h, d, addr =>
    match getNode d addr with
    | none => false
    | some nd =>
      decide (nd.selfAddr = addr) && decide (addr ≠ 0) &&
      decide (addr < d.fileSize) &&
      decide (nd.entries.length ≤ capacity d.hdr nd.isLeaf) &&
      !nd.entries.isEmpty &&
      nd.entries.all (entryOkB d.hdr.dimensions) &&
      (nd.isLeaf || nd.entries.all (fun e => goodNodeB h d e.2 && childCoverOkB d e))

/-- The block addresses of the subtree rooted at `addr`. -/
def subAddrs : Nat → Disk → Nat → List Nat
  | 0, _, a => [a]
  | Nat.succ h, d, a =>
    a :: (match getNode d a with
      | none => []
      | some nd =>
        if nd.isLeaf then [] else nd.entries.flatMap (fun e => subAddrs h d e.2))

/-- Pairwise disjointness of a list of address lists. -/
def pairwiseDisjB : List (List Nat) → Bool
  | [] => true
  | xs :: rest => (rest.all fun ys => xs.all fun x => !ys.contains x) && pairwiseDisjB rest

/-- Separation: distinct children of every inner node own disjoint
subtrees, and no node occurs in a child subtree of its own. -/
def sepB : Nat → Disk → Nat → Bool
  | 0, _, _ => false
  | Nat.succ h, d, a =>
    match getNode d a with
    | none => false
    | some nd =>
      nd.isLeaf ||
      (pairwiseDisjB (nd.entries.map (fun e => subAddrs h d e.2)) &&
       nd.entries.all (fun e => !(subAddrs h d e.2).contains a && sepB h d e.2))

/-- Global well-formedness of an index state: empty, or a good and
separated tree under the root. -/
def WFdisk (d : Disk) : Prop :=
  d.hdr.root_addr = 0 ∨
    ∃ h, goodNodeB h d d.hdr.root_addr = true ∧ sepB h d d.hdr.root_addr = true

/-- Structural height bound: the node exists and every child subtree
fits in one level less (ignores keys and covering). -/
def heightLeB : Nat → Disk → Nat → Bool
  | 0, _, _ => false
  | Nat.succ h, d, a =>
    match getNode d a with
    | none => false
    | some nd => nd.isLeaf || nd.entries.all (fun e => heightLeB h d e.2)

/-- Reachability in the block graph: `x` is an address of the subtree
rooted at `a` (at some exploration depth). -/
def Reach (d : Disk) (a x : Nat) : Prop := ∃ hf, x ∈ subAddrs hf d a

/-- The ancestor chain recorded in a context path, listed deepest
frame first, climbing to the root.  `b` is the node below the first
frame, `D` the set of addresses strictly below `b`'s level, and `cv`
says whether the first frame's entry key is still required to contain
`b`'s covering MBR (it is not when that entry is about to be
overwritten).  Each frame `(a, i)`: the inner node at `a` links to `b`
through entry `i`; its other entries carry good, separated, disjoint
subtrees that avoid every address of the modification zone. -/
def Chain (d : Disk) (H F : Nat) : Bool → List Nat → Nat → List (Nat × Nat) → Prop
  | _, _, b, [] => b = d.hdr.root_addr
  | cv, D, b, (a, i) :: rest =>
    ∃ nd e,
      getNode d a = some nd ∧
      nd.isLeaf = false ∧
      nd.selfAddr = a ∧ a ≠ 0 ∧ a < F ∧
      nd.entries.length ≤ capacity d.hdr false ∧
      (∀ e' ∈ nd.entries, entryOkB d.hdr.dimensions e' = true) ∧
      nd.entries.get? i = some e ∧ e.2 = b ∧
      a ∉ D ∧ a ≠ b ∧ ¬ Reach d b a ∧
      (∀ j e', j ≠ i → nd.entries.get? j = some e' →
        goodNodeB H d e'.2 = true ∧ childCoverOkB d e' = true ∧
        sepB H d e'.2 = true ∧
        (∀ x, Reach d e'.2 x →
          ¬ Reach d b x ∧ x ≠ a ∧ x ∉ D ∧ x < F)) ∧
      (∀ j j' e' e'', j ≠ i → j' ≠ i → j ≠ j' →
        nd.entries.get? j = some e' → nd.entries.get? j' = some e'' →
        ∀ x, Reach d e'.2 x → ¬ Reach d e''.2 x) ∧
      (cv = true →
        ∃ bnd bcov, getNode d b = some bnd ∧ getNodeMbr bnd = some bcov ∧
          mbrGe e.1 bcov = true) ∧
      Chain d H F true (b :: D) a rest

/-- What a successful `FindLeaf` guarantees about its recorded path:
the last frame names a leaf of the subtree holding an exact-match
entry at the recorded slot, and replacing that leaf swaps exactly its
chunk inside the collected leaf entries of the subtree. -/
def DelSpec (d : Disk) (k : MBR) (h addr : Nat)
    (frames : List (Nat × Nat)) : Prop :=
  ∃ t pid tn,
    frames.getLast? = some (t, pid) ∧
    getNode d t = some tn ∧
    tn.isLeaf = true ∧ tn.selfAddr = t ∧ t ≠ 0 ∧ t < d.fileSize ∧
    tn.entries.length ≤ capacity d.hdr true ∧
    (∀ e ∈ tn.entries, entryOkB d.hdr.dimensions e = true) ∧
    (∃ ee, tn.entries.get? pid = some ee ∧ ee.1 = k) ∧
    Reach d addr t ∧
    (∀ tn' : Node, tn'.isLeaf = true → ∃ pre post,
      collectGo h d addr = some (pre ++ tn.entries ++ post) ∧
      collectGo h (setNode d t tn') addr = some (pre ++ tn'.entries ++ post))

/-! ### Basic lemmas about the block store -/

theorem find?_update_self (l : List (Nat × Node)) (a : Nat) (nd : Node)
    (h : (l.find? (fun p => p.1 = a)).isSome) :
    (l.map (fun p => if p.1 = a then (a, nd) else p)).find? (fun p => p.1 = a)
      = some (a, nd) := by
  induction l with
  | nil => simp at h
  | cons p l ih =>
    by_cases hp : p.1 = a
    · simp [hp]
    · rw [List.find?_cons_of_neg _ (by simpa using hp)] at h
      simpa [hp] using ih h

theorem find?_update_ne (l : List (Nat × Node)) (a b : Nat) (nd : Node)
    (h : a ≠ b) :
    (l.map (fun p => if p.1 = a then (a, nd) else p)).find? (fun p => p.1 = b)
      = l.find? (fun p => p.1 = b) := by
  induction l with
  | nil => rfl
  | cons p l ih =>
    by_cases hp : p.1 = a
    · have hb : p.1 ≠ b := by rw [hp]; exact h
      simp only [List.map_cons, if_pos hp]
      rw [List.find?_cons_of_neg _ (by simpa using h),
        List.find?_cons_of_neg _ (by simpa using hb)]
      exact ih
    · simp only [List.map_cons, if_neg hp]
      by_cases hb : p.1 = b
      · rw [List.find?_cons_of_pos _ (by simpa using hb),
          List.find?_cons_of_pos _ (by simpa using hb)]
      · rw [List.find?_cons_of_neg _ (by simpa using hb),
          List.find?_cons_of_neg _ (by simpa using hb)]
        exact ih

theorem setNode_fileSize (d : Disk) (a : Nat) (nd : Node) :
    (setNode d a nd).fileSize = d.fileSize := by
  unfold setNode
  split <;> rfl

theorem setNode_hdr (d : Disk) (a : Nat) (nd : Node) :
    (setNode d a nd).hdr = d.hdr := by
  unfold setNode
  split <;> rfl

theorem getNode_setNode_self (d : Disk) (a : Nat) (nd : Node) :
    getNode (setNode d a nd) a = some nd := by
  simp only [getNode, setNode]
  by_cases h : (d.nodes.find? (fun p => p.1 = a)).isSome
  · rw [if_pos h]
    simp only
    rw [find?_update_self d.nodes a nd h]
    rfl
  · rw [if_neg h]
    simp only
    rw [List.find?_cons_of_pos _ (by simp)]
    rfl

theorem getNode_setNode_ne (d : Disk) (a b : Nat) (nd : Node) (h : a ≠ b) :
    getNode (setNode d a nd) b = getNode d b := by
  simp only [getNode, setNode]
  by_cases hs : (d.nodes.find? (fun p => p.1 = a)).isSome
  · rw [if_pos hs]
    simp only
    rw [find?_update_ne d.nodes a b nd h]
  · rw [if_neg hs]
    simp only
    rw [List.find?_cons_of_neg _ (by simpa using h)]

/-! ### Key-algebra lemmas -/

theorem mbrGe_eq_true_iff (a b : MBR) :
    mbrGe a b = true ↔
      (∀ i < a.length / 2, a.getD i 0 ≤ b.getD i 0) ∧
      (∀ i < a.length / 2,
        b.getD (a.length / 2 + i) 0 ≤ a.getD (a.length / 2 + i) 0) := by
  simp [mbrGe, List.all_eq_true, List.mem_range]

theorem isOverlap_eq_true_iff (a b : MBR) :
    isOverlap a b = true ↔
      ∀ i < a.length / 2,
        a.getD i 0 ≤ b.getD (a.length / 2 + i) 0 ∧
        b.getD i 0 ≤ a.getD (a.length / 2 + i) 0 := by
  simp [isOverlap, List.all_eq_true, List.mem_range]

theorem validMbr_eq_true_iff (a : MBR) :
    validMbr a = true ↔ ∀ i < a.length / 2, a.getD i 0 ≤ a.getD (a.length / 2 + i) 0 := by
  simp [validMbr, List.all_eq_true, List.mem_range]

theorem length_mbrEnlarge (a b : MBR) : (mbrEnlarge a b).length = a.length := by
  simp [mbrEnlarge]

theorem getD_mbrEnlarge (a b : MBR) (i : Nat) (h : i < a.length) :
    (mbrEnlarge a b).getD i 0 =
      if i < a.length / 2 then min (a.getD i 0) (b.getD i 0)
      else max (a.getD i 0) (b.getD i 0) := by
  unfold mbrEnlarge
  rw [List.getD_eq_getElem?_getD, List.getElem?_map, List.getElem?_range h]
  rfl

theorem mbrGe_refl (a : MBR) : mbrGe a a = true := by
  rw [mbrGe_eq_true_iff]
  exact ⟨fun i _ => le_refl _, fun i _ => le_refl _⟩

theorem mbrGe_trans (a b c : MBR) (h1 : a.length = b.length)
    (hab : mbrGe a b = true) (hbc : mbrGe b c = true) : mbrGe a c = true := by
  rw [mbrGe_eq_true_iff] at hab hbc ⊢
  refine ⟨fun i hi => ?_, fun i hi => ?_⟩
  · exact le_trans (hab.1 i hi) (hbc.1 i (by omega))
  · have := hbc.2 i (by omega)
    rw [← h1] at this
    exact le_trans this (hab.2 i hi)

theorem mbrGe_mbrEnlarge_left (a b : MBR) : mbrGe (mbrEnlarge a b) a = true := by
  rw [mbrGe_eq_true_iff]
  rw [length_mbrEnlarge]
  constructor
  · intro i hi
    rw [getD_mbrEnlarge a b i (by omega), if_pos hi]
    exact min_le_left _ _
  · intro i hi
    rw [getD_mbrEnlarge a b _ (by omega), if_neg (by omega)]
    exact le_max_left _ _

theorem mbrGe_mbrEnlarge_right (a b : MBR) (h : b.length = a.length) :
    mbrGe (mbrEnlarge a b) b = true := by
  rw [mbrGe_eq_true_iff]
  rw [length_mbrEnlarge]
  constructor
  · intro i hi
    rw [getD_mbrEnlarge a b i (by omega), if_pos hi]
    exact min_le_right _ _
  · intro i hi
    rw [getD_mbrEnlarge a b _ (by omega), if_neg (by omega)]
    exact le_max_right _ _

theorem mbrGe_mbrEnlarge_lub (c a b : MBR) (h : a.length = c.length)
    (hca : mbrGe c a = true) (hcb : mbrGe c b = true) :
    mbrGe c (mbrEnlarge a b) = true := by
  rw [mbrGe_eq_true_iff] at hca hcb ⊢
  have hh : c.length / 2 = a.length / 2 := by omega
  constructor
  · intro i hi
    rw [getD_mbrEnlarge a b i (by omega), if_pos (by omega)]
    exact le_min (hca.1 i hi) (hcb.1 i hi)
  · intro i hi
    have ha2 := hca.2 i hi
    have hb2 := hcb.2 i hi
    rw [hh] at ha2 hb2 ⊢
    rw [getD_mbrEnlarge a b _ (by omega), if_neg (by omega)]
    exact max_le ha2 hb2

theorem validMbr_mbrEnlarge (a b : MBR) (h : b.length = a.length)
    (ha : validMbr a = true) (hb : validMbr b = true) :
    validMbr (mbrEnlarge a b) = true := by
  rw [validMbr_eq_true_iff] at ha hb ⊢
  intro i hi
  rw [length_mbrEnlarge] at hi ⊢
  rw [getD_mbrEnlarge a b i (by omega), if_pos (by omega),
    getD_mbrEnlarge a b _ (by omega), if_neg (by omega)]
  rcases le_total (a.getD i 0) (b.getD i 0) with hmin | hmin
  · rw [min_eq_left hmin]
    exact le_trans (ha i (by omega)) (le_max_left _ _)
  · rw [min_eq_right hmin]
    refine le_trans ?_ (le_max_right _ _)
    have := hb i (by omega)
    rw [show b.length / 2 + i = a.length / 2 + i by omega] at this
    exact this

theorem isOverlap_of_ge_of_overlap (c e q : MBR) (h1 : c.length = e.length)
    (h2 : e.length = q.length) (hce : mbrGe c e = true)
    (heq : isOverlap e q = true) : isOverlap c q = true := by
  rw [mbrGe_eq_true_iff] at hce
  rw [isOverlap_eq_true_iff] at heq ⊢
  have hh : c.length / 2 = e.length / 2 := by omega
  intro i hi
  rw [hh] at hi ⊢
  obtain ⟨o1, o2⟩ := heq i hi
  have g1 := hce.1 i (by omega)
  have g2 := hce.2 i (by omega)
  rw [hh] at g2
  exact ⟨le_trans g1 o1, le_trans o2 g2⟩

theorem isOverlap_of_ge_of_contains (c e q : MBR) (h1 : c.length = e.length)
    (h2 : q.length = e.length) (hce : mbrGe c e = true)
    (hqe : mbrGe q e = true) (hv : validMbr e = true) :
    isOverlap c q = true := by
  rw [mbrGe_eq_true_iff] at hce hqe
  rw [validMbr_eq_true_iff] at hv
  rw [isOverlap_eq_true_iff]
  have hh : c.length / 2 = e.length / 2 := by omega
  have hq : q.length / 2 = e.length / 2 := by omega
  intro i hi
  rw [hh] at hi ⊢
  have hvi := hv i hi
  constructor
  · -- c.lo ≤ e.lo ≤ e.hi ≤ q.hi
    have := hqe.2 i (by omega)
    rw [hq] at this
    exact le_trans (hce.1 i (by omega)) (le_trans hvi this)
  · -- q.lo ≤ e.lo ≤ e.hi ≤ c.hi
    have := hce.2 i (by omega)
    rw [hh] at this
    exact le_trans (hqe.1 i (by omega)) (le_trans hvi this)

/-! ### Covering-fold lemmas -/

theorem length_foldl_enlarge (ks : List (MBR × Nat)) (m0 : MBR) :
    (ks.foldl (fun m p => mbrEnlarge m p.1) m0).length = m0.length := by
  induction ks generalizing m0 with
  | nil => rfl
  | cons k ks ih => rw [List.foldl_cons, ih, length_mbrEnlarge]

theorem mbrGe_foldl_enlarge_base (ks : List (MBR × Nat)) (m0 : MBR) :
    mbrGe (ks.foldl (fun m p => mbrEnlarge m p.1) m0) m0 = true := by
  induction ks generalizing m0 with
  | nil => exact mbrGe_refl m0
  | cons k ks ih =>
    rw [List.foldl_cons]
    refine mbrGe_trans _ (mbrEnlarge m0 k.1) _ ?_ (ih _) (mbrGe_mbrEnlarge_left m0 k.1)
    rw [length_foldl_enlarge, length_mbrEnlarge]

theorem mbrGe_foldl_enlarge_mem (ks : List (MBR × Nat)) (m0 : MBR)
    (hk : ∀ e ∈ ks, (e.1 : MBR).length = m0.length) :
    ∀ e ∈ ks, mbrGe (ks.foldl (fun m p => mbrEnlarge m p.1) m0) e.1 = true := by
  induction ks generalizing m0 with
  | nil => intro e he; simp at he
  | cons k ks ih =>
    intro e he
    rw [List.foldl_cons]
    rcases List.mem_cons.mp he with rfl | he
    · refine mbrGe_trans _ (mbrEnlarge m0 e.1) _ ?_ (mbrGe_foldl_enlarge_base _ _) ?_
      · rw [length_foldl_enlarge, length_mbrEnlarge]
      · exact mbrGe_mbrEnlarge_right m0 e.1 (hk e (by simp))
    · refine ih (mbrEnlarge m0 k.1) ?_ e he
      intro e' he'
      rw [length_mbrEnlarge]
      exact hk e' (List.mem_cons_of_mem _ he')

theorem validMbr_foldl_enlarge (ks : List (MBR × Nat)) (m0 : MBR)
    (hk : ∀ e ∈ ks, (e.1 : MBR).length = m0.length ∧ validMbr e.1 = true)
    (hv0 : validMbr m0 = true) :
    validMbr (ks.foldl (fun m p => mbrEnlarge m p.1) m0) = true := by
  induction ks generalizing m0 with
  | nil => exact hv0
  | cons k ks ih =>
    rw [List.foldl_cons]
    refine ih (mbrEnlarge m0 k.1) ?_ ?_
    · intro e' he'
      rw [length_mbrEnlarge]
      exact hk e' (List.mem_cons_of_mem _ he')
    · exact validMbr_mbrEnlarge m0 k.1 (hk k (by simp)).1 hv0 (hk k (by simp)).2

theorem mbrGe_foldl_enlarge_lub (C : MBR) (ks : List (MBR × Nat)) (m0 : MBR)
    (hlen : m0.length = C.length)
    (hC0 : mbrGe C m0 = true)
    (hCk : ∀ e ∈ ks, mbrGe C e.1 = true) :
    mbrGe C (ks.foldl (fun m p => mbrEnlarge m p.1) m0) = true := by
  induction ks generalizing m0 with
  | nil => exact hC0
  | cons k ks ih =>
    rw [List.foldl_cons]
    refine ih (mbrEnlarge m0 k.1) ?_ ?_ ?_
    · rw [length_mbrEnlarge]; exact hlen
    · exact mbrGe_mbrEnlarge_lub C m0 k.1 hlen hC0 (hCk k (by simp))
    · intro e' he'
      exact hCk e' (List.mem_cons_of_mem _ he')

theorem getNodeMbr_spec (nd : Node) (L : Nat)
    (hne : nd.entries ≠ [])
    (hk : ∀ e ∈ nd.entries, (e.1 : MBR).length = L ∧ validMbr e.1 = true) :
    ∃ cov, getNodeMbr nd = some cov ∧ cov.length = L ∧ validMbr cov = true ∧
      ∀ e ∈ nd.entries, mbrGe cov e.1 = true := by
  cases hE : nd.entries with
  | nil => exact absurd hE hne
  | cons e0 rest =>
    have h0 := hk e0 (by rw [hE]; simp)
    refine ⟨rest.foldl (fun m p => mbrEnlarge m p.1) e0.1, ?_, ?_, ?_, ?_⟩
    · rw [getNodeMbr, hE]
    · rw [length_foldl_enlarge]; exact h0.1
    · refine validMbr_foldl_enlarge rest e0.1 ?_ h0.2
      intro e' he'
      have := hk e' (by rw [hE]; exact List.mem_cons_of_mem _ he')
      exact ⟨this.1.trans h0.1.symm, this.2⟩
    · intro e he
      rcases List.mem_cons.mp he with rfl | he
      · exact mbrGe_foldl_enlarge_base rest e.1
      · refine mbrGe_foldl_enlarge_mem rest e0.1 ?_ e he
        intro e' he'
        have := hk e' (by rw [hE]; exact List.mem_cons_of_mem _ he')
        exact this.1.trans h0.1.symm

theorem getNodeMbr_lub (nd : Node) (C cov : MBR) (L : Nat)
    (hcov : getNodeMbr nd = some cov)
    (hk : ∀ e ∈ nd.entries, (e.1 : MBR).length = L)
    (hL : L = C.length)
    (hCk : ∀ e ∈ nd.entries, mbrGe C e.1 = true) :
    mbrGe C cov = true := by
  cases hE : nd.entries with
  | nil => rw [getNodeMbr, hE] at hcov; exact absurd hcov (by simp)
  | cons e0 rest =>
    rw [getNodeMbr, hE] at hcov
    have hcov' : cov = rest.foldl (fun m p => mbrEnlarge m p.1) e0.1 := by
      exact (Option.some.injEq _ _ ▸ hcov).symm
    rw [hcov']
    refine mbrGe_foldl_enlarge_lub C rest e0.1 ?_ ?_ ?_
    · rw [← hL]; exact hk e0 (by rw [hE]; simp)
    · exact hCk e0 (by rw [hE]; simp)
    · intro e' he'
      exact hCk e' (by rw [hE]; exact List.mem_cons_of_mem _ he')

/-! ### Well-formedness lemmas -/

theorem entryOkB_iff (dims : Nat) (e : MBR × Nat) :
    entryOkB dims e = true ↔ (e.1 : MBR).length = 2 * dims ∧ validMbr e.1 = true := by
  simp [entryOkB]

theorem childCoverOkB_iff (d : Disk) (e : MBR × Nat) :
    childCoverOkB d e = true ↔
      ∃ c cov, getNode d e.2 = some c ∧ getNodeMbr c = some cov ∧
        mbrGe e.1 cov = true := by
  unfold childCoverOkB
  cases hc : getNode d e.2 with
  | none => simp
  | some c =>
    cases hm : getNodeMbr c with
    | none => simp [hm]
    | some cov => simp [hm]

theorem goodNodeB_succ_eq (h : Nat) (d : Disk) (addr : Nat) :
    goodNodeB (Nat.succ h) d addr =
      (match getNode d addr with
       | none => false
       | some nd =>
         decide (nd.selfAddr = addr) && decide (addr ≠ 0) &&
         decide (addr < d.fileSize) &&
         decide (nd.entries.length ≤ capacity d.hdr nd.isLeaf) &&
         !nd.entries.isEmpty &&
         nd.entries.all (entryOkB d.hdr.dimensions) &&
         (nd.isLeaf ||
          nd.entries.all (fun e => goodNodeB h d e.2 && childCoverOkB d e))) := rfl

theorem goodNodeB_succ_iff (h : Nat) (d : Disk) (addr : Nat) :
    goodNodeB (Nat.succ h) d addr = true ↔
      ∃ nd, getNode d addr = some nd ∧ nd.selfAddr = addr ∧ addr ≠ 0 ∧
        addr < d.fileSize ∧ nd.entries.length ≤ capacity d.hdr nd.isLeaf ∧
        nd.entries ≠ [] ∧
        (∀ e ∈ nd.entries, entryOkB d.hdr.dimensions e = true) ∧
        (nd.isLeaf = true ∨
          ∀ e ∈ nd.entries, goodNodeB h d e.2 = true ∧ childCoverOkB d e = true) := by
  rw [goodNodeB_succ_eq]
  cases hn : getNode d addr with
  | none => simp
  | some nd =>
    simp only [Option.some.injEq, Bool.and_eq_true, decide_eq_true_eq,
      Bool.not_eq_true', List.all_eq_true, Bool.or_eq_true,
      List.isEmpty_eq_false]
    constructor
    · rintro ⟨⟨⟨⟨⟨⟨hself, hnz⟩, hfs⟩, hcap⟩, hemp⟩, hok⟩, hrest⟩
      refine ⟨nd, rfl, hself, hnz, hfs, hcap, hemp, hok, ?_⟩
      rcases hrest with hleaf | hall
      · exact Or.inl hleaf
      · exact Or.inr hall
    · rintro ⟨nd', hnd', hself, hnz, hfs, hcap, hne, hok, hrest⟩
      obtain rfl : nd = nd' := hnd'
      refine ⟨⟨⟨⟨⟨⟨hself, hnz⟩, hfs⟩, hcap⟩, hne⟩, hok⟩, ?_⟩
      rcases hrest with hleaf | hall
      · exact Or.inl hleaf
      · exact Or.inr hall

theorem goodNodeB_mono (d : Disk) : ∀ (h h' addr : Nat), h ≤ h' →
    goodNodeB h d addr = true → goodNodeB h' d addr = true := by
  intro h
  induction h with
  | zero => intro h' addr _ hg; simp [goodNodeB] at hg
  | succ h ih =>
    intro h' addr hle hg
    cases h' with
    | zero => omega
    | succ h' =>
      rw [goodNodeB_succ_iff] at hg ⊢
      obtain ⟨nd, h1, h2, h3, h4, h5, h6, h7, h8⟩ := hg
      refine ⟨nd, h1, h2, h3, h4, h5, h6, h7, ?_⟩
      rcases h8 with hleaf | hall
      · exact Or.inl hleaf
      · exact Or.inr fun e he =>
          ⟨ih h' e.2 (by omega) (hall e he).1, (hall e he).2⟩

/-! ### Congruence and stability lemmas -/

theorem getNode_nodes_congr (d d' : Disk) (a : Nat) (hn : d.nodes = d'.nodes) :
    getNode d a = getNode d' a := by
  simp [getNode, hn]

theorem collectEnts_mono_rec (rec rec' : Nat → Option (List (MBR × Nat)))
    (hrec : ∀ a r, rec a = some r → rec' a = some r) :
    ∀ l out, collectEnts rec l = some out → collectEnts rec' l = some out := by
  intro l
  induction l with
  | nil => intro out h; exact h
  | cons e rest ih =>
    intro out h
    rw [collectEnts] at h ⊢
    cases hr : rec e.2 with
    | none => rw [hr] at h; exact absurd h (by simp)
    | some sub =>
      rw [hr] at h
      rw [hrec e.2 sub hr]
      cases hrest : collectEnts rec rest with
      | none => rw [hrest] at h; exact absurd h (by simp)
      | some l' =>
        rw [hrest] at h
        rw [ih l' hrest]
        exact h

theorem collectGo_fuel_mono (d : Disk) :
    ∀ h h' a l, h ≤ h' → collectGo h d a = some l → collectGo h' d a = some l := by
  intro h
  induction h with
  | zero => intro h' a l _ hc; simp [collectGo] at hc
  | succ h ih =>
    intro h' a l hle hc
    cases h' with
    | zero => omega
    | succ h' =>
      rw [collectGo] at hc ⊢
      cases hn : getNode d a with
      | none => rw [hn] at hc; exact absurd hc (by simp)
      | some nd =>
        rw [hn] at hc
        dsimp only at hc ⊢
        by_cases hl : nd.isLeaf
        · rw [if_pos hl] at hc ⊢; exact hc
        · rw [if_neg hl] at hc ⊢
          exact collectEnts_mono_rec _ _ (fun a' r hr => ih h' a' r (by omega) hr)
            nd.entries l hc

theorem collectEnts_congr_rec (rec rec' : Nat → Option (List (MBR × Nat)))
    (hrec : ∀ a, rec a = rec' a) :
    ∀ l, collectEnts rec l = collectEnts rec' l := by
  intro l
  induction l with
  | nil => rfl
  | cons e rest ih => rw [collectEnts, collectEnts, hrec e.2, ih]

theorem collectGo_nodes_congr (d d' : Disk) (hn : d.nodes = d'.nodes) :
    ∀ h a, collectGo h d a = collectGo h d' a := by
  intro h
  induction h with
  | zero => intro a; rfl
  | succ h ih =>
    intro a
    rw [collectGo, collectGo, getNode_nodes_congr d d' a hn]
    cases getNode d' a with
    | none => rfl
    | some nd =>
      dsimp only
      by_cases hl : nd.isLeaf
      · rw [if_pos hl, if_pos hl]
      · rw [if_neg hl, if_neg hl]
        exact collectEnts_congr_rec _ _ (fun a' => ih a') nd.entries

theorem subAddrs_nodes_congr (d d' : Disk) (hn : d.nodes = d'.nodes) :
    ∀ h a, subAddrs h d a = subAddrs h d' a := by
  intro h
  induction h with
  | zero => intro a; rfl
  | succ h ih =>
    intro a
    rw [subAddrs, subAddrs, getNode_nodes_congr d d' a hn]
    cases getNode d' a with
    | none => rfl
    | some nd =>
      dsimp only
      by_cases hl : nd.isLeaf
      · rw [if_pos hl, if_pos hl]
      · rw [if_neg hl, if_neg hl]
        simp only [ih]

theorem all_congr_mem {α : Type} (l : List α) (f g : α → Bool)
    (h : ∀ e ∈ l, f e = g e) : l.all f = l.all g := by
  induction l with
  | nil => rfl
  | cons e rest ih =>
    simp only [List.all_cons]
    rw [h e (by simp), ih (fun e' he' => h e' (List.mem_cons_of_mem _ he'))]

theorem flatMap_congr_mem {α β : Type} (l : List α) (f g : α → List β)
    (h : ∀ e ∈ l, f e = g e) : l.flatMap f = l.flatMap g := by
  induction l with
  | nil => rfl
  | cons e rest ih =>
    simp only [List.flatMap_cons]
    rw [h e (by simp), ih (fun e' he' => h e' (List.mem_cons_of_mem _ he'))]

theorem mem_subAddrs_self (h : Nat) (d : Disk) (a : Nat) : a ∈ subAddrs h d a := by
  cases h with
  | zero => simp [subAddrs]
  | succ h => simp [subAddrs]

theorem mem_subAddrs_child (h : Nat) (d : Disk) (a : Nat) (nd : Node)
    (e : MBR × Nat) (hn : getNode d a = some nd) (hl : nd.isLeaf = false)
    (he : e ∈ nd.entries) :
    ∀ y ∈ subAddrs h d e.2, y ∈ subAddrs (Nat.succ h) d a := by
  intro y hy
  rw [subAddrs, hn]
  dsimp only
  rw [hl]
  simp only [if_neg (by simp : ¬(false = true))]
  exact List.mem_cons_of_mem _ (List.mem_flatMap.mpr ⟨e, he, hy⟩)

theorem goodNode_subAddrs_bound (d : Disk) : ∀ h a, goodNodeB h d a = true →
    ∀ y ∈ subAddrs h d a, y ≠ 0 ∧ y < d.fileSize := by
  intro h
  induction h with
  | zero => intro a hg; simp [goodNodeB] at hg
  | succ h ih =>
    intro a hg y hy
    rw [goodNodeB_succ_iff] at hg
    obtain ⟨nd, h1, _h2, h3, h4, _h5, _h6, _h7, h8⟩ := hg
    rw [subAddrs, h1] at hy
    dsimp only at hy
    rcases List.mem_cons.mp hy with rfl | hy
    · exact ⟨h3, h4⟩
    · by_cases hl : nd.isLeaf
      · rw [if_pos hl] at hy; simp at hy
      · rw [if_neg hl] at hy
        obtain ⟨e, he, hye⟩ := List.mem_flatMap.mp hy
        rcases h8 with hleaf | hall
        · exact absurd hleaf hl
        · exact ih e.2 (hall e he).1 y hye

theorem subAddrs_setNode_outside (d : Disk) (x : Nat) (nd : Node) :
    ∀ h a, x ∉ subAddrs h d a → subAddrs h (setNode d x nd) a = subAddrs h d a := by
  intro h
  induction h with
  | zero => intro a _; rfl
  | succ h ih =>
    intro a hx
    have hxa : x ≠ a := fun hc => hx (by rw [hc]; exact mem_subAddrs_self _ d a)
    rw [subAddrs, subAddrs, getNode_setNode_ne d x a nd hxa]
    cases hn : getNode d a with
    | none => rfl
    | some nd' =>
      dsimp only
      by_cases hl : nd'.isLeaf
      · rw [if_pos hl, if_pos hl]
      · rw [if_neg hl, if_neg hl]
        congr 1
        refine flatMap_congr_mem _ _ _ (fun e he => ih e.2 (fun hc => hx ?_))
        exact mem_subAddrs_child h d a nd' e hn (by simpa using hl) he x hc

theorem collectEnts_congr_mem (rec rec' : Nat → Option (List (MBR × Nat)))
    (l : List (MBR × Nat)) (h : ∀ e ∈ l, rec e.2 = rec' e.2) :
    collectEnts rec l = collectEnts rec' l := by
  induction l with
  | nil => rfl
  | cons e rest ih =>
    rw [collectEnts, collectEnts, h e (by simp),
      ih (fun e' he' => h e' (List.mem_cons_of_mem _ he'))]

theorem collectGo_setNode_outside (d : Disk) (x : Nat) (nd : Node) :
    ∀ h a, x ∉ subAddrs h d a →
      collectGo h (setNode d x nd) a = collectGo h d a := by
  intro h
  induction h with
  | zero => intro a _; rfl
  | succ h ih =>
    intro a hx
    have hxa : x ≠ a := fun hc => hx (by rw [hc]; exact mem_subAddrs_self _ d a)
    rw [collectGo, collectGo, getNode_setNode_ne d x a nd hxa]
    cases hn : getNode d a with
    | none => rfl
    | some nd' =>
      dsimp only
      by_cases hl : nd'.isLeaf
      · rw [if_pos hl, if_pos hl]
      · rw [if_neg hl, if_neg hl]
        refine collectEnts_congr_mem _ _ _ (fun e he => ih e.2 (fun hc => hx ?_))
        exact mem_subAddrs_child h d a nd' e hn (by simpa using hl) he x hc

theorem childCoverOkB_setNode_outside (d : Disk) (x : Nat) (nd : Node)
    (e : MBR × Nat) (hx : x ≠ e.2) :
    childCoverOkB (setNode d x nd) e = childCoverOkB d e := by
  rw [childCoverOkB, childCoverOkB, getNode_setNode_ne d x e.2 nd hx]

theorem goodNodeB_setNode_outside (d : Disk) (x : Nat) (nd : Node) :
    ∀ h a, x ∉ subAddrs h d a →
      goodNodeB h (setNode d x nd) a = goodNodeB h d a := by
  intro h
  induction h with
  | zero => intro a _; rfl
  | succ h ih =>
    intro a hx
    have hxa : x ≠ a := fun hc => hx (by rw [hc]; exact mem_subAddrs_self _ d a)
    rw [goodNodeB_succ_eq, goodNodeB_succ_eq, getNode_setNode_ne d x a nd hxa]
    cases hn : getNode d a with
    | none => rfl
    | some nd' =>
      dsimp only
      by_cases hl : nd'.isLeaf
      · rw [hl]
        simp only [setNode_fileSize, setNode_hdr, Bool.true_or]
      · rw [show nd'.isLeaf = false by simpa using hl]
        simp only [Bool.false_or]
        have hch : ∀ e ∈ nd'.entries,
            (goodNodeB h (setNode d x nd) e.2 && childCoverOkB (setNode d x nd) e)
              = (goodNodeB h d e.2 && childCoverOkB d e) := by
          intro e he
          have hsub : x ∉ subAddrs h d e.2 := fun hc =>
            hx (mem_subAddrs_child h d a nd' e hn (by simpa using hl) he x hc)
          have hxe : x ≠ e.2 := fun hc => hsub (by rw [hc]; exact mem_subAddrs_self _ d e.2)
          rw [ih e.2 hsub, childCoverOkB_setNode_outside d x nd e hxe]
        rw [all_congr_mem _ _ _ hch]
        simp only [setNode_fileSize, setNode_hdr]

theorem map_congr_mem {α β : Type} (l : List α) (f g : α → β)
    (h : ∀ e ∈ l, f e = g e) : l.map f = l.map g := by
  induction l with
  | nil => rfl
  | cons e rest ih =>
    simp only [List.map_cons]
    rw [h e (by simp), ih (fun e' he' => h e' (List.mem_cons_of_mem _ he'))]

theorem sepB_setNode_outside (d : Disk) (x : Nat) (nd : Node) :
    ∀ h a, x ∉ subAddrs h d a →
      sepB h (setNode d x nd) a = sepB h d a := by
  intro h
  induction h with
  | zero => intro a _; rfl
  | succ h ih =>
    intro a hx
    have hxa : x ≠ a := fun hc => hx (by rw [hc]; exact mem_subAddrs_self _ d a)
    rw [sepB, sepB, getNode_setNode_ne d x a nd hxa]
    cases hn : getNode d a with
    | none => rfl
    | some nd' =>
      dsimp only
      by_cases hl : nd'.isLeaf
      · rw [hl]
        simp only [Bool.true_or]
      · rw [show nd'.isLeaf = false by simpa using hl]
        simp only [Bool.false_or]
        have hout : ∀ e ∈ nd'.entries, x ∉ subAddrs h d e.2 := by
          intro e he hc
          exact hx (mem_subAddrs_child h d a nd' e hn (by simpa using hl) he x hc)
        rw [map_congr_mem _ _ _
          (fun e he => subAddrs_setNode_outside d x nd h e.2 (hout e he))]
        rw [all_congr_mem _ _ _ (fun e he => by
          rw [subAddrs_setNode_outside d x nd h e.2 (hout e he), ih e.2 (hout e he)])]

/-! ### Collection and search lemmas -/

theorem collectEnts_ok (rec : Nat → Option (List (MBR × Nat))) :
    ∀ entries : List (MBR × Nat),
    (∀ e ∈ entries, ∃ le, rec e.2 = some le) →
    ∃ l, collectEnts rec entries = some l ∧
      (∀ x ∈ l, ∃ e ∈ entries, ∃ le, rec e.2 = some le ∧ x ∈ le) ∧
      (∀ e ∈ entries, ∀ le, rec e.2 = some le → ∀ x ∈ le, x ∈ l) := by
  intro entries
  induction entries with
  | nil => intro _; exact ⟨[], rfl, by simp, by simp⟩
  | cons e rest ih =>
    intro hch
    obtain ⟨le, hle⟩ := hch e (by simp)
    obtain ⟨l, hl, hmem, hall⟩ := ih (fun e' he' => hch e' (List.mem_cons_of_mem _ he'))
    refine ⟨le ++ l, ?_, ?_, ?_⟩
    · rw [collectEnts, hle, hl]
    · intro x hx
      rcases List.mem_append.mp hx with hx | hx
      · exact ⟨e, by simp, le, hle, hx⟩
      · obtain ⟨e', he', le', hle', hx'⟩ := hmem x hx
        exact ⟨e', List.mem_cons_of_mem _ he', le', hle', hx'⟩
    · intro e' he' le' hle' x hx
      rcases List.mem_cons.mp he' with rfl | he'
      · have hEq : le = le' := by
          have := hle.symm.trans hle'
          injection this
        exact List.mem_append.mpr (Or.inl (hEq ▸ hx))
      · exact List.mem_append.mpr (Or.inr (hall e' he' le' hle' x hx))

theorem collect_good (d : Disk) : ∀ h addr, goodNodeB h d addr = true →
    ∃ nd l cov, getNode d addr = some nd ∧ collectGo h d addr = some l ∧
      getNodeMbr nd = some cov ∧ l ≠ [] ∧
      cov.length = 2 * d.hdr.dimensions ∧ validMbr cov = true ∧
      ∀ x ∈ l, (x.1 : MBR).length = 2 * d.hdr.dimensions ∧ validMbr x.1 = true ∧
        mbrGe cov x.1 = true := by
  intro h
  induction h with
  | zero => intro addr hg; simp [goodNodeB] at hg
  | succ h ih =>
    intro addr hg
    rw [goodNodeB_succ_iff] at hg
    obtain ⟨nd, h1, _h2, _h3, _h4, _h5, h6, h7, h8⟩ := hg
    have hkeys : ∀ e ∈ nd.entries,
        (e.1 : MBR).length = 2 * d.hdr.dimensions ∧ validMbr e.1 = true :=
      fun e he => (entryOkB_iff _ _).mp (h7 e he)
    obtain ⟨cov, hcov, hcovlen, hcovval, hcovge⟩ :=
      getNodeMbr_spec nd (2 * d.hdr.dimensions) h6 hkeys
    by_cases hl : nd.isLeaf
    · refine ⟨nd, nd.entries, cov, h1, ?_, hcov, h6, hcovlen, hcovval, ?_⟩
      · rw [collectGo, h1]
        dsimp only
        rw [if_pos hl]
      · intro x hx
        exact ⟨(hkeys x hx).1, (hkeys x hx).2, hcovge x hx⟩
    · rcases h8 with hleaf | hall
      · exact absurd hleaf hl
      · have hch : ∀ e ∈ nd.entries, ∃ le, collectGo h d e.2 = some le := by
          intro e he
          obtain ⟨_, le, _, _, hle, _⟩ := ih e.2 (hall e he).1
          exact ⟨le, hle⟩
        obtain ⟨l, hlc, hmem, hup1⟩ := collectEnts_ok (fun a => collectGo h d a) nd.entries hch
        refine ⟨nd, l, cov, h1, ?_, hcov, ?_, hcovlen, hcovval, ?_⟩
        · rw [collectGo, h1]
          dsimp only
          rw [if_neg hl]
          exact hlc
        · -- the node is non-empty and each child collection is non-empty
          obtain ⟨e0, he0⟩ : ∃ e0, e0 ∈ nd.entries := by
            cases hE : nd.entries with
            | nil => exact absurd hE h6
            | cons a t => exact ⟨a, by simp [hE]⟩
          obtain ⟨_, le, _, _, hle, _, hlne, _⟩ := ih e0.2 (hall e0 he0).1
          obtain ⟨x0, hx0⟩ : ∃ x0, x0 ∈ le := by
            cases hE : le with
            | nil => exact absurd hE hlne
            | cons a t => exact ⟨a, by simp [hE]⟩
          intro hcon
          rw [hcon] at hup1
          exact absurd (hup1 e0 he0 le hle x0 hx0) (by simp)
        · intro x hx
          obtain ⟨e, he, le, hle, hxe⟩ := hmem x hx
          obtain ⟨cnd, le', ccov, hcnd, hle', hccov, _, hclen, _, hprops⟩ :=
            ih e.2 (hall e he).1
          have : le' = le := by
            have := hle'.symm.trans hle
            injection this
          subst this
          obtain ⟨hxlen, hxval, hxge⟩ := hprops x hxe
          -- entry key contains the child's covering MBR
          obtain ⟨c2, cov2, hc2, hcov2, hge2⟩ := (childCoverOkB_iff d e).mp (hall e he).2
          have hc2e : c2 = cnd := by
            have := hc2.symm.trans hcnd
            injection this
          rw [hc2e] at hcov2
          have hcov2e : cov2 = ccov := by
            have := hcov2.symm.trans hccov
            injection this
          rw [hcov2e] at hge2
          refine ⟨hxlen, hxval, ?_⟩
          -- cov ⊇ e.key ⊇ ccov ⊇ x.key
          have hek := hkeys e he
          have g1 : mbrGe cov e.1 = true := hcovge e he
          have g2 : mbrGe e.1 ccov = true := hge2
          have g3 : mbrGe ccov x.1 = true := hxge
          refine mbrGe_trans cov ccov x.1 (by omega) ?_ g3
          exact mbrGe_trans cov e.1 ccov (by rw [hcovlen, hek.1]) g1 g2

theorem searchEnts_filter_inner (d : Disk) (q : MBR) (mode : SearchMode) (h : Nat)
    (hq : q.length = 2 * d.hdr.dimensions)
    (hrec : ∀ addr', goodNodeB h d addr' = true →
      ∃ l, collectGo h d addr' = some l ∧
        searchGo h d q mode addr' = some (l.filter (leafMatch mode q))) :
    ∀ entries : List (MBR × Nat),
    (∀ e ∈ entries, entryOkB d.hdr.dimensions e = true ∧
      goodNodeB h d e.2 = true ∧ childCoverOkB d e = true) →
    ∃ lc, collectEnts (fun a => collectGo h d a) entries = some lc ∧
      searchEnts (fun a => searchGo h d q mode a) q entries
        = some (lc.filter (leafMatch mode q)) := by
  intro entries
  induction entries with
  | nil => intro _; exact ⟨[], rfl, rfl⟩
  | cons e rest ihrest =>
    intro hents
    obtain ⟨hok, hgood, hcok⟩ := hents e (by simp)
    obtain ⟨lc, hlc, hsrest⟩ :=
      ihrest (fun e' he' => hents e' (List.mem_cons_of_mem _ he'))
    obtain ⟨cnd, le, ccov, hcnd, hle, hccov, _, hcovlen, _, hprops⟩ :=
      collect_good d h e.2 hgood
    have hcoll : collectEnts (fun a => collectGo h d a) (e :: rest) = some (le ++ lc) := by
      rw [collectEnts, hle, hlc]
    by_cases hov : isOverlap e.1 q = true
    · obtain ⟨l2, hl2, hs2⟩ := hrec e.2 hgood
      have hl2e : l2 = le := by
        have := hl2.symm.trans hle
        injection this
      rw [hl2e] at hs2
      refine ⟨le ++ lc, hcoll, ?_⟩
      rw [searchEnts, if_pos hov, hs2, hsrest, List.filter_append]
    · -- pruned subtree: no collected entry below can match the query
      have hecov := (childCoverOkB_iff d e).mp hcok
      obtain ⟨c2, cov2, hc2, hcov2, hge2⟩ := hecov
      have hc2e : c2 = cnd := by
        have := hc2.symm.trans hcnd
        injection this
      rw [hc2e] at hcov2
      have hcov2e : cov2 = ccov := by
        have := hcov2.symm.trans hccov
        injection this
      rw [hcov2e] at hge2
      have heok := (entryOkB_iff _ _).mp hok
      have hnil : le.filter (leafMatch mode q) = [] := by
        rw [List.filter_eq_nil_iff]
        intro x hx
        obtain ⟨hxlen, hxval, hxge⟩ := hprops x hx
        have hex : mbrGe e.1 x.1 = true :=
          mbrGe_trans e.1 ccov x.1 (by rw [heok.1, hcovlen]) hge2 hxge
        intro hmatch
        cases mode with
        | overlap =>
          exact hov (isOverlap_of_ge_of_overlap e.1 x.1 q
            (by rw [heok.1, hxlen]) (by rw [hxlen, hq]) hex hmatch)
        | comprise =>
          exact hov (isOverlap_of_ge_of_contains e.1 x.1 q
            (by rw [heok.1, hxlen]) (by rw [hq, hxlen]) hex hmatch hxval)
      refine ⟨le ++ lc, hcoll, ?_⟩
      rw [searchEnts, if_neg hov, hsrest, List.filter_append, hnil,
        List.nil_append]

theorem search_eq_filter (d : Disk) (q : MBR) (mode : SearchMode)
    (hq : q.length = 2 * d.hdr.dimensions) :
    ∀ h addr, goodNodeB h d addr = true →
      ∃ l, collectGo h d addr = some l ∧
        searchGo h d q mode addr = some (l.filter (leafMatch mode q)) := by
  intro h
  induction h with
  | zero => intro addr hg; simp [goodNodeB] at hg
  | succ h ih =>
    intro addr hg
    rw [goodNodeB_succ_iff] at hg
    obtain ⟨nd, h1, _h2, _h3, _h4, _h5, h6, h7, h8⟩ := hg
    by_cases hl : nd.isLeaf
    · refine ⟨nd.entries, ?_, ?_⟩
      · rw [collectGo, h1]
        dsimp only
        rw [if_pos hl]
      · rw [searchGo, h1]
        dsimp only
        rw [if_pos hl]
    · rcases h8 with hleaf | hall
      · exact absurd hleaf hl
      · obtain ⟨lc, hlc, hs⟩ := searchEnts_filter_inner d q mode h hq ih nd.entries
          (fun e he => ⟨h7 e he, (hall e he).1, (hall e he).2⟩)
        refine ⟨lc, ?_, ?_⟩
        · rw [collectGo, h1]
          dsimp only
          rw [if_neg hl]
          exact hlc
        · rw [searchGo, h1]
          dsimp only
          rw [if_neg hl]
          exact hs

theorem isOverlap_self_of_valid (a : MBR) (hv : validMbr a = true) :
    isOverlap a a = true := by
  rw [validMbr_eq_true_iff] at hv
  rw [isOverlap_eq_true_iff]
  exact fun i hi => ⟨hv i hi, hv i hi⟩

/-! ### FindLeaf lemmas -/

theorem findEnts_all_none (rec : Nat → Option (Option (List (Nat × Nat))))
    (k : MBR) (addr : Nat) :
    ∀ (entries : List (MBR × Nat)) (i : Nat),
    (∀ e ∈ entries, mbrGe e.1 k = true → rec e.2 = some none) →
    findEnts rec k addr i entries = some none := by
  intro entries
  induction entries with
  | nil => intro i _; rfl
  | cons e rest ih =>
    intro i hents
    rw [findEnts]
    by_cases hge : mbrGe e.1 k = true
    · rw [if_pos hge, hents e (by simp) hge]
      exact ih (i + 1) (fun e' he' => hents e' (List.mem_cons_of_mem _ he'))
    · rw [if_neg hge]
      exact ih (i + 1) (fun e' he' => hents e' (List.mem_cons_of_mem _ he'))

theorem findLeaf_absent (d : Disk) (k : MBR) : ∀ h addr l,
    goodNodeB h d addr = true → collectGo h d addr = some l →
    (∀ x ∈ l, (x.1 : MBR) ≠ k) → findLeafGo h d k addr = some none := by
  intro h
  induction h with
  | zero => intro addr l hg _ _; simp [goodNodeB] at hg
  | succ h ih =>
    intro addr l hg hl habs
    rw [goodNodeB_succ_iff] at hg
    obtain ⟨nd, h1, _h2, _h3, _h4, _h5, _h6, _h7, h8⟩ := hg
    rw [collectGo, h1] at hl
    dsimp only at hl
    rw [findLeafGo, h1]
    dsimp only
    by_cases hleaf : nd.isLeaf
    · rw [if_pos hleaf] at hl
      rw [if_pos hleaf]
      have hE : l = nd.entries := by injection hl.symm
      have hidx : nd.entries.findIdx? (fun e => e.1 = k) = none := by
        refine List.findIdx?_eq_none_iff.mpr (fun e he => ?_)
        have := habs e (hE ▸ he)
        simpa using this
      rw [hidx]
    · rw [if_neg hleaf] at hl
      rw [if_neg hleaf]
      rcases h8 with hc | hall
      · exact absurd hc hleaf
      · have hch : ∀ e ∈ nd.entries, ∃ le, collectGo h d e.2 = some le := by
          intro e he
          obtain ⟨_, le, _, _, hle, _⟩ := collect_good d h e.2 (hall e he).1
          exact ⟨le, hle⟩
        obtain ⟨l', hl', _, hup⟩ :=
          collectEnts_ok (fun a => collectGo h d a) nd.entries hch
        have hll : l' = l := by
          have := hl'.symm.trans hl
          injection this
        subst hll
        refine findEnts_all_none _ k addr nd.entries 0 (fun e he _ => ?_)
        obtain ⟨le, hle⟩ := hch e he
        refine ih e.2 le (hall e he).1 hle (fun x hx => ?_)
        exact habs x (hup e he le hle x hx)

/-! ### Seed-pick lemmas -/

theorem mem_pairsLex (n : Nat) (pr : Nat × Nat) :
    pr ∈ pairsLex n ↔ pr.1 < pr.2 ∧ pr.2 < n := by
  cases pr with
  | mk i j =>
    simp only [pairsLex, List.mem_flatMap, List.mem_map, List.mem_range,
      List.mem_range'_1, Prod.mk.injEq]
    constructor
    · rintro ⟨i', hi', j', hj', rfl, rfl⟩
      exact ⟨by omega, by omega⟩
    · rintro ⟨hij, hjn⟩
      exact ⟨i, by omega, ⟨j, ⟨by omega, by omega⟩, rfl, rfl⟩⟩

theorem pairsLex_pairwise (n : Nat) : (pairsLex n).Pairwise lexLt := by
  rw [pairsLex, List.pairwise_flatMap]
  constructor
  · intro i _
    rw [List.pairwise_map]
    refine List.Pairwise.imp ?_ (List.pairwise_lt_range' (i + 1) (n - (i + 1)))
    intro a b hab
    exact Or.inr ⟨rfl, hab⟩
  · refine List.Pairwise.imp ?_ (List.pairwise_lt_range n)
    intro a b hab x hx y hy
    obtain ⟨j1, _, rfl⟩ := List.mem_map.mp hx
    obtain ⟨j2, _, rfl⟩ := List.mem_map.mp hy
    exact Or.inl hab

theorem lexLe_refl (a : Nat × Nat) : lexLe a a := Or.inr ⟨rfl, le_refl _⟩

theorem lexLe_of_lexLt {a b : Nat × Nat} (h : lexLt a b) : lexLe a b := by
  rcases h with h | ⟨h1, h2⟩
  · exact Or.inl h
  · exact Or.inr ⟨h1, le_of_lt h2⟩

/-- Behaviour of the strict-improvement fold of the seed-selection
loop: the result is the first pair (in scan order) attaining the
maximal waste, so on a lexicographically sorted pair list it is the
lex-least maximiser. -/
theorem foldl_seed_spec (f : Nat × Nat → Int) :
    ∀ (l : List (Nat × Nat)) (st : Nat × Nat × Int),
    st.2.2 = f (st.1, st.2.1) →
    l.Pairwise lexLt →
    (∀ pr ∈ l, lexLe (st.1, st.2.1) pr) →
    (let r := l.foldl (fun s pr => if s.2.2 < f pr then (pr.1, pr.2, f pr) else s) st
     r.2.2 = f (r.1, r.2.1) ∧
     ((r.1, r.2.1) = (st.1, st.2.1) ∨ (r.1, r.2.1) ∈ l) ∧
     st.2.2 ≤ r.2.2 ∧
     (∀ pr ∈ l, f pr ≤ r.2.2) ∧
     (∀ pr ∈ l, f pr = r.2.2 → lexLe (r.1, r.2.1) pr) ∧
     (st.2.2 = r.2.2 → (r.1, r.2.1) = (st.1, st.2.1))) := by
  intro l
  induction l with
  | nil =>
    intro st hst _ _
    exact ⟨hst, Or.inl rfl, le_refl _, by simp, by simp, fun _ => rfl⟩
  | cons pr l ih =>
    intro st hst hpw hle
    rw [List.foldl_cons]
    by_cases hupd : st.2.2 < f pr
    · rw [if_pos hupd]
      have hpw' := List.pairwise_cons.mp hpw
      obtain ⟨r1, r2, r3, r4, r5, r6⟩ := ih (pr.1, pr.2, f pr) rfl hpw'.2
        (fun x hx => lexLe_of_lexLt (hpw'.1 x hx))
      refine ⟨r1, ?_, ?_, ?_, ?_, ?_⟩
      · rcases r2 with h | h
        · exact Or.inr (by rw [h]; simp)
        · exact Or.inr (List.mem_cons_of_mem _ h)
      · exact le_of_lt (lt_of_lt_of_le hupd r3)
      · intro x hx
        rcases List.mem_cons.mp hx with rfl | hx
        · exact r3
        · exact r4 x hx
      · intro x hx hfx
        rcases List.mem_cons.mp hx with rfl | hx
        · have := r6 hfx
          rw [this]
          exact Or.inr ⟨rfl, le_refl _⟩
        · exact r5 x hx hfx
      · intro hcon
        have := lt_of_lt_of_le hupd r3
        omega
    · rw [if_neg hupd]
      have hpw' := List.pairwise_cons.mp hpw
      obtain ⟨r1, r2, r3, r4, r5, r6⟩ := ih st hst hpw'.2
        (fun x hx => hle x (List.mem_cons_of_mem _ hx))
      refine ⟨r1, ?_, r3, ?_, ?_, r6⟩
      · rcases r2 with h | h
        · exact Or.inl h
        · exact Or.inr (List.mem_cons_of_mem _ h)
      · intro x hx
        rcases List.mem_cons.mp hx with rfl | hx
        · exact le_trans (by omega) r3
        · exact r4 x hx
      · intro x hx hfx
        rcases List.mem_cons.mp hx with rfl | hx
        · have h1 : f x ≤ st.2.2 := not_lt.mp hupd
          have heq : st.2.2 = (List.foldl (fun s pr =>
              if s.2.2 < f pr then (pr.1, pr.2, f pr) else s) st l).2.2 := by
            omega
          have := r6 heq
          rw [this]
          exact hle x (by simp)
        · exact r5 x hx hfx

/-- C6: over the overflowing node's entries plus the new entry, the
two seeds chosen by `pickseed` are a pair `(i*, j*)` with
`i* < j* < n + 1` maximising
`waste = area(union(e_i, e_j)) − area(e_i) − area(e_j)` (in this code
`enlargement` *is* the area of the union), and among the maximisers
the lexicographically least pair is chosen: the scan keeps a strictly
greater waste only, so the first pair in (i, j) scan order wins. -/
theorem C6_quadratic_seed_pick (entries : List (MBR × Nat)) (kvp : MBR × Nat)
    (whole : List (MBR × Nat)) (hw : whole = entries ++ [kvp])
    (h2 : 2 ≤ whole.length) :
    (pickSeedPair whole).1 < (pickSeedPair whole).2 ∧
    (pickSeedPair whole).2 < whole.length ∧
    (∀ i j, i < j → j < whole.length →
      wasteOf (whole.getD i ([], 0)).1 (whole.getD j ([], 0)).1
        ≤ wasteOf (whole.getD (pickSeedPair whole).1 ([], 0)).1
            (whole.getD (pickSeedPair whole).2 ([], 0)).1) ∧
    (∀ i j, i < j → j < whole.length →
      wasteOf (whole.getD i ([], 0)).1 (whole.getD j ([], 0)).1
        = wasteOf (whole.getD (pickSeedPair whole).1 ([], 0)).1
            (whole.getD (pickSeedPair whole).2 ([], 0)).1 →
      (pickSeedPair whole).1 < i ∨
        ((pickSeedPair whole).1 = i ∧ (pickSeedPair whole).2 ≤ j)) := by
  have hinit : ∀ pr ∈ pairsLex whole.length, lexLe (0, 1) pr := by
    intro pr hpr
    obtain ⟨h1, _⟩ := (mem_pairsLex whole.length pr).mp hpr
    rcases Nat.eq_zero_or_pos pr.1 with hz | hp
    · exact Or.inr ⟨hz.symm, by omega⟩
    · exact Or.inl hp
  have hspec := foldl_seed_spec
    (fun pr : Nat × Nat =>
      wasteOf (whole.getD pr.1 ([], 0)).1 (whole.getD pr.2 ([], 0)).1)
    (pairsLex whole.length)
    (0, 1, wasteOf (whole.getD 0 ([], 0)).1 (whole.getD 1 ([], 0)).1)
    rfl (pairsLex_pairwise _) hinit
  obtain ⟨r1, r2, _r3, r4, r5, _r6⟩ := hspec
  dsimp only at r1 r2 r4 r5
  have hps : pickSeedPair whole =
      (((pairsLex whole.length).foldl
        (fun s pr => if s.2.2 <
            wasteOf (whole.getD pr.1 ([], 0)).1 (whole.getD pr.2 ([], 0)).1
          then (pr.1, pr.2,
            wasteOf (whole.getD pr.1 ([], 0)).1 (whole.getD pr.2 ([], 0)).1)
          else s)
        (0, 1, wasteOf (whole.getD 0 ([], 0)).1 (whole.getD 1 ([], 0)).1)).1,
       ((pairsLex whole.length).foldl
        (fun s pr => if s.2.2 <
            wasteOf (whole.getD pr.1 ([], 0)).1 (whole.getD pr.2 ([], 0)).1
          then (pr.1, pr.2,
            wasteOf (whole.getD pr.1 ([], 0)).1 (whole.getD pr.2 ([], 0)).1)
          else s)
        (0, 1, wasteOf (whole.getD 0 ([], 0)).1 (whole.getD 1 ([], 0)).1)).2.1) :=
    rfl
  have hbounds : (pickSeedPair whole).1 < (pickSeedPair whole).2 ∧
      (pickSeedPair whole).2 < whole.length := by
    rw [hps]
    rcases r2 with h | h
    · rw [show ((0 : Nat), (1 : Nat)) = (0, 1) from rfl] at h
      have h1 : _ = 0 := congrArg Prod.fst h
      have h2' : _ = 1 := congrArg Prod.snd h
      constructor
      · rw [h1, h2']; omega
      · rw [h2']; omega
    · have := (mem_pairsLex whole.length _).mp h
      exact this
  refine ⟨hbounds.1, hbounds.2, ?_, ?_⟩
  · intro i j hij hjn
    have hm : ((i, j) : Nat × Nat) ∈ pairsLex whole.length :=
      (mem_pairsLex whole.length (i, j)).mpr ⟨hij, hjn⟩
    have h4 := r4 (i, j) hm
    rw [hps]
    rw [r1] at h4
    exact h4
  · intro i j hij hjn heq
    have hm : ((i, j) : Nat × Nat) ∈ pairsLex whole.length :=
      (mem_pairsLex whole.length (i, j)).mpr ⟨hij, hjn⟩
    have h5 := r5 (i, j) hm (by rw [hps] at heq; rw [← r1] at heq; exact heq)
    rw [hps]
    exact h5

/-- C6, witness: the seed pick on a concrete three-item overflow
satisfies the characterization. -/
theorem C6_quadratic_seed_pick_witness :
    (pickSeedPair [([0, 0, 1, 1], 1), ([10, 10, 11, 11], 2), ([5, 5, 6, 6], 3)]).1
      < (pickSeedPair [([0, 0, 1, 1], 1), ([10, 10, 11, 11], 2), ([5, 5, 6, 6], 3)]).2 ∧
    (pickSeedPair [([0, 0, 1, 1], 1), ([10, 10, 11, 11], 2), ([5, 5, 6, 6], 3)]).2 < 3 := by
  have h := C6_quadratic_seed_pick
    [([0, 0, 1, 1], 1), ([10, 10, 11, 11], 2)] ([5, 5, 6, 6], 3)
    [([0, 0, 1, 1], 1), ([10, 10, 11, 11], 2), ([5, 5, 6, 6], 3)]
    rfl (by decide)
  exact ⟨h.1, h.2.1⟩

/-! ### Distribution-loop lemmas -/

theorem distribPick_fold (mbr1 mbr2 : MBR) :
    ∀ (l : List (MBR × Nat)) (i0 : Nat) (acc : Nat × Int × Int) (m : Int),
    (l.foldl
      (fun (st : Nat × (Nat × Int × Int) × Int) e =>
        let exp1 := enlargement mbr1 e.1 - area mbr1
        let exp2 := enlargement mbr2 e.1 - area mbr2
        let diff := |exp1 - exp2|
        if st.2.2 ≤ diff then (st.1 + 1, (st.1, exp1, exp2), diff)
        else (st.1 + 1, st.2.1, st.2.2))
      (i0, acc, m)).2.1 = acc ∨
    ∃ k, k < l.length ∧
      (l.foldl
        (fun (st : Nat × (Nat × Int × Int) × Int) e =>
          let exp1 := enlargement mbr1 e.1 - area mbr1
          let exp2 := enlargement mbr2 e.1 - area mbr2
          let diff := |exp1 - exp2|
          if st.2.2 ≤ diff then (st.1 + 1, (st.1, exp1, exp2), diff)
          else (st.1 + 1, st.2.1, st.2.2))
        (i0, acc, m)).2.1
        = (i0 + k, enlargement mbr1 (l.getD k ([], 0)).1 - area mbr1,
            enlargement mbr2 (l.getD k ([], 0)).1 - area mbr2) := by
  intro l
  induction l with
  | nil => intro i0 acc m; exact Or.inl rfl
  | cons e rest ih =>
    intro i0 acc m
    rw [List.foldl_cons]
    dsimp only
    by_cases hc : m ≤ |enlargement mbr1 e.1 - area mbr1 - (enlargement mbr2 e.1 - area mbr2)|
    · rw [if_pos hc]
      rcases ih (i0 + 1)
        (i0, enlargement mbr1 e.1 - area mbr1, enlargement mbr2 e.1 - area mbr2)
        |enlargement mbr1 e.1 - area mbr1 - (enlargement mbr2 e.1 - area mbr2)| with
        h | ⟨k, hk, h⟩
      · refine Or.inr ⟨0, by simp, ?_⟩
        rw [h]
        simp
      · refine Or.inr ⟨k + 1, by simp; omega, ?_⟩
        rw [h]
        have : i0 + 1 + k = i0 + (k + 1) := by omega
        rw [this]
        rfl
    · rw [if_neg hc]
      rcases ih (i0 + 1) acc m with h | ⟨k, hk, h⟩
      · exact Or.inl h
      · refine Or.inr ⟨k + 1, by simp; omega, ?_⟩
        rw [h]
        have : i0 + 1 + k = i0 + (k + 1) := by omega
        rw [this]
        rfl

theorem distribPick_is_exps (mbr1 mbr2 : MBR) (whole : List (MBR × Nat))
    (hne : whole ≠ []) :
    ∃ k, k < whole.length ∧
      distribPick mbr1 mbr2 whole
        = (k, enlargement mbr1 (whole.getD k ([], 0)).1 - area mbr1,
            enlargement mbr2 (whole.getD k ([], 0)).1 - area mbr2) := by
  cases hE : whole with
  | nil => exact absurd hE hne
  | cons e rest =>
    rw [distribPick, List.foldl_cons]
    dsimp only
    rw [if_pos (abs_nonneg _)]
    rcases distribPick_fold mbr1 mbr2 rest 1
      (0, enlargement mbr1 e.1 - area mbr1, enlargement mbr2 e.1 - area mbr2)
      |enlargement mbr1 e.1 - area mbr1 - (enlargement mbr2 e.1 - area mbr2)| with
      h | ⟨k, hk, h⟩
    · refine ⟨0, by simp, ?_⟩
      rw [h]
      simp
    · refine ⟨k + 1, by simp; omega, ?_⟩
      rw [h]
      have : 1 + k = k + 1 := by omega
      rw [this]
      rfl

/-- C7, amended: during split distribution the picked item is assigned
to whichever group incurs the strictly lower (subtractive) enlargement
cost, and when the two costs are equal it goes to group G₂ — the
groups' current areas are never consulted.  The theorem exhibits the
picked item's two costs (the components of `distribPick`) and the
resulting step of the distribution loop. -/
theorem C7_distribution_tie_goes_to_G2 (mbr1 mbr2 : MBR)
    (whole res1 res2 : List (MBR × Nat)) (fuel : Nat) (hne : whole ≠ []) :
    (distribPick mbr1 mbr2 whole).1 < whole.length ∧
    (distribPick mbr1 mbr2 whole).2.1
      = enlargement mbr1 (whole.getD (distribPick mbr1 mbr2 whole).1 ([], 0)).1
          - area mbr1 ∧
    (distribPick mbr1 mbr2 whole).2.2
      = enlargement mbr2 (whole.getD (distribPick mbr1 mbr2 whole).1 ([], 0)).1
          - area mbr2 ∧
    distribGo (Nat.succ fuel) whole res1 res2 mbr1 mbr2 =
      (if (distribPick mbr1 mbr2 whole).2.1 < (distribPick mbr1 mbr2 whole).2.2 then
        distribGo fuel (whole.eraseIdx (distribPick mbr1 mbr2 whole).1)
          (res1 ++ [whole.getD (distribPick mbr1 mbr2 whole).1 ([], 0)]) res2
          (mbrEnlarge mbr1 (whole.getD (distribPick mbr1 mbr2 whole).1 ([], 0)).1) mbr2
      else
        distribGo fuel (whole.eraseIdx (distribPick mbr1 mbr2 whole).1)
          res1 (res2 ++ [whole.getD (distribPick mbr1 mbr2 whole).1 ([], 0)])
          mbr1 (mbrEnlarge mbr2 (whole.getD (distribPick mbr1 mbr2 whole).1 ([], 0)).1)) := by
  obtain ⟨k, hk, hpick⟩ := distribPick_is_exps mbr1 mbr2 whole hne
  refine ⟨by rw [hpick]; exact hk, by rw [hpick], by rw [hpick], ?_⟩
  rw [distribGo]
  rw [show whole.isEmpty = false from List.isEmpty_eq_false.mpr hne]
  rw [hpick]
  rfl

/-- C7, amended theorem's witness at a concrete distribution state:
groups seeded with `[0,0,1,1]` and `[10,10,11,11]`, one remaining item
`[5,5,6,6]`. -/
theorem C7_distribution_tie_goes_to_G2_witness :
    (distribPick [0, 0, 1, 1] [10, 10, 11, 11] [([5, 5, 6, 6], 3)]).1 < 1 ∧
    (distribPick [0, 0, 1, 1] [10, 10, 11, 11] [([5, 5, 6, 6], 3)]).2.1
      = enlargement [0, 0, 1, 1]
          ([([5, 5, 6, 6], 3)].getD
            (distribPick [0, 0, 1, 1] [10, 10, 11, 11] [([5, 5, 6, 6], 3)]).1
            ([], 0)).1 - area [0, 0, 1, 1] ∧
    (distribPick [0, 0, 1, 1] [10, 10, 11, 11] [([5, 5, 6, 6], 3)]).2.2
      = enlargement [10, 10, 11, 11]
          ([([5, 5, 6, 6], 3)].getD
            (distribPick [0, 0, 1, 1] [10, 10, 11, 11] [([5, 5, 6, 6], 3)]).1
            ([], 0)).1 - area [10, 10, 11, 11] ∧
    distribGo 2 [([5, 5, 6, 6], 3)] [([0, 0, 1, 1], 1)] [([10, 10, 11, 11], 2)]
        [0, 0, 1, 1] [10, 10, 11, 11] =
      (if (distribPick [0, 0, 1, 1] [10, 10, 11, 11] [([5, 5, 6, 6], 3)]).2.1
          < (distribPick [0, 0, 1, 1] [10, 10, 11, 11] [([5, 5, 6, 6], 3)]).2.2 then
        distribGo 1
          ([([5, 5, 6, 6], 3)].eraseIdx
            (distribPick [0, 0, 1, 1] [10, 10, 11, 11] [([5, 5, 6, 6], 3)]).1)
          ([([0, 0, 1, 1], 1)] ++
            [[([5, 5, 6, 6], 3)].getD
              (distribPick [0, 0, 1, 1] [10, 10, 11, 11] [([5, 5, 6, 6], 3)]).1
              ([], 0)])
          [([10, 10, 11, 11], 2)]
          (mbrEnlarge [0, 0, 1, 1]
            ([([5, 5, 6, 6], 3)].getD
              (distribPick [0, 0, 1, 1] [10, 10, 11, 11] [([5, 5, 6, 6], 3)]).1
              ([], 0)).1)
          [10, 10, 11, 11]
      else
        distribGo 1
          ([([5, 5, 6, 6], 3)].eraseIdx
            (distribPick [0, 0, 1, 1] [10, 10, 11, 11] [([5, 5, 6, 6], 3)]).1)
          [([0, 0, 1, 1], 1)]
          ([([10, 10, 11, 11], 2)] ++
            [[([5, 5, 6, 6], 3)].getD
              (distribPick [0, 0, 1, 1] [10, 10, 11, 11] [([5, 5, 6, 6], 3)]).1
              ([], 0)])
          [0, 0, 1, 1]
          (mbrEnlarge [10, 10, 11, 11]
            ([([5, 5, 6, 6], 3)].getD
              (distribPick [0, 0, 1, 1] [10, 10, 11, 11] [([5, 5, 6, 6], 3)]).1
              ([], 0)).1)) :=
  C7_distribution_tie_goes_to_G2 [0, 0, 1, 1] [10, 10, 11, 11] [([5, 5, 6, 6], 3)]
    [([0, 0, 1, 1], 1)] [([10, 10, 11, 11], 2)] 1 (by decide)

/-! ### Concrete-run claim theorems -/

/-- C2, counterexample: the MBR covering invariant does **not** hold
after every public operation.  Starting from a freshly created index,
three inserts (the third splits the root leaf) followed by one
successful `Delete` produce `demoDisk4`, whose root entry for child
4096 still carries the stale key `[10,10,21,21]` although the
axis-wise union of the MBRs stored in that child's subtree is
`[20,20,21,21]`: `Delete` never writes a recomputed covering MBR back
into the parent. -/
theorem C2_covering_invariant_counterexample :
    runOps demoDisk0
      [Op.ins ([0, 0, 1, 1], 1), Op.ins ([10, 10, 11, 11], 2),
       Op.ins ([20, 20, 21, 21], 3), Op.del [10, 10, 11, 11]] = some demoDisk4 ∧
    getNode demoDisk4 demoDisk4.hdr.root_addr
      = some ⟨false, 12288, [([10, 10, 21, 21], 4096), ([0, 0, 1, 1], 8192)]⟩ ∧
    (collectGo (fuelOf demoDisk4) demoDisk4 4096).map coverOf = some [20, 20, 21, 21] ∧
    ([10, 10, 21, 21] : MBR) ≠ [20, 20, 21, 21] := by decide

/-- C3: the walk back up the recorded path after a successful `Delete`
never writes a recomputed covering MBR into an ancestor entry.  In the
demo index, deleting `[10,10,11,11]` removes the entry and shrinks the
covering MBR of the leaf at 4096 to `[20,20,21,21]`, yet the root node
is bit-for-bit unchanged and its entry for that leaf still reads
`[10,10,21,21]` — `modify_parent_entry_mbr` is entered with a null
`modify_key` and compares the leaf's post-delete MBR with itself, so
the walk stops before touching any ancestor. -/
theorem C3_delete_does_not_condense :
    rtreeDelete demoDisk3 [10, 10, 11, 11] = some (true, demoDisk4) ∧
    getNode demoDisk4 12288 = getNode demoDisk3 12288 ∧
    (getNode demoDisk4 4096).map getNodeMbr = some (some [20, 20, 21, 21]) ∧
    getNode demoDisk4 12288
      = some ⟨false, 12288, [([10, 10, 21, 21], 4096), ([0, 0, 1, 1], 8192)]⟩ ∧
    ([20, 20, 21, 21] : MBR) ≠ [10, 10, 21, 21] := by decide

/-- C4: the descent of `ChooseLeaf` always takes the entry at index 0,
regardless of enlargement costs, because `min_enlarge` aliases the
loop-local `enlarge` and the guard compares the value with itself.  In
the demo two-level index, inserting near `[5,5,6,6]` descends through
root entry 0 into the leaf at 4096, although entry 1 is strictly
better both under the claim's subtractive cost (0 vs 27) and under
the code's own absolute `enlargement` metric (1 vs 36). -/
theorem C4_chooseleaf_ignores_costs :
    chooseLeafGo (fuelOf demoChooseDisk) demoChooseDisk [5, 5, 6, 6] 12288 []
      = some ([(12288, 0), (4096, 0)], 4096) ∧
    specChooseLeafIdx [5, 5, 6, 6] [([0, 0, 3, 3], 4096), ([5, 5, 6, 6], 8192)] = 1 ∧
    specEnlargementCost [5, 5, 6, 6] [5, 5, 6, 6]
      < specEnlargementCost [0, 0, 3, 3] [5, 5, 6, 6] ∧
    enlargement [5, 5, 6, 6] [5, 5, 6, 6] < enlargement [0, 0, 3, 3] [5, 5, 6, 6] := by
  decide

/-- C7, counterexample: a remaining item whose two enlargement costs
are equal (35 and 35) and whose two groups have equal current areas is
assigned to G₂, although the claim mandates G₁ in this situation.
Here `pickseed` on entries `[0,0,1,1]`, `[10,10,11,11]` with new item
`[5,5,6,6]` seeds the groups with the two entries and then puts the
item into partition 2. -/
theorem C7_tie_goes_to_G2_counterexample :
    pickseed [([0, 0, 1, 1], 1), ([10, 10, 11, 11], 2)] ([5, 5, 6, 6], 3)
      = ([([0, 0, 1, 1], 1)], [([10, 10, 11, 11], 2), ([5, 5, 6, 6], 3)]) ∧
    distribPick [0, 0, 1, 1] [10, 10, 11, 11] [([5, 5, 6, 6], 3)] = (0, 35, 35) ∧
    area [0, 0, 1, 1] = area [10, 10, 11, 11] ∧
    specDistribToG1 35 35 (area [0, 0, 1, 1]) (area [10, 10, 11, 11]) = true := by
  decide

/-- C8: `open` with a mismatched schema does **not** return an invalid
handle.  With the on-disk header created for dimensions 2 and a caller
passing dimensions 3, the returned handle carries the live descriptor
(3 ≠ −1, the invalid-handle convention of the failure paths) and is
identical to the handle returned by a fully matching `open`, so all
further operations behave exactly as on a valid handle instead of
failing. -/
theorem C8_open_mismatch_live_handle :
    rtreeOpenHandle 3 ⟨2, 32, 8, 4096, 0⟩ 32 8 4096 3 = ⟨3, 32, 8, 4096, 3⟩ ∧
    (3 : Int) ≠ -1 ∧
    rtreeOpenHandle 3 ⟨3, 32, 8, 4096, 0⟩ 32 8 4096 3
      = rtreeOpenHandle 3 ⟨2, 32, 8, 4096, 0⟩ 32 8 4096 3 ∧
    rtreeCreateHandle (-1) 32 8 4096 3 = ⟨-1, 32, 8, 4096, 3⟩ := by decide

/-- C10: a `Delete` that empties a leaf aborts.  When `FindLeaf`
locates the entry in a leaf holding exactly one entry, the removal
leaves the leaf with count 0, and the covering-MBR walk immediately
calls `get_node_mbr` on it, whose `get_elem_key(0)` assertion
(`idx < count`) fails: the whole operation is an aborted execution
(`none`) rather than a `true` return. -/
theorem C10_delete_emptying_leaf_aborts (d : Disk) (k : MBR)
    (pre : List (Nat × Nat)) (taddr pid : Nat) (nd : Node)
    (hfind : findLeafGo (fuelOf d) d k d.hdr.root_addr
      = some (some (pre ++ [(taddr, pid)])))
    (hnode : getNode d taddr = some nd)
    (hpid : pid < nd.entries.length)
    (hone : nd.entries.length = 1) :
    rtreeDelete d k = none := by
  obtain ⟨e, he⟩ := List.length_eq_one.mp hone
  have hpid0 : pid = 0 := Nat.lt_one_iff.mp (hone ▸ hpid)
  subst hpid0
  have hdel : deleteElemKey nd 0 = { nd with entries := [] } := by
    unfold deleteElemKey
    rw [if_pos hpid, he]
    rfl
  unfold rtreeDelete
  rw [hfind]
  simp only [List.getLast?_concat]
  rw [hnode]
  dsimp only
  rw [hdel]
  have hrev : (pre ++ [(taddr, 0)]).reverse = (taddr, 0) :: pre.reverse := by
    simp
  rw [hrev]
  unfold modifyParentGo
  rw [getNode_setNode_self]
  simp [getNodeMbr]

/-- C10, witness: the abort actually happens on a concrete one-entry
index. -/
theorem C10_delete_emptying_leaf_aborts_witness :
    rtreeDelete demoLeafDisk [0, 0, 1, 1] = none :=
  C10_delete_emptying_leaf_aborts demoLeafDisk [0, 0, 1, 1] [] 4096 0
    ⟨true, 4096, [([0, 0, 1, 1], 7)]⟩ (by decide) (by decide) (by decide) (by decide)

/-- C5: on a well-formed tree, `ContainmentSearch(q)` returns exactly
the stored leaf entries whose key is contained in `q`
(`key >= mbr`, i.e. `contains(q, entry.key)`): the result equals the
filter of `GetAllEntries` by that predicate.  Moreover, during the
descent the child of an inner entry is visited iff
`overlap(entry.key, q)` holds — the second conjunct exhibits the
entry loop's branch, which tests `IsOverlap`, not containment, in
comprise mode. -/
theorem C5_containment_search_exact (d : Disk) (q : MBR)
    (hg : goodNodeB (fuelOf d) d d.hdr.root_addr = true)
    (hq : q.length = 2 * d.hdr.dimensions) :
    rtreeCompriseSearch d q
      = (rtreeGetAllEntries d).map (fun l => l.filter (fun e => mbrGe q e.1)) ∧
    (∀ rec (rest : List (MBR × Nat)) (e : MBR × Nat),
      searchEnts rec q (e :: rest) =
        if isOverlap e.1 q then
          match rec e.2 with
          | none => none
          | some sub =>
            match searchEnts rec q rest with
            | none => none
            | some l => some (sub ++ l)
        else searchEnts rec q rest) := by
  have hg' := hg
  rw [show fuelOf d = Nat.succ d.nodes.length from rfl, goodNodeB_succ_iff] at hg'
  obtain ⟨nd, _, _, hroot0, _⟩ := hg'
  obtain ⟨l, hl, hs⟩ :=
    search_eq_filter d q .comprise hq (fuelOf d) d.hdr.root_addr hg
  constructor
  · rw [rtreeCompriseSearch, if_pos (by omega), hs,
      rtreeGetAllEntries, if_neg hroot0, hl]
    rfl
  · intro rec rest e
    rfl

/-- C5, witness: the containment search on the demo index returns the
filter of the stored entries. -/
theorem C5_containment_search_exact_witness :
    rtreeCompriseSearch demoDisk3 [0, 0, 30, 30]
      = (rtreeGetAllEntries demoDisk3).map
          (fun l => l.filter (fun e => mbrGe [0, 0, 30, 30] e.1)) :=
  (C5_containment_search_exact demoDisk3 [0, 0, 30, 30] (by decide) (by decide)).1

/-- C9: deleting a key with no exactly-equal stored entry returns
`false` and leaves the whole tree state unchanged (the returned state
is the input state itself). -/
theorem C9_delete_absent_unchanged (d : Disk) (k : MBR)
    (hg : goodNodeB (fuelOf d) d d.hdr.root_addr = true)
    (habs : ∀ x ∈ (rtreeGetAllEntries d).getD [], (x.1 : MBR) ≠ k) :
    rtreeDelete d k = some (false, d) := by
  have hg' := hg
  rw [show fuelOf d = Nat.succ d.nodes.length from rfl, goodNodeB_succ_iff] at hg'
  obtain ⟨nd, _, _, hroot0, _⟩ := hg'
  obtain ⟨_, l, _, _, hl, _⟩ :=
    collect_good d (fuelOf d) d.hdr.root_addr hg
  have habs' : ∀ x ∈ l, (x.1 : MBR) ≠ k := by
    intro x hx
    refine habs x ?_
    rw [rtreeGetAllEntries, if_neg hroot0, hl]
    exact hx
  have hfind := findLeaf_absent d k (fuelOf d) d.hdr.root_addr l hg hl habs'
  rw [rtreeDelete, hfind]

/-- C9, witness: deleting an absent key from the demo index returns
`false` with the state unchanged. -/
theorem C9_delete_absent_unchanged_witness :
    rtreeDelete demoDisk3 [5, 5, 6, 6] = some (false, demoDisk3) :=
  C9_delete_absent_unchanged demoDisk3 [5, 5, 6, 6] (by decide) (by decide)

/-! ### Height bounds and fuel stability -/

theorem goodNodeB_heightLeB (d : Disk) : ∀ h a,
    goodNodeB h d a = true → heightLeB h d a = true := by
  intro h
  induction h with
  | zero => intro a hg; simp [goodNodeB] at hg
  | succ h ih =>
    intro a hg
    rw [goodNodeB_succ_iff] at hg
    obtain ⟨nd, h1, _, _, _, _, _, _, h8⟩ := hg
    rw [heightLeB, h1]
    dsimp only
    rcases h8 with hleaf | hall
    · rw [hleaf]; rfl
    · rw [Bool.or_eq_true]
      refine Or.inr ?_
      rw [List.all_eq_true]
      exact fun e he => ih e.2 (hall e he).1

theorem subAddrs_fuel_mono (d : Disk) : ∀ h h' a, h ≤ h' →
    ∀ x ∈ subAddrs h d a, x ∈ subAddrs h' d a := by
  intro h
  induction h with
  | zero =>
    intro h' a _ x hx
    rw [subAddrs] at hx
    have hxa := List.mem_singleton.mp hx
    subst hxa
    exact mem_subAddrs_self h' d _
  | succ h ih =>
    intro h' a hle x hx
    cases h' with
    | zero => omega
    | succ h' =>
      rw [subAddrs] at hx ⊢
      rcases List.mem_cons.mp hx with rfl | hx
      · exact List.mem_cons_self _ _
      · refine List.mem_cons_of_mem _ ?_
        cases hn : getNode d a with
        | none => rw [hn] at hx; simp at hx
        | some nd =>
          rw [hn] at hx
          dsimp only at hx ⊢
          by_cases hl : nd.isLeaf
          · rw [if_pos hl] at hx; simp at hx
          · rw [if_neg hl] at hx ⊢
            obtain ⟨e, he, hxe⟩ := List.mem_flatMap.mp hx
            exact List.mem_flatMap.mpr ⟨e, he, ih h' e.2 (by omega) x hxe⟩

theorem subAddrs_stable (d : Disk) : ∀ h h' a, h ≤ h' →
    heightLeB h d a = true → subAddrs h' d a = subAddrs h d a := by
  intro h
  induction h with
  | zero => intro h' a _ hh; simp [heightLeB] at hh
  | succ h ih =>
    intro h' a hle hh
    cases h' with
    | zero => omega
    | succ h' =>
      rw [heightLeB] at hh
      rw [subAddrs, subAddrs]
      cases hn : getNode d a with
      | none => rfl
      | some nd =>
        rw [hn] at hh
        dsimp only at hh ⊢
        by_cases hl : nd.isLeaf
        · rw [if_pos hl, if_pos hl]
        · rw [if_neg hl, if_neg hl]
          simp only [show nd.isLeaf = false by simpa using hl, Bool.false_or,
            List.all_eq_true] at hh
          congr 1
          exact flatMap_congr_mem _ _ _
            (fun e he => ih h' e.2 (by omega) (hh e he))

theorem heightLeB_mono (d : Disk) : ∀ h h' a, h ≤ h' →
    heightLeB h d a = true → heightLeB h' d a = true := by
  intro h
  induction h with
  | zero => intro h' a _ hh; simp [heightLeB] at hh
  | succ h ih =>
    intro h' a hle hh
    cases h' with
    | zero => omega
    | succ h' =>
      rw [heightLeB] at hh ⊢
      cases hn : getNode d a with
      | none => rw [hn] at hh; exact absurd hh (by simp)
      | some nd =>
        rw [hn] at hh
        dsimp only at hh ⊢
        by_cases hl : nd.isLeaf
        · rw [hl]; rfl
        · rw [show nd.isLeaf = false by simpa using hl] at hh ⊢
          simp only [Bool.false_or, List.all_eq_true] at hh ⊢
          exact fun e he => ih h' e.2 (by omega) (hh e he)

theorem sepB_stable (d : Disk) : ∀ h h' a, h ≤ h' →
    heightLeB h d a = true → sepB h d a = true → sepB h' d a = true := by
  intro h
  induction h with
  | zero => intro h' a _ hh; simp [heightLeB] at hh
  | succ h ih =>
    intro h' a hle hh hs
    cases h' with
    | zero => omega
    | succ h' =>
      rw [heightLeB] at hh
      rw [sepB] at hs ⊢
      cases hn : getNode d a with
      | none => rw [hn] at hs; exact absurd hs (by simp)
      | some nd =>
        rw [hn] at hh hs
        dsimp only at hh hs ⊢
        by_cases hl : nd.isLeaf
        · rw [hl]; rfl
        · rw [show nd.isLeaf = false by simpa using hl] at hh hs ⊢
          simp only [Bool.false_or, List.all_eq_true, Bool.and_eq_true] at hh hs ⊢
          obtain ⟨hpd, hch⟩ := hs
          have hsub : ∀ e ∈ nd.entries, subAddrs h' d e.2 = subAddrs h d e.2 :=
            fun e he => subAddrs_stable d h h' e.2 (by omega) (hh e he)
          refine ⟨?_, ?_⟩
          · rw [map_congr_mem _ _ _ hsub]
            exact hpd
          · intro e he
            rw [hsub e he]
            exact ⟨(hch e he).1, ih h' e.2 (by omega) (hh e he) ((hch e he).2)⟩

theorem heightLeB_setNode_outside (d : Disk) (x : Nat) (nd : Node) :
    ∀ h a, x ∉ subAddrs h d a →
      heightLeB h (setNode d x nd) a = heightLeB h d a := by
  intro h
  induction h with
  | zero => intro a _; rfl
  | succ h ih =>
    intro a hx
    have hxa : x ≠ a := fun hc => hx (by rw [hc]; exact mem_subAddrs_self _ d a)
    rw [heightLeB, heightLeB, getNode_setNode_ne d x a nd hxa]
    cases hn : getNode d a with
    | none => rfl
    | some nd' =>
      dsimp only
      by_cases hl : nd'.isLeaf
      · rw [hl]; rfl
      · rw [show nd'.isLeaf = false by simpa using hl]
        simp only [Bool.false_or]
        refine all_congr_mem _ _ _ (fun e he => ih e.2 (fun hc => hx ?_))
        exact mem_subAddrs_child h d a nd' e hn (by simpa using hl) he x hc

theorem heightLeB_nodes_congr (d d' : Disk) (hn : d.nodes = d'.nodes) :
    ∀ h a, heightLeB h d a = heightLeB h d' a := by
  intro h
  induction h with
  | zero => intro a; rfl
  | succ h ih =>
    intro a
    rw [heightLeB, heightLeB, getNode_nodes_congr d d' a hn]
    cases getNode d' a with
    | none => rfl
    | some nd =>
      dsimp only
      by_cases hl : nd.isLeaf
      · rw [hl]; simp only [Bool.true_or]
      · rw [show nd.isLeaf = false by simpa using hl]
        simp only [Bool.false_or]
        exact all_congr_mem _ _ _ (fun e _ => ih e.2)

theorem sepB_nodes_congr (d d' : Disk) (hn : d.nodes = d'.nodes) :
    ∀ h a, sepB h d a = sepB h d' a := by
  intro h
  induction h with
  | zero => intro a; rfl
  | succ h ih =>
    intro a
    rw [sepB, sepB, getNode_nodes_congr d d' a hn]
    cases getNode d' a with
    | none => rfl
    | some nd =>
      dsimp only
      by_cases hl : nd.isLeaf
      · rw [hl]; simp only [Bool.true_or]
      · rw [show nd.isLeaf = false by simpa using hl]
        simp only [Bool.false_or]
        rw [map_congr_mem _ _ _
          (fun e _ => subAddrs_nodes_congr d d' hn h e.2)]
        rw [all_congr_mem _ _ _ (fun e _ => by
          rw [subAddrs_nodes_congr d d' hn h e.2, ih e.2])]

theorem goodNodeB_grow (d d' : Disk) (hn : d'.nodes = d.nodes)
    (hh : d'.hdr = d.hdr) (hf : d.fileSize ≤ d'.fileSize) :
    ∀ h a, goodNodeB h d a = true → goodNodeB h d' a = true := by
  intro h
  induction h with
  | zero => intro a hg; simp [goodNodeB] at hg
  | succ h ih =>
    intro a hg
    rw [goodNodeB_succ_iff] at hg ⊢
    obtain ⟨nd, h1, h2, h3, h4, h5, h6, h7, h8⟩ := hg
    refine ⟨nd, ?_, h2, h3, by omega, by rw [hh]; exact h5, h6, ?_, ?_⟩
    · rw [getNode_nodes_congr d' d a hn]; exact h1
    · intro e he; rw [hh]; exact h7 e he
    · rcases h8 with hleaf | hall
      · exact Or.inl hleaf
      · refine Or.inr (fun e he => ⟨ih e.2 (hall e he).1, ?_⟩)
        rw [childCoverOkB, getNode_nodes_congr d' d e.2 hn]
        have := (hall e he).2
        rw [childCoverOkB] at this
        exact this

theorem pairwiseDisjB_iff (L : List (List Nat)) :
    pairwiseDisjB L = true ↔ L.Pairwise (fun xs ys => ∀ x ∈ xs, x ∉ ys) := by
  induction L with
  | nil => simp [pairwiseDisjB]
  | cons xs rest ih =>
    rw [pairwiseDisjB, Bool.and_eq_true, List.pairwise_cons, ih]
    constructor
    · rintro ⟨hall, hp⟩
      refine ⟨?_, hp⟩
      intro ys hys x hx hxy
      rw [List.all_eq_true] at hall
      have := hall ys hys
      rw [List.all_eq_true] at this
      have := this x hx
      simp only [Bool.not_eq_true'] at this
      simp at this
      exact this hxy
    · rintro ⟨hdisj, hp⟩
      refine ⟨?_, hp⟩
      rw [List.all_eq_true]
      intro ys hys
      rw [List.all_eq_true]
      intro x hx
      simp [hdisj ys hys x hx]

/-! ### Agreement congruence: traversals only read the subtree -/

theorem collectGo_agree (d dn : Disk) : ∀ h a,
    (∀ x ∈ subAddrs h d a, getNode dn x = getNode d x) →
    collectGo h dn a = collectGo h d a := by
  intro h
  induction h with
  | zero => intro a _; rfl
  | succ h ih =>
    intro a hag
    have ha : getNode dn a = getNode d a := hag a (mem_subAddrs_self _ d a)
    rw [collectGo, collectGo, ha]
    cases hn : getNode d a with
    | none => rfl
    | some nd =>
      dsimp only
      by_cases hl : nd.isLeaf
      · rw [if_pos hl, if_pos hl]
      · rw [if_neg hl, if_neg hl]
        refine collectEnts_congr_mem _ _ _ (fun e he => ih e.2 (fun x hx => hag x ?_))
        exact mem_subAddrs_child h d a nd e hn (by simpa using hl) he x hx

theorem subAddrs_agree (d dn : Disk) : ∀ h a,
    (∀ x ∈ subAddrs h d a, getNode dn x = getNode d x) →
    subAddrs h dn a = subAddrs h d a := by
  intro h
  induction h with
  | zero => intro a _; rfl
  | succ h ih =>
    intro a hag
    have ha : getNode dn a = getNode d a := hag a (mem_subAddrs_self _ d a)
    rw [subAddrs, subAddrs, ha]
    cases hn : getNode d a with
    | none => rfl
    | some nd =>
      dsimp only
      by_cases hl : nd.isLeaf
      · rw [if_pos hl, if_pos hl]
      · rw [if_neg hl, if_neg hl]
        congr 1
        refine flatMap_congr_mem _ _ _ (fun e he => ih e.2 (fun x hx => hag x ?_))
        exact mem_subAddrs_child h d a nd e hn (by simpa using hl) he x hx

theorem heightLeB_agree (d dn : Disk) : ∀ h a,
    (∀ x ∈ subAddrs h d a, getNode dn x = getNode d x) →
    heightLeB h dn a = heightLeB h d a := by
  intro h
  induction h with
  | zero => intro a _; rfl
  | succ h ih =>
    intro a hag
    have ha : getNode dn a = getNode d a := hag a (mem_subAddrs_self _ d a)
    rw [heightLeB, heightLeB, ha]
    cases hn : getNode d a with
    | none => rfl
    | some nd =>
      dsimp only
      by_cases hl : nd.isLeaf
      · rw [hl]; simp only [Bool.true_or]
      · rw [show nd.isLeaf = false by simpa using hl]
        simp only [Bool.false_or]
        refine all_congr_mem _ _ _ (fun e he => ih e.2 (fun x hx => hag x ?_))
        exact mem_subAddrs_child h d a nd e hn (by simpa using hl) he x hx

theorem sepB_agree (d dn : Disk) : ∀ h a,
    (∀ x ∈ subAddrs h d a, getNode dn x = getNode d x) →
    sepB h dn a = sepB h d a := by
  intro h
  induction h with
  | zero => intro a _; rfl
  | succ h ih =>
    intro a hag
    have ha : getNode dn a = getNode d a := hag a (mem_subAddrs_self _ d a)
    rw [sepB, sepB, ha]
    cases hn : getNode d a with
    | none => rfl
    | some nd =>
      dsimp only
      by_cases hl : nd.isLeaf
      · rw [hl]; simp only [Bool.true_or]
      · rw [show nd.isLeaf = false by simpa using hl]
        simp only [Bool.false_or]
        have hsub : ∀ e ∈ nd.entries, subAddrs h dn e.2 = subAddrs h d e.2 := by
          intro e he
          refine subAddrs_agree d dn h e.2 (fun x hx => hag x ?_)
          exact mem_subAddrs_child h d a nd e hn (by simpa using hl) he x hx
        have hsep : ∀ e ∈ nd.entries, sepB h dn e.2 = sepB h d e.2 := by
          intro e he
          refine ih e.2 (fun x hx => hag x ?_)
          exact mem_subAddrs_child h d a nd e hn (by simpa using hl) he x hx
        rw [map_congr_mem _ _ _ hsub]
        rw [all_congr_mem _ _ _ (fun e he => by rw [hsub e he, hsep e he])]

theorem childCoverOkB_agree (d dn : Disk) (e : MBR × Nat)
    (hche : getNode dn e.2 = getNode d e.2) :
    childCoverOkB dn e = childCoverOkB d e := by
  rw [childCoverOkB, childCoverOkB, hche]

theorem goodNodeB_agree (d dn : Disk) (hh : dn.hdr = d.hdr)
    (hf : dn.fileSize = d.fileSize) : ∀ h a,
    (∀ x ∈ subAddrs h d a, getNode dn x = getNode d x) →
    goodNodeB h dn a = goodNodeB h d a := by
  intro h
  induction h with
  | zero => intro a _; rfl
  | succ h ih =>
    intro a hag
    have ha : getNode dn a = getNode d a := hag a (mem_subAddrs_self _ d a)
    rw [goodNodeB_succ_eq, goodNodeB_succ_eq, ha]
    cases hn : getNode d a with
    | none => rfl
    | some nd =>
      dsimp only
      rw [hh, hf]
      by_cases hl : nd.isLeaf
      · rw [hl]
        simp only [Bool.true_or]
      · rw [show nd.isLeaf = false by simpa using hl]
        simp only [Bool.false_or]
        have hch : ∀ e ∈ nd.entries,
            (goodNodeB h dn e.2 && childCoverOkB dn e)
              = (goodNodeB h d e.2 && childCoverOkB d e) := by
          intro e he
          have hche : getNode dn e.2 = getNode d e.2 := by
            refine hag e.2 ?_
            exact mem_subAddrs_child h d a nd e hn (by simpa using hl) he e.2
              (mem_subAddrs_self h d e.2)
          have hgood : goodNodeB h dn e.2 = goodNodeB h d e.2 := by
            refine ih e.2 (fun x hx => hag x ?_)
            exact mem_subAddrs_child h d a nd e hn (by simpa using hl) he x hx
          rw [hgood, childCoverOkB_agree d dn e hche]
        rw [all_congr_mem _ _ _ hch]

/-! ### Key-only node rewrites preserve structure and leaf contents -/

theorem flatMap_snd_congr {l l' : List (MBR × Nat)} (F : Nat → List Nat)
    (h : l'.map Prod.snd = l.map Prod.snd) :
    l'.flatMap (fun e => F e.2) = l.flatMap (fun e => F e.2) := by
  induction l' generalizing l with
  | nil =>
    cases l with
    | nil => rfl
    | cons e t => simp at h
  | cons e' t' ih =>
    cases l with
    | nil => simp at h
    | cons e t =>
      simp only [List.map_cons, List.cons.injEq] at h
      rw [List.flatMap_cons, List.flatMap_cons, h.1, ih h.2]

theorem all_snd_congr {l l' : List (MBR × Nat)} (F : Nat → Bool)
    (h : l'.map Prod.snd = l.map Prod.snd) :
    l'.all (fun e => F e.2) = l.all (fun e => F e.2) := by
  induction l' generalizing l with
  | nil =>
    cases l with
    | nil => rfl
    | cons e t => simp at h
  | cons e' t' ih =>
    cases l with
    | nil => simp at h
    | cons e t =>
      simp only [List.map_cons, List.cons.injEq] at h
      rw [List.all_cons, List.all_cons, h.1, ih h.2]

theorem collectEnts_snd_congr (rec : Nat → Option (List (MBR × Nat)))
    {l l' : List (MBR × Nat)} (h : l'.map Prod.snd = l.map Prod.snd) :
    collectEnts rec l' = collectEnts rec l := by
  induction l' generalizing l with
  | nil =>
    cases l with
    | nil => rfl
    | cons e t => simp at h
  | cons e' t' ih =>
    cases l with
    | nil => simp at h
    | cons e t =>
      simp only [List.map_cons, List.cons.injEq] at h
      rw [collectEnts, collectEnts, h.1, ih h.2]

theorem subAddrs_setNode_values (d : Disk) (a : Nat) (nd nd' : Node)
    (hn : getNode d a = some nd) (hleaf : nd'.isLeaf = nd.isLeaf)
    (hvals : nd'.entries.map Prod.snd = nd.entries.map Prod.snd) :
    ∀ h x, subAddrs h (setNode d a nd') x = subAddrs h d x := by
  intro h
  induction h with
  | zero => intro x; rfl
  | succ h ih =>
    intro x
    by_cases hxa : x = a
    · subst hxa
      rw [subAddrs, subAddrs, getNode_setNode_self d x nd', hn]
      dsimp only
      rw [hleaf]
      by_cases hl : nd.isLeaf
      · rw [if_pos hl, if_pos hl]
      · rw [if_neg hl, if_neg hl]
        congr 1
        rw [flatMap_congr_mem _ _ _ (fun e _ => ih e.2),
          flatMap_snd_congr (fun v => subAddrs h d v) hvals]
    · rw [subAddrs, subAddrs, getNode_setNode_ne d a x nd' (fun hc => hxa hc.symm)]
      cases getNode d x with
      | none => rfl
      | some ndx =>
        dsimp only
        by_cases hl : ndx.isLeaf
        · rw [if_pos hl, if_pos hl]
        · rw [if_neg hl, if_neg hl]
          congr 1
          exact flatMap_congr_mem _ _ _ (fun e _ => ih e.2)

theorem heightLeB_setNode_values (d : Disk) (a : Nat) (nd nd' : Node)
    (hn : getNode d a = some nd) (hleaf : nd'.isLeaf = nd.isLeaf)
    (hvals : nd'.entries.map Prod.snd = nd.entries.map Prod.snd) :
    ∀ h x, heightLeB h (setNode d a nd') x = heightLeB h d x := by
  intro h
  induction h with
  | zero => intro x; rfl
  | succ h ih =>
    intro x
    by_cases hxa : x = a
    · subst hxa
      rw [heightLeB, heightLeB, getNode_setNode_self d x nd', hn]
      dsimp only
      rw [hleaf]
      by_cases hl : nd.isLeaf
      · rw [hl]; simp only [Bool.true_or]
      · rw [show nd.isLeaf = false by simpa using hl]
        simp only [Bool.false_or]
        rw [all_congr_mem _ _ _ (fun e _ => ih e.2),
          all_snd_congr (fun v => heightLeB h d v) hvals]
    · rw [heightLeB, heightLeB, getNode_setNode_ne d a x nd' (fun hc => hxa hc.symm)]
      cases getNode d x with
      | none => rfl
      | some ndx =>
        dsimp only
        by_cases hl : ndx.isLeaf
        · rw [hl]; simp only [Bool.true_or]
        · rw [show ndx.isLeaf = false by simpa using hl]
          simp only [Bool.false_or]
          exact all_congr_mem _ _ _ (fun e _ => ih e.2)

theorem collectGo_setNode_values (d : Disk) (a : Nat) (nd nd' : Node)
    (hn : getNode d a = some nd) (hinner : nd.isLeaf = false)
    (hleaf : nd'.isLeaf = nd.isLeaf)
    (hvals : nd'.entries.map Prod.snd = nd.entries.map Prod.snd) :
    ∀ h x, collectGo h (setNode d a nd') x = collectGo h d x := by
  intro h
  induction h with
  | zero => intro x; rfl
  | succ h ih =>
    intro x
    by_cases hxa : x = a
    · subst hxa
      rw [collectGo, collectGo, getNode_setNode_self d x nd', hn]
      dsimp only
      rw [hleaf, hinner]
      simp only [if_neg (by simp : ¬(false = true))]
      rw [collectEnts_congr_mem _ _ _ (fun e _ => ih e.2),
        collectEnts_snd_congr (fun v => collectGo h d v) hvals]
    · rw [collectGo, collectGo, getNode_setNode_ne d a x nd' (fun hc => hxa hc.symm)]
      cases getNode d x with
      | none => rfl
      | some ndx =>
        dsimp only
        by_cases hl : ndx.isLeaf
        · rw [if_pos hl, if_pos hl]
        · rw [if_neg hl, if_neg hl]
          exact collectEnts_congr_mem _ _ _ (fun e _ => ih e.2)

theorem sepB_setNode_values (d : Disk) (a : Nat) (nd nd' : Node)
    (hn : getNode d a = some nd) (hleaf : nd'.isLeaf = nd.isLeaf)
    (hvals : nd'.entries.map Prod.snd = nd.entries.map Prod.snd) :
    ∀ h x, sepB h (setNode d a nd') x = sepB h d x := by
  intro h
  induction h with
  | zero => intro x; rfl
  | succ h ih =>
    intro x
    have hsub : ∀ h' y, subAddrs h' (setNode d a nd') y = subAddrs h' d y :=
      subAddrs_setNode_values d a nd nd' hn hleaf hvals
    by_cases hxa : x = a
    · subst hxa
      rw [sepB, sepB, getNode_setNode_self d x nd', hn]
      dsimp only
      rw [hleaf]
      by_cases hl : nd.isLeaf
      · rw [hl]; simp only [Bool.true_or]
      · rw [show nd.isLeaf = false by simpa using hl]
        simp only [Bool.false_or]
        have hm : nd'.entries.map (fun e => subAddrs h (setNode d x nd') e.2)
            = nd.entries.map (fun e => subAddrs h d e.2) := by
          rw [map_congr_mem _ _ _ (fun e _ => hsub h e.2)]
          have h1 : nd'.entries.map (fun e => subAddrs h d e.2)
              = (nd'.entries.map Prod.snd).map (fun v => subAddrs h d v) := by
            rw [List.map_map]; rfl
          have h2 : nd.entries.map (fun e => subAddrs h d e.2)
              = (nd.entries.map Prod.snd).map (fun v => subAddrs h d v) := by
            rw [List.map_map]; rfl
          rw [h1, h2, hvals]
        rw [hm]
        rw [all_congr_mem _ _ _ (fun e _ => by rw [hsub h e.2, ih e.2]),
          all_snd_congr (fun v => !(subAddrs h d v).contains x && sepB h d v) hvals]
    · rw [sepB, sepB, getNode_setNode_ne d a x nd' (fun hc => hxa hc.symm)]
      cases getNode d x with
      | none => rfl
      | some ndx =>
        dsimp only
        by_cases hl : ndx.isLeaf
        · rw [hl]; simp only [Bool.true_or]
        · rw [show ndx.isLeaf = false by simpa using hl]
          simp only [Bool.false_or]
          rw [map_congr_mem _ _ _ (fun e _ => hsub h e.2)]
          rw [all_congr_mem _ _ _ (fun e _ => by rw [hsub h e.2, ih e.2])]

theorem list_set_getElem_self {α : Type} : ∀ (l : List α) (i : Nat)
    (h : i < l.length), l.set i (l.get ⟨i, h⟩) = l := by
  intro l
  induction l with
  | nil => intro i h; simp at h
  | cons e t ih =>
    intro i h
    cases i with
    | zero => rfl
    | succ i => simpa using ih i (by simpa using h)

theorem setElemKey_spec (dims : Nat) (nd : Node) (k : MBR) (idx : Nat)
    (nd' : Node) (hset : setElemKey dims nd k idx = some nd') :
    nd'.isLeaf = nd.isLeaf ∧ nd'.selfAddr = nd.selfAddr ∧
    nd'.entries.length = nd.entries.length ∧
    nd'.entries.map Prod.snd = nd.entries.map Prod.snd ∧
    idx < nd.entries.length ∧ k.length = 2 * dims ∧
    (∀ j, j ≠ idx → nd'.entries.get? j = nd.entries.get? j) ∧
    ∃ v, nd.entries.get? idx = some (
        (nd.entries.getD idx ([], 0)).1, v) ∧
      nd'.entries.get? idx = some (k, v) := by
  rw [setElemKey] at hset
  by_cases hc : idx < nd.entries.length ∧ k.length = 2 * dims
  · rw [if_pos hc] at hset
    obtain ⟨hidx, hk⟩ := hc
    have hnd' := Option.some.inj hset
    subst hnd'
    refine ⟨rfl, rfl, by simp, ?_, hidx, hk, ?_, ?_⟩
    · rw [List.map_set]
      have hgd : (nd.entries.getD idx ([], 0)) = nd.entries[idx] :=
        List.getD_eq_getElem nd.entries ([], 0) hidx
      have hmem : (nd.entries.map Prod.snd).set idx (nd.entries[idx].2)
          = nd.entries.map Prod.snd := by
        have hgm : (nd.entries.map Prod.snd).get ⟨idx, by simpa using hidx⟩
            = nd.entries[idx].2 := by simp
        rw [← hgm]
        exact list_set_getElem_self (nd.entries.map Prod.snd) idx (by simpa using hidx)
      dsimp only
      rw [hgd, hmem]
    · intro j hj
      rw [List.get?_eq_getElem?, List.get?_eq_getElem?]
      dsimp only
      exact List.getElem?_set_ne (fun hc => hj hc.symm)
    · refine ⟨(nd.entries.getD idx ([], 0)).2, ?_, ?_⟩
      · rw [List.get?_eq_getElem?, List.getElem?_eq_getElem hidx]
        rw [List.getD_eq_getElem nd.entries ([], 0) hidx]
      · rw [List.get?_eq_getElem?]
        dsimp only
        rw [List.getElem?_set_eq (by simpa using hidx)]
  · rw [if_neg hc] at hset
    exact absurd hset (by simp)

/-! ### Reachability -/

theorem reach_of_mem {d : Disk} {h a x : Nat} (hx : x ∈ subAddrs h d a) :
    Reach d a x := ⟨h, hx⟩

theorem reach_self (d : Disk) (a : Nat) : Reach d a a :=
  ⟨0, mem_subAddrs_self 0 d a⟩

theorem reach_child (d : Disk) (a : Nat) (nd : Node) (e : MBR × Nat)
    (hn : getNode d a = some nd) (hl : nd.isLeaf = false)
    (he : e ∈ nd.entries) {x : Nat} (hr : Reach d e.2 x) : Reach d a x := by
  obtain ⟨hf, hx⟩ := hr
  exact ⟨hf + 1, mem_subAddrs_child hf d a nd e hn hl he x hx⟩

theorem subAddrs_setNode_all (d : Disk) (t : Nat) (nd : Node) (y : Nat)
    (hnr : ¬ Reach d y t) :
    ∀ hf, subAddrs hf (setNode d t nd) y = subAddrs hf d y :=
  fun hf => subAddrs_setNode_outside d t nd hf y (fun hc => hnr ⟨hf, hc⟩)

theorem reach_setNode_iff (d : Disk) (t : Nat) (nd : Node) (y : Nat)
    (hnr : ¬ Reach d y t) (x : Nat) :
    Reach (setNode d t nd) y x ↔ Reach d y x := by
  constructor
  · rintro ⟨hf, hx⟩
    exact ⟨hf, (subAddrs_setNode_all d t nd y hnr hf) ▸ hx⟩
  · rintro ⟨hf, hx⟩
    exact ⟨hf, (subAddrs_setNode_all d t nd y hnr hf).symm ▸ hx⟩

theorem reach_setNode_values_iff (d : Disk) (a : Nat) (nd nd' : Node)
    (hn : getNode d a = some nd) (hleaf : nd'.isLeaf = nd.isLeaf)
    (hvals : nd'.entries.map Prod.snd = nd.entries.map Prod.snd)
    (y x : Nat) : Reach (setNode d a nd') y x ↔ Reach d y x := by
  constructor
  · rintro ⟨hf, hx⟩
    exact ⟨hf, (subAddrs_setNode_values d a nd nd' hn hleaf hvals hf y) ▸ hx⟩
  · rintro ⟨hf, hx⟩
    exact ⟨hf, (subAddrs_setNode_values d a nd nd' hn hleaf hvals hf y).symm ▸ hx⟩

theorem reach_nodes_congr (d d' : Disk) (hn : d.nodes = d'.nodes) (y x : Nat) :
    Reach d y x ↔ Reach d' y x := by
  constructor
  · rintro ⟨hf, hx⟩
    exact ⟨hf, (subAddrs_nodes_congr d d' hn hf y) ▸ hx⟩
  · rintro ⟨hf, hx⟩
    exact ⟨hf, (subAddrs_nodes_congr d d' hn hf y).symm ▸ hx⟩

theorem getNodeMbr_some_of_ne_nil (nd : Node) (h : nd.entries ≠ []) :
    ∃ cov, getNodeMbr nd = some cov := by
  rw [getNodeMbr]
  cases hE : nd.entries with
  | nil => exact absurd hE h
  | cons e rest => exact ⟨_, rfl⟩

/-! ### Fuel adequacy: a good separated subtree fits in `fuelOf` -/

theorem good_subAddrs_getNode (d : Disk) : ∀ h a, goodNodeB h d a = true →
    ∀ x ∈ subAddrs h d a, ∃ ndx, getNode d x = some ndx := by
  intro h
  induction h with
  | zero => intro a hg; simp [goodNodeB] at hg
  | succ h ih =>
    intro a hg x hx
    rw [goodNodeB_succ_iff] at hg
    obtain ⟨nd, h1, _, _, _, _, _, _, h8⟩ := hg
    rw [subAddrs, h1] at hx
    dsimp only at hx
    rcases List.mem_cons.mp hx with rfl | hx
    · exact ⟨nd, h1⟩
    · by_cases hl : nd.isLeaf
      · rw [if_pos hl] at hx; simp at hx
      · rw [if_neg hl] at hx
        obtain ⟨e, he, hye⟩ := List.mem_flatMap.mp hx
        rcases h8 with hleaf | hall
        · exact absurd hleaf hl
        · exact ih e.2 (hall e he).1 x hye

theorem good_sep_nodup (d : Disk) : ∀ h a, goodNodeB h d a = true →
    sepB h d a = true → (subAddrs h d a).Nodup := by
  intro h
  induction h with
  | zero => intro a hg; simp [goodNodeB] at hg
  | succ h ih =>
    intro a hg hs
    rw [goodNodeB_succ_iff] at hg
    obtain ⟨nd, h1, _, _, _, _, _, _, h8⟩ := hg
    rw [sepB, h1] at hs
    dsimp only at hs
    rw [subAddrs, h1]
    dsimp only
    by_cases hl : nd.isLeaf
    · rw [if_pos hl]; simp
    · rw [if_neg hl]
      rw [show nd.isLeaf = false by simpa using hl] at hs
      simp only [Bool.false_or, Bool.and_eq_true, List.all_eq_true] at hs
      obtain ⟨hpd, hch⟩ := hs
      rcases h8 with hleaf | hall
      · exact absurd hleaf hl
      refine List.Nodup.cons ?_ ?_
      · intro hmem
        obtain ⟨e, he, hxe⟩ := List.mem_flatMap.mp hmem
        have := (hch e he).1
        simp only [Bool.not_eq_true'] at this
        simp at this
        exact this hxe
      · show (nd.entries.flatMap (fun e => subAddrs h d e.2)).Nodup
        have hflat : nd.entries.flatMap (fun e => subAddrs h d e.2)
            = (nd.entries.map (fun e => subAddrs h d e.2)).flatten := rfl
        rw [hflat, List.nodup_flatten]
        constructor
        · intro l hli
          obtain ⟨e, he, rfl⟩ := List.mem_map.mp hli
          exact ih e.2 (hall e he).1 (hch e he).2
        · have hp := (pairwiseDisjB_iff _).mp hpd
          refine hp.imp ?_
          intro xs ys hdisj
          intro z hz1 hz2
          exact hdisj z hz1 hz2

theorem length_le_flatMap {α β : Type} (l : List α) (f : α → List β)
    (e : α) (he : e ∈ l) : (f e).length ≤ (l.flatMap f).length := by
  induction l with
  | nil => simp at he
  | cons e' t ih =>
    rw [List.flatMap_cons, List.length_append]
    rcases List.mem_cons.mp he with rfl | he
    · omega
    · have := ih he
      omega

theorem good_sep_depth (d : Disk) : ∀ h a, goodNodeB h d a = true →
    sepB h d a = true →
    goodNodeB (subAddrs h d a).length d a = true ∧
    sepB (subAddrs h d a).length d a = true := by
  intro h
  induction h with
  | zero => intro a hg; simp [goodNodeB] at hg
  | succ h ih =>
    intro a hg hs
    have hg' := hg
    rw [goodNodeB_succ_iff] at hg'
    obtain ⟨nd, h1, h2, h3, h4, h5, h6, h7, h8⟩ := hg'
    rw [sepB, h1] at hs
    dsimp only at hs
    rw [subAddrs, h1]
    dsimp only
    by_cases hl : nd.isLeaf
    · rw [if_pos hl]
      constructor
      · rw [List.length_cons, List.length_nil]
        rw [goodNodeB_succ_iff]
        exact ⟨nd, h1, h2, h3, h4, h5, h6, h7, Or.inl hl⟩
      · rw [List.length_cons, List.length_nil]
        rw [sepB, h1]
        dsimp only
        rw [hl]
        rfl
    · rw [if_neg hl]
      rw [show nd.isLeaf = false by simpa using hl] at hs
      simp only [Bool.false_or, Bool.and_eq_true, List.all_eq_true] at hs
      obtain ⟨hpd, hch⟩ := hs
      rcases h8 with hleaf | hall
      · exact absurd hleaf hl
      set fl := nd.entries.flatMap (fun e => subAddrs h d e.2) with hfl
      have hchild : ∀ e ∈ nd.entries,
          goodNodeB fl.length d e.2 = true ∧ sepB fl.length d e.2 = true ∧
          subAddrs fl.length d e.2 = subAddrs h d e.2 := by
        intro e he
        obtain ⟨hlc_g, hlc_s⟩ := ih e.2 (hall e he).1 (hch e he).2
        have hlen : (subAddrs h d e.2).length ≤ fl.length :=
          length_le_flatMap nd.entries (fun e => subAddrs h d e.2) e he
        have hstab : subAddrs fl.length d e.2 = subAddrs h d e.2 := by
          have e1 : subAddrs fl.length d e.2
              = subAddrs (subAddrs h d e.2).length d e.2 :=
            subAddrs_stable d (subAddrs h d e.2).length fl.length e.2 hlen
              (goodNodeB_heightLeB d _ e.2 hlc_g)
          rcases Nat.le_total (subAddrs h d e.2).length h with hle | hle
          · have e2 : subAddrs h d e.2
                = subAddrs (subAddrs h d e.2).length d e.2 :=
              subAddrs_stable d (subAddrs h d e.2).length h e.2 hle
                (goodNodeB_heightLeB d _ e.2 hlc_g)
            exact e1.trans e2.symm
          · have e2 : subAddrs (subAddrs h d e.2).length d e.2
                = subAddrs h d e.2 :=
              subAddrs_stable d h (subAddrs h d e.2).length e.2 hle
                (goodNodeB_heightLeB d h e.2 (hall e he).1)
            exact e1.trans e2
        refine ⟨goodNodeB_mono d _ _ e.2 hlen hlc_g, ?_, hstab⟩
        · refine sepB_stable d _ _ e.2 hlen
            (goodNodeB_heightLeB d _ e.2 hlc_g) hlc_s
      constructor
      · rw [List.length_cons, goodNodeB_succ_iff]
        refine ⟨nd, h1, h2, h3, h4, h5, h6, h7, Or.inr ?_⟩
        intro e he
        exact ⟨(hchild e he).1, (hall e he).2⟩
      · rw [List.length_cons, sepB, h1]
        dsimp only
        rw [show nd.isLeaf = false by simpa using hl]
        simp only [Bool.false_or, Bool.and_eq_true, List.all_eq_true]
        refine ⟨?_, ?_⟩
        · rw [map_congr_mem _ _ _ (fun e he => (hchild e he).2.2)]
          exact hpd
        · intro e he
          rw [(hchild e he).2.2]
          exact ⟨(hch e he).1, (hchild e he).2.1⟩

theorem good_sep_fuelOf (d : Disk) (h a : Nat) (hg : goodNodeB h d a = true)
    (hs : sepB h d a = true) :
    goodNodeB (fuelOf d) d a = true ∧ sepB (fuelOf d) d a = true := by
  obtain ⟨hgl, hsl⟩ := good_sep_depth d h a hg hs
  have hsubkeys : subAddrs h d a ⊆ d.nodes.map Prod.fst := by
    intro x hx
    obtain ⟨ndx, hndx⟩ := good_subAddrs_getNode d h a hg x hx
    rw [getNode] at hndx
    cases hfind : d.nodes.find? (fun p => p.1 = x) with
    | none => rw [hfind] at hndx; exact absurd hndx (by simp)
    | some p =>
      have hmem := List.mem_of_find?_eq_some hfind
      have hpx := List.find?_some hfind
      simp only [decide_eq_true_eq] at hpx
      rw [← hpx]
      exact List.mem_map_of_mem Prod.fst hmem
  have hnd := good_sep_nodup d h a hg hs
  have hlen : (subAddrs h d a).length ≤ d.nodes.length := by
    have := (List.subperm_of_subset hnd hsubkeys).length_le
    simpa using this
  have hfuel : (subAddrs h d a).length ≤ fuelOf d := by
    rw [fuelOf]; omega
  refine ⟨goodNodeB_mono d _ _ a hfuel hgl, ?_⟩
  exact sepB_stable d _ _ a hfuel (goodNodeB_heightLeB d _ a hgl) hsl

/-! ### Chain basics -/

theorem Chain_nil (d : Disk) (H F : Nat) (cv : Bool) (D : List Nat) (b : Nat) :
    Chain d H F cv D b [] = (b = d.hdr.root_addr) := rfl

theorem Chain_weaken (d : Disk) (H F : Nat) (cv : Bool) (D : List Nat) (b : Nat)
    (L : List (Nat × Nat)) (hc : Chain d H F true D b L) :
    Chain d H F cv D b L := by
  cases L with
  | nil => exact hc
  | cons fr rest =>
    obtain ⟨a, i⟩ := fr
    obtain ⟨nd, e, hfr⟩ := hc
    refine ⟨nd, e, hfr.1, hfr.2.1, hfr.2.2.1, hfr.2.2.2.1, hfr.2.2.2.2.1,
      hfr.2.2.2.2.2.1, hfr.2.2.2.2.2.2.1, hfr.2.2.2.2.2.2.2.1,
      hfr.2.2.2.2.2.2.2.2.1, hfr.2.2.2.2.2.2.2.2.2.1,
      hfr.2.2.2.2.2.2.2.2.2.2.1, hfr.2.2.2.2.2.2.2.2.2.2.2.1,
      hfr.2.2.2.2.2.2.2.2.2.2.2.2.1, hfr.2.2.2.2.2.2.2.2.2.2.2.2.2.1, ?_,
      hfr.2.2.2.2.2.2.2.2.2.2.2.2.2.2.2⟩
    intro hcv
    cases cv with
    | false => exact absurd hcv (by simp)
    | true => exact hfr.2.2.2.2.2.2.2.2.2.2.2.2.2.2.1 rfl

theorem get?_of_lt {α : Type} (l : List α) (j : Nat) (h : j < l.length) :
    l.get? j = some (l.get ⟨j, h⟩) := by
  rw [List.get?_eq_getElem?, List.getElem?_eq_getElem h]
  rfl

/-- Positional pairwise introduction through `get?`. -/
theorem pairwise_of_get? {α : Type} (R : α → α → Prop) :
    ∀ l : List α,
    (∀ j j' x y, j < j' → l.get? j = some x → l.get? j' = some y → R x y) →
    l.Pairwise R := by
  intro l
  induction l with
  | nil => intro _; exact List.Pairwise.nil
  | cons a t ih =>
    intro h
    refine List.Pairwise.cons ?_ ?_
    · intro y hy
      obtain ⟨n, hn⟩ := List.mem_iff_get?.mp hy
      exact h 0 (n + 1) a y (by omega) rfl hn
    · refine ih ?_
      intro j j' x y hlt hx hy
      exact h (j + 1) (j' + 1) x y (by omega) hx hy

/-- The separation of a chain frame's node, rebuilt at the child's
fuel.  Separation ignores entry keys, so this applies both before and
after the frame's entry key is rewritten. -/
theorem frame_sep (d : Disk) (H Hb F : Nat) (D : List Nat) (b a i : Nat)
    (nd : Node) (e : MBR × Nat)
    (h1 : getNode d a = some nd) (hlf : nd.isLeaf = false)
    (hgi : nd.entries.get? i = some e) (heb : e.2 = b)
    (hnra : ¬ Reach d b a)
    (hF8 : ∀ j e', j ≠ i → nd.entries.get? j = some e' →
      goodNodeB H d e'.2 = true ∧ childCoverOkB d e' = true ∧
      sepB H d e'.2 = true ∧
      (∀ x, Reach d e'.2 x → ¬ Reach d b x ∧ x ≠ a ∧ x ∉ D ∧ x < F))
    (hF9 : ∀ j j' e' e'', j ≠ i → j' ≠ i → j ≠ j' →
      nd.entries.get? j = some e' → nd.entries.get? j' = some e'' →
      ∀ x, Reach d e'.2 x → ¬ Reach d e''.2 x)
    (hle : H ≤ Hb) (hs : sepB Hb d b = true) :
    sepB (Nat.succ Hb) d a = true := by
  rw [sepB, h1]
  dsimp only
  rw [hlf]
  simp only [Bool.false_or, Bool.and_eq_true, List.all_eq_true]
  constructor
  · rw [pairwiseDisjB_iff, List.pairwise_map]
    refine pairwise_of_get? _ _ ?_
    intro j j' ej ej' hlt hje hje'
    intro x hx hx'
    have hjne : j ≠ j' := by omega
    by_cases hji : j = i
    · have hee : ej = e := by
        rw [hji] at hje
        have := hje.symm.trans hgi
        injection this
      have hreachb : Reach d b x := ⟨Hb, by rw [← heb, ← hee]; exact hx⟩
      have hj'i : j' ≠ i := fun hc => hjne (hji.trans hc.symm)
      obtain ⟨_, _, _, hprops⟩ := hF8 j' ej' hj'i hje'
      exact (hprops x ⟨Hb, hx'⟩).1 hreachb
    · by_cases hj'i : j' = i
      · have hee : ej' = e := by
          rw [hj'i] at hje'
          have := hje'.symm.trans hgi
          injection this
        have hreachb : Reach d b x := ⟨Hb, by rw [← heb, ← hee]; exact hx'⟩
        obtain ⟨_, _, _, hprops⟩ := hF8 j ej hji hje
        exact (hprops x ⟨Hb, hx⟩).1 hreachb
      · exact hF9 j j' ej ej' hji hj'i hjne hje hje' x ⟨Hb, hx⟩ ⟨Hb, hx'⟩
  · intro e' he'
    obtain ⟨j, hj⟩ := List.mem_iff_get?.mp he'
    by_cases hji : j = i
    · have hee : e' = e := by
        rw [hji] at hj
        have := hj.symm.trans hgi
        injection this
      constructor
      · have hnotin : a ∉ subAddrs Hb d e'.2 := by
          intro hc
          refine hnra ⟨Hb, ?_⟩
          rw [← heb, ← hee]
          exact hc
        simp [hnotin]
      · rw [hee, heb]; exact hs
    · obtain ⟨hgj, _, hsj, hprops⟩ := hF8 j e' hji hj
      constructor
      · have hnotin : a ∉ subAddrs Hb d e'.2 :=
          fun hc => (hprops a ⟨Hb, hc⟩).2.1 rfl
        simp [hnotin]
      · exact sepB_stable d H Hb e'.2 hle
          (goodNodeB_heightLeB d H e'.2 hgj) hsj

/-- Closing a chain: a good, separated subtree below a chain whose
stale keys still contain the current child covers yields a good,
separated tree at the root. -/
theorem chain_close : ∀ (L : List (Nat × Nat)) (d : Disk) (H Hb F : Nat)
    (D : List Nat) (b : Nat),
    Chain d H F true D b L →
    H ≤ Hb →
    F ≤ d.fileSize →
    goodNodeB Hb d b = true →
    sepB Hb d b = true →
    goodNodeB (Hb + L.length) d d.hdr.root_addr = true ∧
    sepB (Hb + L.length) d d.hdr.root_addr = true := by
  intro L
  induction L with
  | nil =>
    intro d H Hb F D b hch _ _ hg hs
    rw [Chain_nil] at hch
    exact hch ▸ ⟨hg, hs⟩
  | cons fr rest ih =>
    intro d H Hb F D b hch hle hFle hg hs
    obtain ⟨a, i⟩ := fr
    obtain ⟨nd, e, h1, hlf, hself, hnz, hfs, hcap, hok, hgi, heb, _haD, _hab,
      hnra, hF8, hF9, hcov, hrest⟩ := hch
    have hne : nd.entries ≠ [] := by
      intro hnil
      rw [hnil] at hgi
      exact absurd hgi (by simp)
    have hga : goodNodeB (Nat.succ Hb) d a = true := by
      rw [goodNodeB_succ_iff]
      refine ⟨nd, h1, hself, hnz, by omega, by rw [hlf]; exact hcap, hne, hok,
        Or.inr ?_⟩
      intro e' he'
      obtain ⟨j, hj⟩ := List.mem_iff_get?.mp he'
      by_cases hji : j = i
      · have hee : e' = e := by
          rw [hji] at hj
          have := hj.symm.trans hgi
          injection this
        subst hee
        obtain ⟨bnd, bcov, hbnd, hbcov, hbge⟩ := hcov rfl
        constructor
        · rw [heb]; exact hg
        · rw [childCoverOkB, heb, hbnd]
          dsimp only
          rw [hbcov]
          exact hbge
      · obtain ⟨hgj, hcj, _, _⟩ := hF8 j e' hji hj
        exact ⟨goodNodeB_mono d H Hb e'.2 hle hgj, hcj⟩
    have hsa : sepB (Nat.succ Hb) d a = true :=
      frame_sep d H Hb F D b a i nd e h1 hlf hgi heb hnra hF8 hF9 hle hs
    have hclose := ih d H (Nat.succ Hb) F (b :: D) a hrest (by omega) hFle hga hsa
    have harith : Nat.succ Hb + rest.length = Hb + ((a, i) :: rest).length := by
      rw [List.length_cons]
      omega
    rw [harith] at hclose
    exact hclose

theorem map_snd_congr {α : Type} {l l' : List (MBR × Nat)} (F : Nat → α)
    (h : l'.map Prod.snd = l.map Prod.snd) :
    l'.map (fun e => F e.2) = l.map (fun e => F e.2) := by
  induction l' generalizing l with
  | nil =>
    cases l with
    | nil => rfl
    | cons e t => simp at h
  | cons e' t' ih =>
    cases l with
    | nil => simp at h
    | cons e t =>
      simp only [List.map_cons, List.cons.injEq] at h
      rw [List.map_cons, List.map_cons, h.1, ih h.2]

/-- Transporting a chain across a value-preserving rewrite of the
node at `t`, where `t` is the chain's current child or lies below it:
every structural clause of the chain is untouched. -/
theorem Chain_transport_values : ∀ (rest : List (Nat × Nat)) (d : Disk)
    (H F : Nat) (cv cvOut : Bool) (D : List Nat) (b t : Nat) (ndT ndK : Node),
    Chain d H F cv D b rest →
    getNode d t = some ndT →
    ndK.isLeaf = ndT.isLeaf →
    ndK.entries.map Prod.snd = ndT.entries.map Prod.snd →
    (t = b ∨ t ∈ D) →
    (cvOut = true → cv = true ∧
      (t = b → ∀ bcov2, getNodeMbr ndK = some bcov2 →
        ∃ bnd0, getNode d b = some bnd0 ∧ getNodeMbr bnd0 = some bcov2)) →
    Chain (setNode d t ndK) H F cvOut D b rest := by
  intro rest
  induction rest with
  | nil =>
    intro d H F cv cvOut D b t ndT ndK hch _ _ _ _ _
    rw [Chain_nil] at hch
    rw [Chain_nil, setNode_hdr]
    exact hch
  | cons fr rest' ih =>
    intro d H F cv cvOut D b t ndT ndK hch hT hKleaf hKvals htin hcvt
    obtain ⟨a, i⟩ := fr
    obtain ⟨nd, e, h1, hlf, hself, hnz, hfs, hcap, hok, hgi, heb, haD, hab,
      hnra, hF8, hF9, hcov, hrest⟩ := hch
    have hta : t ≠ a := by
      intro hc
      rcases htin with htb | htD
      · exact hab (hc.symm.trans htb)
      · exact haD (hc ▸ htD)
    have hreach_iff : ∀ y x, Reach (setNode d t ndK) y x ↔ Reach d y x :=
      reach_setNode_values_iff d t ndT ndK hT hKleaf hKvals
    have hsep_eq : ∀ h' y, sepB h' (setNode d t ndK) y = sepB h' d y :=
      sepB_setNode_values d t ndT ndK hT hKleaf hKvals
    have hex : ∀ j e', j ≠ i → nd.entries.get? j = some e' →
        t ∉ subAddrs H d e'.2 ∧ t ≠ e'.2 := by
      intro j e' hji hj
      have hprops := (hF8 j e' hji hj).2.2.2
      have hnot : ¬ Reach d e'.2 t := by
        intro hr
        have := hprops t hr
        rcases htin with htb | htD
        · refine this.1 ?_
          rw [← htb]
          exact reach_self d t
        · exact this.2.2.1 htD
      exact ⟨fun hc => hnot ⟨H, hc⟩, fun hc => hnot (hc ▸ reach_self d e'.2)⟩
    refine ⟨nd, e, ?_, hlf, hself, hnz, ?_, ?_, ?_, hgi, heb, haD, hab, ?_,
      ?_, ?_, ?_, ?_⟩
    · rw [getNode_setNode_ne d t a ndK hta]
      exact h1
    · exact hfs
    · rw [setNode_hdr]
      exact hcap
    · intro e' he'
      rw [setNode_hdr]
      exact hok e' he'
    · intro hc
      exact hnra ((hreach_iff b a).mp hc)
    · intro j e' hji hj
      obtain ⟨hgj, hcj, hsj, hprops⟩ := hF8 j e' hji hj
      have hout := (hex j e' hji hj).1
      refine ⟨?_, ?_, ?_, ?_⟩
      · rw [goodNodeB_setNode_outside d t ndK H e'.2 hout]
        exact hgj
      · rw [childCoverOkB_setNode_outside d t ndK e' (hex j e' hji hj).2]
        exact hcj
      · rw [hsep_eq]
        exact hsj
      · intro x hx
        have hx' := (hreach_iff e'.2 x).mp hx
        obtain ⟨hr1, hr2, hr3, hr4⟩ := hprops x hx'
        exact ⟨fun hc => hr1 ((hreach_iff b x).mp hc), hr2, hr3, hr4⟩
    · intro j j' e' e'' hji hj'i hjne hj hj'
      intro x hx
      have hx' := (hreach_iff e'.2 x).mp hx
      exact fun hc => hF9 j j' e' e'' hji hj'i hjne hj hj' x hx'
        ((hreach_iff e''.2 x).mp hc)
    · intro hcv
      obtain ⟨hcveq, hnew⟩ := hcvt hcv
      by_cases htb : t = b
      · obtain ⟨bnd0, bcov0, hbnd0, hbcov0, hge0⟩ := hcov hcveq
        have hbT : bnd0 = ndT := by
          have hT' : getNode d b = some ndT := by rw [← htb]; exact hT
          have := hbnd0.symm.trans hT'
          injection this
        have hTne : ndT.entries ≠ [] := by
          intro hnil
          rw [hbT, getNodeMbr, hnil] at hbcov0
          exact absurd hbcov0 (by simp)
        have hKne : ndK.entries ≠ [] := by
          intro hnil
          rw [hnil] at hKvals
          cases hE : ndT.entries with
          | nil => exact hTne hE
          | cons x xs => rw [hE] at hKvals; simp at hKvals
        obtain ⟨bcov2, hbcov2⟩ := getNodeMbr_some_of_ne_nil ndK hKne
        obtain ⟨bnd1, hbnd1, hbcov1⟩ := hnew htb bcov2 hbcov2
        have hb01 : bnd1 = bnd0 := by
          have := hbnd1.symm.trans hbnd0
          injection this
        have hceq : bcov2 = bcov0 := by
          rw [hb01] at hbcov1
          have := hbcov1.symm.trans hbcov0
          injection this
        refine ⟨ndK, bcov2, ?_, hbcov2, ?_⟩
        · rw [htb]
          exact getNode_setNode_self d b ndK
        · rw [hceq]
          exact hge0
      · obtain ⟨bnd0, bcov0, hbnd0, hbcov0, hge0⟩ := hcov hcveq
        refine ⟨bnd0, bcov0, ?_, hbcov0, hge0⟩
        rw [getNode_setNode_ne d t b ndK htb]
        exact hbnd0
    · refine ih d H F true true (b :: D) a t ndT ndK hrest hT hKleaf hKvals
        (Or.inr ?_) ?_
      · rcases htin with htb | htD
        · rw [htb]
          exact List.mem_cons_self _ _
        · exact List.mem_cons_of_mem _ htD
      · intro _
        exact ⟨rfl, fun hc => absurd hc hta⟩

theorem get?_lt {α : Type} {l : List α} {j : Nat} {x : α}
    (h : l.get? j = some x) : j < l.length := by
  rcases List.get?_eq_some.mp h with ⟨h1, _⟩
  exact h1

theorem get?_mem {α : Type} {l : List α} {j : Nat} {x : α}
    (h : l.get? j = some x) : x ∈ l :=
  List.mem_iff_get?.mpr ⟨j, h⟩

/-- `modify_parent_entry_mbr` with an exact replacement key for the
first frame: the walk writes exact covering keys while they change,
stops soundly when one does not, and returns a good, separated tree
with unchanged leaf contents. -/
theorem modifyParent_spec : ∀ (L : List (Nat × Nat)) (d : Disk) (H Hb F : Nat)
    (D : List Nat) (b : Nat) (m : MBR) (d' : Disk),
    modifyParentGo d.hdr.dimensions d L (some m) = some d' →
    Chain d H F false D b L →
    H ≤ Hb →
    F ≤ d.fileSize →
    goodNodeB Hb d b = true →
    sepB Hb d b = true →
    (∃ bnd, getNode d b = some bnd ∧ getNodeMbr bnd = some m) →
    d'.hdr = d.hdr ∧ d'.fileSize = d.fileSize ∧
    (∀ fuel x, collectGo fuel d' x = collectGo fuel d x) ∧
    (∃ H2, goodNodeB H2 d' d.hdr.root_addr = true ∧
      sepB H2 d' d.hdr.root_addr = true) := by
  intro L
  induction L with
  | nil =>
    intro d H Hb F D b m d' hmp hch hle _ hg hs _
    rw [Chain_nil] at hch
    rw [modifyParentGo] at hmp
    have hd : d = d' := by injection hmp
    subst hd
    exact ⟨rfl, rfl, fun _ _ => rfl, ⟨Hb, hch ▸ hg, hch ▸ hs⟩⟩
  | cons fr rest ih =>
    intro d H Hb F D b m d' hmp hch hle hFle hg hs hm
    obtain ⟨a, i⟩ := fr
    obtain ⟨nd, e, h1, hlf, hself, hnz, hfs, hcap, hok, hgi, heb, haD, hab,
      hnra, hF8, hF9, hcov, hrest⟩ := hch
    obtain ⟨bnd, hbnd, hbm⟩ := hm
    -- the replacement key is a well-formed box of the right dimension
    obtain ⟨bnd', _, bcov', hbnd', _, hbcov', _, hcovlen, hcovval, _⟩ :=
      collect_good d Hb b hg
    have hbb : bnd' = bnd := by
      have := hbnd'.symm.trans hbnd
      injection this
    subst hbb
    have hmc : m = bcov' := by
      have := hbm.symm.trans hbcov'
      injection this
    subst hmc
    have hne : nd.entries ≠ [] := by
      intro hnil
      rw [hnil] at hgi
      exact absurd hgi (by simp)
    obtain ⟨oldMbr, hold⟩ := getNodeMbr_some_of_ne_nil nd hne
    have hi : i < nd.entries.length := get?_lt hgi
    have hsetk : ∃ ndK, setElemKey d.hdr.dimensions nd m i = some ndK := by
      rw [setElemKey, if_pos ⟨hi, hcovlen⟩]
      exact ⟨_, rfl⟩
    obtain ⟨ndK, hsetk⟩ := hsetk
    obtain ⟨hKleaf, hKself, hKlen, hKvals, _, _, hKother, v, hKold, hKnew⟩ :=
      setElemKey_spec _ _ _ _ _ hsetk
    have hvb : v = b := by
      have := hKold.symm.trans hgi
      have h2 := congrArg Prod.snd (Option.some.inj this)
      rw [← heb]
      exact h2
    have hKne : ndK.entries ≠ [] := by
      intro hnil
      rw [hnil] at hKlen
      simp only [List.length_nil] at hKlen
      omega
    obtain ⟨newKey, hnewK⟩ := getNodeMbr_some_of_ne_nil ndK hKne
    -- unfold one step of the walk
    rw [modifyParentGo, h1] at hmp
    dsimp only at hmp
    rw [hold] at hmp
    dsimp only at hmp
    rw [hsetk] at hmp
    dsimp only [Option.map] at hmp
    rw [hnewK] at hmp
    dsimp only at hmp
    -- facts about the written disk
    have hd1hdr : (setNode d a ndK).hdr = d.hdr := setNode_hdr d a ndK
    have hd1fs : (setNode d a ndK).fileSize = d.fileSize := setNode_fileSize d a ndK
    have hcoll : ∀ fuel x,
        collectGo fuel (setNode d a ndK) x = collectGo fuel d x :=
      fun fuel x => collectGo_setNode_values d a nd ndK h1 hlf hKleaf hKvals fuel x
    have hnotsubb : a ∉ subAddrs Hb d b := fun hc => hnra ⟨Hb, hc⟩
    have hga1 : goodNodeB (Nat.succ Hb) (setNode d a ndK) a = true := by
      rw [goodNodeB_succ_iff]
      refine ⟨ndK, getNode_setNode_self d a ndK, hKself.trans hself, hnz, ?_,
        ?_, hKne, ?_, Or.inr ?_⟩
      · rw [hd1fs]
        omega
      · rw [hd1hdr, hKlen, hKleaf, hlf]
        exact hcap
      · intro e' he'
        rw [hd1hdr]
        obtain ⟨j, hj⟩ := List.mem_iff_get?.mp he'
        by_cases hji : j = i
        · have hee : e' = (m, v) := by
            rw [hji] at hj
            have := hj.symm.trans hKnew
            injection this
          rw [hee, entryOkB_iff]
          exact ⟨hcovlen, hcovval⟩
        · rw [hKother j hji] at hj
          exact hok e' (get?_mem hj)
      · intro e' he'
        obtain ⟨j, hj⟩ := List.mem_iff_get?.mp he'
        by_cases hji : j = i
        · have hee : e' = (m, v) := by
            rw [hji] at hj
            have := hj.symm.trans hKnew
            injection this
          rw [hee]
          constructor
          · show goodNodeB Hb (setNode d a ndK) v = true
            rw [hvb, goodNodeB_setNode_outside d a ndK Hb b hnotsubb]
            exact hg
          · show childCoverOkB (setNode d a ndK) (m, v) = true
            rw [childCoverOkB]
            dsimp only
            rw [hvb, getNode_setNode_ne d a b ndK hab, hbnd]
            dsimp only
            rw [hbm]
            exact mbrGe_refl m
        · rw [hKother j hji] at hj
          obtain ⟨hgj, hcj, _, hprops⟩ := hF8 j e' hji hj
          have hnotr : ¬ Reach d e'.2 a := fun hr => (hprops a hr).2.1 rfl
          constructor
          · rw [goodNodeB_setNode_outside d a ndK Hb e'.2
              (fun hc => hnotr ⟨Hb, hc⟩)]
            exact goodNodeB_mono d H Hb e'.2 hle hgj
          · rw [childCoverOkB_setNode_outside d a ndK e'
              (fun hc => hnotr (hc ▸ reach_self d e'.2))]
            exact hcj
    have hsa1 : sepB (Nat.succ Hb) (setNode d a ndK) a = true := by
      rw [sepB_setNode_values d a nd ndK h1 hKleaf hKvals]
      exact frame_sep d H Hb F D b a i nd e h1 hlf hgi heb hnra hF8 hF9 hle hs
    by_cases heq : oldMbr = newKey
    · -- the walk stops: remaining stale keys still cover
      rw [if_pos heq] at hmp
      have hd' : setNode d a ndK = d' := by injection hmp
      subst hd'
      have hch1 : Chain (setNode d a ndK) H F true (b :: D) a rest := by
        refine Chain_transport_values rest d H F true true (b :: D) a a nd ndK
          hrest h1 hKleaf hKvals (Or.inl rfl) ?_
        intro _
        refine ⟨rfl, ?_⟩
        intro _ bcov2 hbcov2
        have hb2 : bcov2 = newKey := by
          have := hbcov2.symm.trans hnewK
          injection this
        exact ⟨nd, h1, by rw [hold, hb2, heq]⟩
      obtain ⟨hgr, hsr⟩ :=
        chain_close rest (setNode d a ndK) H (Nat.succ Hb) F (b :: D) a hch1
          (by omega) (by rw [hd1fs]; exact hFle) hga1 hsa1
      rw [hd1hdr] at hgr hsr
      exact ⟨hd1hdr, hd1fs, hcoll, ⟨Nat.succ Hb + rest.length, hgr, hsr⟩⟩
    · -- the walk continues with the recomputed exact key
      rw [if_neg heq] at hmp
      have hch1 : Chain (setNode d a ndK) H F false (b :: D) a rest := by
        refine Chain_transport_values rest d H F true false (b :: D) a a nd ndK
          hrest h1 hKleaf hKvals (Or.inl rfl) ?_
        intro hc
        exact absurd hc (by simp)
      have hdims : d.hdr.dimensions = (setNode d a ndK).hdr.dimensions := by
        rw [hd1hdr]
      rw [hdims] at hmp
      have hm1 : ∃ bnd1, getNode (setNode d a ndK) a = some bnd1 ∧
          getNodeMbr bnd1 = some newKey :=
        ⟨ndK, getNode_setNode_self d a ndK, hnewK⟩
      obtain ⟨hh, hf, hc, H2, hgr, hsr⟩ :=
        ih (setNode d a ndK) H (Nat.succ Hb) F (b :: D) a newKey d' hmp hch1
          (by omega) (by rw [hd1fs]; exact hFle) hga1 hsa1 hm1
      rw [hd1hdr] at hh hgr hsr
      refine ⟨hh, hf.trans hd1fs, ?_, ⟨H2, hgr, hsr⟩⟩
      intro fuel x
      exact (hc fuel x).trans (hcoll fuel x)

/-! ### Leaf rewrites preserve the block graph -/

theorem subAddrs_setNode_leaf (d : Disk) (t : Nat) (tn tn' : Node)
    (ht : getNode d t = some tn) (hleaf : tn.isLeaf = true)
    (hleaf' : tn'.isLeaf = true) :
    ∀ h x, subAddrs h (setNode d t tn') x = subAddrs h d x := by
  intro h
  induction h with
  | zero => intro x; rfl
  | succ h ih =>
    intro x
    by_cases hxt : x = t
    · subst hxt
      rw [subAddrs, subAddrs, getNode_setNode_self d x tn', ht]
      dsimp only
      rw [hleaf, hleaf']
      simp
    · rw [subAddrs, subAddrs, getNode_setNode_ne d t x tn' (fun hc => hxt hc.symm)]
      cases getNode d x with
      | none => rfl
      | some ndx =>
        dsimp only
        by_cases hl : ndx.isLeaf
        · rw [if_pos hl, if_pos hl]
        · rw [if_neg hl, if_neg hl]
          congr 1
          exact flatMap_congr_mem _ _ _ (fun e _ => ih e.2)

theorem heightLeB_setNode_leaf (d : Disk) (t : Nat) (tn tn' : Node)
    (ht : getNode d t = some tn) (hleaf : tn.isLeaf = true)
    (hleaf' : tn'.isLeaf = true) :
    ∀ h x, heightLeB h (setNode d t tn') x = heightLeB h d x := by
  intro h
  induction h with
  | zero => intro x; rfl
  | succ h ih =>
    intro x
    by_cases hxt : x = t
    · subst hxt
      rw [heightLeB, heightLeB, getNode_setNode_self d x tn', ht]
      dsimp only
      rw [hleaf, hleaf']
      simp only [Bool.true_or]
    · rw [heightLeB, heightLeB,
        getNode_setNode_ne d t x tn' (fun hc => hxt hc.symm)]
      cases getNode d x with
      | none => rfl
      | some ndx =>
        dsimp only
        by_cases hl : ndx.isLeaf
        · rw [hl]; simp only [Bool.true_or]
        · rw [show ndx.isLeaf = false by simpa using hl]
          simp only [Bool.false_or]
          exact all_congr_mem _ _ _ (fun e _ => ih e.2)

theorem sepB_setNode_leaf (d : Disk) (t : Nat) (tn tn' : Node)
    (ht : getNode d t = some tn) (hleaf : tn.isLeaf = true)
    (hleaf' : tn'.isLeaf = true) :
    ∀ h x, sepB h (setNode d t tn') x = sepB h d x := by
  intro h
  induction h with
  | zero => intro x; rfl
  | succ h ih =>
    intro x
    have hsub := subAddrs_setNode_leaf d t tn tn' ht hleaf hleaf'
    by_cases hxt : x = t
    · subst hxt
      rw [sepB, sepB, getNode_setNode_self d x tn', ht]
      dsimp only
      rw [hleaf, hleaf']
      simp only [Bool.true_or]
    · rw [sepB, sepB, getNode_setNode_ne d t x tn' (fun hc => hxt hc.symm)]
      cases getNode d x with
      | none => rfl
      | some ndx =>
        dsimp only
        by_cases hl : ndx.isLeaf
        · rw [hl]; simp only [Bool.true_or]
        · rw [show ndx.isLeaf = false by simpa using hl]
          simp only [Bool.false_or]
          rw [map_congr_mem _ _ _ (fun e _ => hsub h e.2)]
          rw [all_congr_mem _ _ _ (fun e _ => by rw [hsub h e.2, ih e.2])]

theorem reach_iff_of_heightLe (d : Disk) (h a : Nat)
    (hh : heightLeB h d a = true) (x : Nat) :
    Reach d a x ↔ x ∈ subAddrs h d a := by
  constructor
  · rintro ⟨hf, hx⟩
    rcases Nat.le_total hf h with hle | hle
    · exact subAddrs_fuel_mono d hf h a hle x hx
    · rw [← subAddrs_stable d h hf a hle hh]
      exact hx
  · intro hx
    exact ⟨h, hx⟩

theorem getLast?_cons_of_some {α : Type} (a : α) (l : List α) (z : α)
    (h : l.getLast? = some z) : (a :: l).getLast? = some z := by
  cases l with
  | nil => simp at h
  | cons b t => rw [List.getLast?_cons_cons]; exact h

theorem findIdx?_spec {α : Type} (p : α → Bool) : ∀ (l : List α) (i0 i : Nat),
    List.findIdx? p l i0 = some i →
    i0 ≤ i ∧ ∃ x, l.get? (i - i0) = some x ∧ p x = true := by
  intro l
  induction l with
  | nil => intro i0 i h; exact absurd h (by simp)
  | cons a t ih =>
    intro i0 i h
    rw [List.findIdx?_cons] at h
    by_cases hp : p a
    · rw [if_pos hp] at h
      have : i0 = i := by injection h
      subst this
      exact ⟨le_refl _, a, by simp, hp⟩
    · rw [if_neg hp] at h
      obtain ⟨hle, x, hx, hpx⟩ := ih (i0 + 1) i h
      refine ⟨by omega, x, ?_, hpx⟩
      have harith : i - i0 = (i - (i0 + 1)) + 1 := by omega
      rw [harith]
      simpa using hx

theorem mem_eraseIdx_of_ne {α : Type} (l : List α) (i : Nat) (x y : α)
    (hi : l.get? i = some y) (hx : x ∈ l) (hxy : x ≠ y) :
    x ∈ l.eraseIdx i := by
  have hilt : i < l.length := get?_lt hi
  have hdecomp : l = l.take i ++ l[i] :: l.drop (i + 1) := by
    rw [← List.drop_eq_getElem_cons hilt, List.take_append_drop]
  have hyi : l[i] = y := by
    rw [List.get?_eq_getElem?, List.getElem?_eq_getElem hilt] at hi
    injection hi
  rw [List.eraseIdx_eq_take_drop_succ]
  rw [hdecomp] at hx
  rcases List.mem_append.mp hx with hx | hx
  · exact List.mem_append.mpr (Or.inl hx)
  · rcases List.mem_cons.mp hx with rfl | hx
    · exact absurd hyi hxy
    · exact List.mem_append.mpr (Or.inr hx)

/-- The entry loop of `FindLeaf` at an inner node: the first
successful branch yields a matching leaf whose chunk can be swapped in
the concatenated leaf collection. -/
theorem findEnts_delete (d : Disk) (k : MBR) (h' : Nat)
    (rec : Nat → Option (Option (List (Nat × Nat))))
    (hrec : ∀ c frames', goodNodeB h' d c = true → sepB h' d c = true →
      rec c = some (some frames') → DelSpec d k h' c frames') :
    ∀ (entries : List (MBR × Nat)) (i0 addr : Nat)
      (frames : List (Nat × Nat)),
    (∀ e ∈ entries, goodNodeB h' d e.2 = true ∧ sepB h' d e.2 = true) →
    List.Pairwise (fun e1 e2 => ∀ x, Reach d e1.2 x → ¬ Reach d e2.2 x) entries →
    findEnts rec k addr i0 entries = some (some frames) →
    ∃ t pid tn,
      frames.getLast? = some (t, pid) ∧
      getNode d t = some tn ∧
      tn.isLeaf = true ∧ tn.selfAddr = t ∧ t ≠ 0 ∧ t < d.fileSize ∧
      tn.entries.length ≤ capacity d.hdr true ∧
      (∀ e ∈ tn.entries, entryOkB d.hdr.dimensions e = true) ∧
      (∃ ee, tn.entries.get? pid = some ee ∧ ee.1 = k) ∧
      (∃ e ∈ entries, Reach d e.2 t) ∧
      (∀ tn' : Node, tn'.isLeaf = true → ∃ pre post,
        collectEnts (fun c => collectGo h' d c) entries
          = some (pre ++ tn.entries ++ post) ∧
        collectEnts (fun c => collectGo h' (setNode d t tn') c) entries
          = some (pre ++ tn'.entries ++ post)) := by
  intro entries
  induction entries with
  | nil =>
    intro i0 addr frames _ _ hfe
    rw [findEnts] at hfe
    have := Option.some.inj hfe
    exact absurd this (by simp)
  | cons e rest ihe =>
    intro i0 addr frames hents hp hfe
    have hgood := (hents e (List.mem_cons_self _ _)).1
    have hpc := List.pairwise_cons.mp hp
    have hents' : ∀ e' ∈ rest,
        goodNodeB h' d e'.2 = true ∧ sepB h' d e'.2 = true :=
      fun e' he' => hents e' (List.mem_cons_of_mem _ he')
    -- the head chunk exists
    obtain ⟨_, le, _, _, hle, _⟩ := collect_good d h' e.2 hgood
    have hrestok : ∀ e' ∈ rest, ∃ le', collectGo h' d e'.2 = some le' := by
      intro e' he'
      obtain ⟨_, le', _, _, hle', _⟩ := collect_good d h' e'.2 (hents' e' he').1
      exact ⟨le', hle'⟩
    rw [findEnts] at hfe
    by_cases hm : mbrGe e.1 k
    · rw [if_pos hm] at hfe
      cases hr : rec e.2 with
      | none => rw [hr] at hfe; exact absurd hfe (by simp)
      | some o =>
        cases o with
        | some sub =>
          rw [hr] at hfe
          dsimp only at hfe
          have hframes : (addr, i0) :: sub = frames := by
            have := Option.some.inj hfe
            injection this
          obtain ⟨t, pid, tn, hlast, hTn, htleaf, htself, htnz, htfs, htcap,
            htok, hee, hreach, hcoll⟩ :=
            hrec e.2 sub hgood (hents e (List.mem_cons_self _ _)).2 hr
          have hnt : ∀ e' ∈ rest, ¬ Reach d e'.2 t := by
            intro e' he' hc
            exact hpc.1 e' he' t hreach hc
          refine ⟨t, pid, tn, ?_, hTn, htleaf, htself, htnz, htfs, htcap,
            htok, hee, ⟨e, List.mem_cons_self _ _, hreach⟩, ?_⟩
          · rw [← hframes]
            exact getLast?_cons_of_some _ sub (t, pid) hlast
          · intro tn' hleaf'
            obtain ⟨pre, post, hc1, hc2⟩ := hcoll tn' hleaf'
            obtain ⟨CR, hCR, _, _⟩ := collectEnts_ok _ rest hrestok
            have hCR2 : collectEnts
                (fun c => collectGo h' (setNode d t tn') c) rest = some CR := by
              rw [collectEnts_congr_mem _ (fun c => collectGo h' d c) rest ?_]
              · exact hCR
              · intro e' he'
                refine collectGo_agree d (setNode d t tn') h' e'.2 ?_
                intro x hx
                have hxt : t ≠ x := by
                  intro hc
                  exact hnt e' he' (hc ▸ ⟨h', hx⟩)
                exact getNode_setNode_ne d t x tn' hxt
            refine ⟨pre, post ++ CR, ?_, ?_⟩
            · rw [collectEnts, hc1, hCR]
              simp [List.append_assoc]
            · rw [collectEnts, hc2, hCR2]
              simp [List.append_assoc]
        | none =>
          rw [hr] at hfe
          dsimp only at hfe
          obtain ⟨t, pid, tn, hlast, hTn, htleaf, htself, htnz, htfs, htcap,
            htok, hee, ⟨e0, he0, hreach0⟩, hcoll⟩ :=
            ihe (i0 + 1) addr frames hents' hpc.2 hfe
          have hnet : ¬ Reach d e.2 t := by
            intro hc
            exact hpc.1 e0 he0 t hc hreach0
          refine ⟨t, pid, tn, hlast, hTn, htleaf, htself, htnz, htfs, htcap,
            htok, hee, ⟨e0, List.mem_cons_of_mem _ he0, hreach0⟩, ?_⟩
          intro tn' hleaf'
          obtain ⟨pre, post, hc1, hc2⟩ := hcoll tn' hleaf'
          have hle2 : collectGo h' (setNode d t tn') e.2 = some le := by
            rw [collectGo_agree d (setNode d t tn') h' e.2 ?_]
            · exact hle
            · intro x hx
              have hxt : t ≠ x := by
                intro hc
                exact hnet (hc ▸ ⟨h', hx⟩)
              exact getNode_setNode_ne d t x tn' hxt
          refine ⟨le ++ pre, post, ?_, ?_⟩
          · rw [collectEnts, hle, hc1]
            simp [List.append_assoc]
          · rw [collectEnts, hle2, hc2]
            simp [List.append_assoc]
    · rw [if_neg hm] at hfe
      obtain ⟨t, pid, tn, hlast, hTn, htleaf, htself, htnz, htfs, htcap,
        htok, hee, ⟨e0, he0, hreach0⟩, hcoll⟩ :=
        ihe (i0 + 1) addr frames hents' hpc.2 hfe
      have hnet : ¬ Reach d e.2 t := by
        intro hc
        exact hpc.1 e0 he0 t hc hreach0
      refine ⟨t, pid, tn, hlast, hTn, htleaf, htself, htnz, htfs, htcap,
        htok, hee, ⟨e0, List.mem_cons_of_mem _ he0, hreach0⟩, ?_⟩
      intro tn' hleaf'
      obtain ⟨pre, post, hc1, hc2⟩ := hcoll tn' hleaf'
      have hle2 : collectGo h' (setNode d t tn') e.2 = some le := by
        rw [collectGo_agree d (setNode d t tn') h' e.2 ?_]
        · exact hle
        · intro x hx
          have hxt : t ≠ x := by
            intro hc
            exact hnet (hc ▸ ⟨h', hx⟩)
          exact getNode_setNode_ne d t x tn' hxt
      refine ⟨le ++ pre, post, ?_, ?_⟩
      · rw [collectEnts, hle, hc1]
        simp [List.append_assoc]
      · rw [collectEnts, hle2, hc2]
        simp [List.append_assoc]

/-- A successful `FindLeaf` on a good, separated subtree satisfies
`DelSpec`: it names a leaf slot with an exactly matching key whose
removal swaps one contiguous chunk of the collected entries. -/
theorem findLeaf_delete : ∀ (h2 : Nat) (d : Disk) (k : MBR) (h addr : Nat)
    (frames : List (Nat × Nat)),
    goodNodeB h d addr = true → sepB h d addr = true →
    findLeafGo h2 d k addr = some (some frames) →
    DelSpec d k h addr frames := by
  intro h2
  induction h2 with
  | zero =>
    intro d k h addr frames _ _ hf
    exact absurd hf (by simp [findLeafGo])
  | succ h2 ih =>
    intro d k h addr frames hg hs hf
    cases h with
    | zero => simp [goodNodeB] at hg
    | succ h' =>
      have hg' := hg
      rw [goodNodeB_succ_iff] at hg'
      obtain ⟨nd, h1, hself, hnz, hfs, hcap, hne, hok, h8⟩ := hg'
      rw [findLeafGo, h1] at hf
      dsimp only at hf
      by_cases hl : nd.isLeaf
      · rw [if_pos hl] at hf
        cases hidx : nd.entries.findIdx? (fun e => e.1 = k) with
        | none => rw [hidx] at hf; exact absurd (Option.some.inj hf) (by simp)
        | some i =>
          rw [hidx] at hf
          have hframes : [(addr, i)] = frames := by
            have := Option.some.inj hf
            injection this
          obtain ⟨_, x, hx, hpx⟩ := findIdx?_spec _ nd.entries 0 i hidx
          refine ⟨addr, i, nd, ?_, h1, hl, hself, hnz, hfs, ?_, hok, ?_,
            reach_self d addr, ?_⟩
          · rw [← hframes]
            rfl
          · rw [← hl]
            exact hcap
          · refine ⟨x, ?_, ?_⟩
            · simpa using hx
            · simpa using hpx
          · intro tn' hleaf'
            refine ⟨[], [], ?_, ?_⟩
            · rw [collectGo, h1]
              dsimp only
              rw [if_pos hl]
              simp
            · rw [collectGo, getNode_setNode_self d addr tn']
              dsimp only
              rw [if_pos hleaf']
              simp
      · rw [if_neg hl] at hf
        rcases h8 with hleaf | hall
        · exact absurd hleaf hl
        have hs' := hs
        rw [sepB, h1] at hs'
        dsimp only at hs'
        rw [show nd.isLeaf = false by simpa using hl] at hs'
        simp only [Bool.false_or, Bool.and_eq_true, List.all_eq_true] at hs'
        obtain ⟨hpd, hch⟩ := hs'
        have hents : ∀ e ∈ nd.entries,
            goodNodeB h' d e.2 = true ∧ sepB h' d e.2 = true :=
          fun e he => ⟨(hall e he).1, (hch e he).2⟩
        have hp : List.Pairwise
            (fun e1 e2 => ∀ x, Reach d e1.2 x → ¬ Reach d e2.2 x) nd.entries := by
          have hp0 := (pairwiseDisjB_iff _).mp hpd
          rw [List.pairwise_map] at hp0
          refine hp0.imp_of_mem ?_
          intro e1 e2 he1 he2 hdisj x hr1 hr2
          have hh1 := goodNodeB_heightLeB d h' e1.2 (hents e1 he1).1
          have hh2 := goodNodeB_heightLeB d h' e2.2 (hents e2 he2).1
          exact hdisj x ((reach_iff_of_heightLe d h' e1.2 hh1 x).mp hr1)
            ((reach_iff_of_heightLe d h' e2.2 hh2 x).mp hr2)
        obtain ⟨t, pid, tn, hlast, hTn, htleaf, htself, htnz, htfs, htcap,
          htok, hee, ⟨e0, he0, hreach0⟩, hcoll⟩ :=
          findEnts_delete d k h' (fun a => findLeafGo h2 d k a)
            (fun c frames' hgc hsc hrc => ih d k h' c frames' hgc hsc hrc)
            nd.entries 0 addr frames hents hp hf
        have haddrt : addr ≠ t := by
          intro hc
          have hh0 := goodNodeB_heightLeB d h' e0.2 (hents e0 he0).1
          have hmem := (reach_iff_of_heightLe d h' e0.2 hh0 t).mp hreach0
          have := (hch e0 he0).1
          simp only [Bool.not_eq_true'] at this
          simp at this
          exact this (hc ▸ hmem)
        refine ⟨t, pid, tn, hlast, hTn, htleaf, htself, htnz, htfs, htcap,
          htok, hee, reach_child d addr nd e0 h1 (by simpa using hl) he0
            hreach0, ?_⟩
        intro tn' hleaf'
        obtain ⟨pre, post, hc1, hc2⟩ := hcoll tn' hleaf'
        refine ⟨pre, post, ?_, ?_⟩
        · rw [collectGo, h1]
          dsimp only
          rw [if_neg hl]
          exact hc1
        · rw [collectGo, getNode_setNode_ne d t addr tn' (fun hc => haddrt hc.symm),
            h1]
          dsimp only
          rw [if_neg hl]
          exact hc2

/-- Shrinking a leaf (removing entries) keeps the whole tree good:
every ancestor key still contains the smaller covering MBR. -/
theorem good_update_leaf_shrink (d : Disk) (t : Nat) (tn tn' : Node)
    (ht : getNode d t = some tn) (hleaf : tn.isLeaf = true)
    (hleaf' : tn'.isLeaf = true) (hself' : tn'.selfAddr = tn.selfAddr)
    (hsub : ∀ e ∈ tn'.entries, e ∈ tn.entries)
    (hlen : tn'.entries.length ≤ tn.entries.length)
    (hne' : tn'.entries ≠ [])
    (hklen : ∀ e ∈ tn.entries,
      (e.1 : MBR).length = 2 * d.hdr.dimensions ∧ validMbr e.1 = true) :
    ∀ h x, goodNodeB h d x = true → goodNodeB h (setNode d t tn') x = true := by
  intro h
  induction h with
  | zero => intro x hg; simp [goodNodeB] at hg
  | succ h ih =>
    intro x hg
    rw [goodNodeB_succ_iff] at hg ⊢
    obtain ⟨ndx, hx1, hx2, hx3, hx4, hx5, hx6, hx7, hx8⟩ := hg
    by_cases hxt : x = t
    · subst hxt
      have hnd : ndx = tn := by
        have := hx1.symm.trans ht
        injection this
      subst hnd
      refine ⟨tn', getNode_setNode_self d x tn', hself'.trans hx2, hx3, ?_,
        ?_, hne', ?_, Or.inl hleaf'⟩
      · rw [setNode_fileSize]
        exact hx4
      · rw [setNode_hdr, hleaf']
        rw [hleaf] at hx5
        omega
      · intro e he
        rw [setNode_hdr]
        exact hx7 e (hsub e he)
    · refine ⟨ndx, ?_, hx2, hx3, ?_, ?_, hx6, ?_, ?_⟩
      · rw [getNode_setNode_ne d t x tn' (fun hc => hxt hc.symm)]
        exact hx1
      · rw [setNode_fileSize]
        exact hx4
      · rw [setNode_hdr]
        exact hx5
      · intro e he
        rw [setNode_hdr]
        exact hx7 e he
      · rcases hx8 with hxleaf | hall
        · exact Or.inl hxleaf
        refine Or.inr ?_
        intro e he
        refine ⟨ih e.2 (hall e he).1, ?_⟩
        by_cases het : e.2 = t
        · -- the child is the shrunk leaf: the old key still covers
          have hcov := (childCoverOkB_iff d e).mp (hall e he).2
          obtain ⟨c, cov, hc, hcov0, hge⟩ := hcov
          rw [het] at hc
          have hct : tn = c := by
            have := ht.symm.trans hc
            injection this
          rw [← hct] at hcov0
          have htne : tn.entries ≠ [] := by
            intro hnil
            rw [getNodeMbr, hnil] at hcov0
            exact absurd hcov0 (by simp)
          obtain ⟨cov0, hcov0', hcovlen, _, hcovge⟩ :=
            getNodeMbr_spec tn (2 * d.hdr.dimensions) htne hklen
          have hcc : cov0 = cov := by
            have := hcov0'.symm.trans hcov0
            injection this
          subst hcc
          obtain ⟨cov', hcov', _, _, _⟩ :=
            getNodeMbr_spec tn' (2 * d.hdr.dimensions) hne'
              (fun e' he' => hklen e' (hsub e' he'))
          have hshrink : mbrGe cov0 cov' = true := by
            refine getNodeMbr_lub tn' cov0 cov' (2 * d.hdr.dimensions) hcov'
              (fun e' he' => (hklen e' (hsub e' he')).1) hcovlen.symm ?_
            intro e' he'
            exact hcovge e' (hsub e' he')
          rw [childCoverOkB, het, getNode_setNode_self d t tn']
          dsimp only
          rw [hcov']
          have heok := (entryOkB_iff _ _).mp (hx7 e he)
          exact mbrGe_trans e.1 cov0 cov' (by rw [heok.1, hcovlen]) hge hshrink
        · rw [childCoverOkB_setNode_outside d t tn' e (fun hc => het hc.symm)]
          exact (hall e he).2

theorem deleteElemKey_isLeaf (nd : Node) (i : Nat) :
    (deleteElemKey nd i).isLeaf = nd.isLeaf := by
  rw [deleteElemKey]
  split <;> rfl

theorem deleteElemKey_selfAddr (nd : Node) (i : Nat) :
    (deleteElemKey nd i).selfAddr = nd.selfAddr := by
  rw [deleteElemKey]
  split <;> rfl

theorem deleteElemKey_entries (nd : Node) (i : Nat)
    (h : i < nd.entries.length) :
    (deleteElemKey nd i).entries = nd.entries.eraseIdx i := by
  rw [deleteElemKey, if_pos h]

theorem reverse_cons_of_getLast? {α : Type} (l : List α) (z : α)
    (h : l.getLast? = some z) : ∃ rest, l.reverse = z :: rest := by
  have hh : l.reverse.head? = some z := by
    rw [List.head?_reverse]
    exact h
  cases hE : l.reverse with
  | nil => rw [hE] at hh; simp at hh
  | cons a rest =>
    rw [hE] at hh
    simp only [List.head?_cons, Option.some.injEq] at hh
    exact ⟨rest, by rw [hh]⟩

/-- `RTree::Delete` on a good, separated tree: the header is
untouched, the result is again good and separated, and the collected
entries lose at most one entry, which carried exactly the deleted
key. -/
theorem rtreeDelete_spec (d : Disk) (k : MBR) (H : Nat) (flag : Bool)
    (d' : Disk)
    (hg : goodNodeB H d d.hdr.root_addr = true)
    (hs : sepB H d d.hdr.root_addr = true)
    (hdel : rtreeDelete d k = some (flag, d')) :
    d'.hdr = d.hdr ∧ d'.fileSize = d.fileSize ∧
    (∃ H2, goodNodeB H2 d' d.hdr.root_addr = true ∧
      sepB H2 d' d.hdr.root_addr = true) ∧
    (∃ l l', collectGo H d d.hdr.root_addr = some l ∧
      collectGo H d' d.hdr.root_addr = some l' ∧
      (∀ x ∈ l', x ∈ l) ∧ (∀ x ∈ l, (x.1 : MBR) ≠ k → x ∈ l')) := by
  obtain ⟨_, l0, _, _, hl0, _⟩ := collect_good d H d.hdr.root_addr hg
  rw [rtreeDelete] at hdel
  cases hfl : findLeafGo (fuelOf d) d k d.hdr.root_addr with
  | none => rw [hfl] at hdel; exact absurd hdel (by simp)
  | some o =>
    cases o with
    | none =>
      rw [hfl] at hdel
      dsimp only at hdel
      have : (false, d) = (flag, d') := by injection hdel
      have hflag : false = flag := congrArg Prod.fst this
      have hd : d = d' := congrArg Prod.snd this
      subst hd
      exact ⟨rfl, rfl, ⟨H, hg, hs⟩,
        ⟨l0, l0, hl0, hl0, fun x hx => hx, fun x hx _ => hx⟩⟩
    | some path =>
      rw [hfl] at hdel
      dsimp only at hdel
      obtain ⟨t, pid, tn, hlast, hTn, htleaf, htself, htnz, htfs, htcap,
        htok, ⟨ee, hee, heek⟩, _, hcoll⟩ :=
        findLeaf_delete (fuelOf d) d k H d.hdr.root_addr path hg hs hfl
      rw [hlast] at hdel
      dsimp only at hdel
      rw [hTn] at hdel
      dsimp only at hdel
      have hpid : pid < tn.entries.length := get?_lt hee
      set tndel := deleteElemKey tn pid with htndel
      have hdleaf : tndel.isLeaf = true := by
        rw [htndel, deleteElemKey_isLeaf]
        exact htleaf
      have hdents : tndel.entries = tn.entries.eraseIdx pid :=
        deleteElemKey_entries tn pid hpid
      obtain ⟨rest', hrev⟩ := reverse_cons_of_getLast? path (t, pid) hlast
      rw [hrev] at hdel
      rw [modifyParentGo, getNode_setNode_self d t tndel] at hdel
      dsimp only at hdel
      by_cases hdne : tndel.entries = []
      · rw [getNodeMbr, hdne] at hdel
        dsimp only at hdel
        exact absurd hdel (by simp)
      · obtain ⟨om, hom⟩ := getNodeMbr_some_of_ne_nil tndel hdne
        rw [hom] at hdel
        dsimp only at hdel
        rw [if_pos rfl] at hdel
        have : (true, setNode d t tndel) = (flag, d') := by injection hdel
        have hd' : setNode d t tndel = d' := congrArg Prod.snd this
        subst hd'
        have hklen : ∀ e ∈ tn.entries,
            (e.1 : MBR).length = 2 * d.hdr.dimensions ∧ validMbr e.1 = true :=
          fun e he => (entryOkB_iff _ _).mp (htok e he)
        refine ⟨setNode_hdr d t tndel, setNode_fileSize d t tndel, ?_, ?_⟩
        · refine ⟨H, ?_, ?_⟩
          · refine good_update_leaf_shrink d t tn tndel hTn htleaf hdleaf
              ?_ ?_ ?_ hdne hklen H d.hdr.root_addr hg
            · rw [htndel, deleteElemKey_selfAddr]
            · intro e he
              rw [hdents] at he
              exact List.mem_of_mem_eraseIdx he
            · rw [hdents, List.eraseIdx_eq_take_drop_succ]
              have := List.length_take_le pid tn.entries
              simp only [List.length_append]
              have h2 := List.length_drop (pid + 1) tn.entries
              omega
          · rw [sepB_setNode_leaf d t tn tndel hTn htleaf hdleaf]
            exact hs
        · obtain ⟨pre, post, hc1, hc2⟩ := hcoll tndel hdleaf
          refine ⟨pre ++ tn.entries ++ post, pre ++ tndel.entries ++ post,
            hc1, hc2, ?_, ?_⟩
          · intro x hx
            simp only [List.mem_append] at hx ⊢
            rcases hx with (hx | hx) | hx
            · exact Or.inl (Or.inl hx)
            · rw [hdents] at hx
              exact Or.inl (Or.inr (List.mem_of_mem_eraseIdx hx))
            · exact Or.inr hx
          · intro x hx hxk
            simp only [List.mem_append] at hx ⊢
            rcases hx with (hx | hx) | hx
            · exact Or.inl (Or.inl hx)
            · refine Or.inl (Or.inr ?_)
              rw [hdents]
              refine mem_eraseIdx_of_ne tn.entries pid x ee hee hx ?_
              intro hc
              rw [hc] at hxk
              exact hxk heek
            · exact Or.inr hx

/-! ### Insert-side utilities -/

theorem goodNodeB_agree_grow (d dn : Disk) (hh : dn.hdr = d.hdr)
    (hf : d.fileSize ≤ dn.fileSize) : ∀ h a,
    (∀ x ∈ subAddrs h d a, getNode dn x = getNode d x) →
    goodNodeB h d a = true → goodNodeB h dn a = true := by
  intro h
  induction h with
  | zero => intro a _ hg; simp [goodNodeB] at hg
  | succ h ih =>
    intro a hag hg
    rw [goodNodeB_succ_iff] at hg ⊢
    obtain ⟨nd, h1, h2, h3, h4, h5, h6, h7, h8⟩ := hg
    have ha : getNode dn a = getNode d a := hag a (mem_subAddrs_self _ d a)
    refine ⟨nd, ha.trans h1, h2, h3, by omega, by rw [hh]; exact h5, h6,
      fun e he => by rw [hh]; exact h7 e he, ?_⟩
    rcases h8 with hleaf | hall
    · exact Or.inl hleaf
    by_cases hl : nd.isLeaf = true
    · exact Or.inl hl
    have hlf : nd.isLeaf = false := by simpa using hl
    refine Or.inr (fun e he => ⟨?_, ?_⟩)
    · refine ih e.2 (fun x hx => hag x ?_) (hall e he).1
      exact mem_subAddrs_child h d a nd e h1 hlf he x hx
    · have hce : getNode dn e.2 = getNode d e.2 := by
        refine hag e.2 ?_
        exact mem_subAddrs_child h d a nd e h1 hlf he e.2
          (mem_subAddrs_self h d e.2)
      rw [childCoverOkB, hce]
      have := (hall e he).2
      rw [childCoverOkB] at this
      exact this

theorem reach_node_decomp (dn : Disk) (a : Nat) (nda : Node)
    (hn : getNode dn a = some nda) (x : Nat) (hr : Reach dn a x) :
    x = a ∨ ∃ e ∈ nda.entries, Reach dn e.2 x := by
  obtain ⟨hf, hx⟩ := hr
  cases hf with
  | zero =>
    rw [subAddrs] at hx
    exact Or.inl (List.mem_singleton.mp hx)
  | succ hf =>
    rw [subAddrs, hn] at hx
    dsimp only at hx
    rcases List.mem_cons.mp hx with rfl | hx
    · exact Or.inl rfl
    · by_cases hl : nda.isLeaf
      · rw [if_pos hl] at hx; simp at hx
      · rw [if_neg hl] at hx
        obtain ⟨e, he, hxe⟩ := List.mem_flatMap.mp hx
        exact Or.inr ⟨e, he, ⟨hf, hxe⟩⟩

theorem collectEnts_append (rec : Nat → Option (List (MBR × Nat))) :
    ∀ (l1 l2 : List (MBR × Nat)) (x y : List (MBR × Nat)),
    collectEnts rec l1 = some x → collectEnts rec l2 = some y →
    collectEnts rec (l1 ++ l2) = some (x ++ y) := by
  intro l1
  induction l1 with
  | nil =>
    intro l2 x y h1 h2
    rw [collectEnts] at h1
    have : [] = x := by injection h1
    subst this
    simpa using h2
  | cons e t ih =>
    intro l2 x y h1 h2
    rw [collectEnts] at h1
    cases hr : rec e.2 with
    | none => rw [hr] at h1; exact absurd h1 (by simp)
    | some sub =>
      rw [hr] at h1
      cases ht : collectEnts rec t with
      | none => rw [ht] at h1; exact absurd h1 (by simp)
      | some lt' =>
        rw [ht] at h1
        have hx : sub ++ lt' = x := by injection h1
        rw [List.cons_append, collectEnts, hr, ih l2 lt' y ht h2]
        rw [← hx, List.append_assoc]

theorem perm_getElem_eraseIdx {α : Type} (l : List α) (i : Nat)
    (h : i < l.length) : l.Perm (l[i] :: l.eraseIdx i) := by
  conv_lhs => rw [show l = l.take i ++ l[i] :: l.drop (i + 1) from by
    rw [← List.drop_eq_getElem_cons h, List.take_append_drop]]
  rw [List.eraseIdx_eq_take_drop_succ]
  exact List.perm_middle

/-- The graft lemma: replacing the nodes inside the chain's child zone
(or fresh blocks at or above `F`) swaps exactly the child's collected
chunk inside the root collection. -/
theorem chain_collect_graft : ∀ (L : List (Nat × Nat)) (d dn : Disk)
    (H F : Nat) (cv : Bool) (D : List Nat) (b : Nat),
    Chain d H F cv D b L →
    (∀ x, x < F → ¬ Reach d b x → getNode dn x = getNode d x) →
    ∀ (Hc : Nat) (lroot lb lb2 : List (MBR × Nat)),
    H ≤ Hc →
    collectGo Hc d d.hdr.root_addr = some lroot →
    collectGo Hc d b = some lb →
    (∃ Hc2, collectGo Hc2 dn b = some lb2) →
    ∃ Hc3 l2, collectGo Hc3 dn d.hdr.root_addr = some l2 ∧
      (l2 ++ lb).Perm (lroot ++ lb2) := by
  intro L
  induction L with
  | nil =>
    intro d dn H F cv D b hch hag Hc lroot lb lb2 hle hroot hb ⟨Hc2, hb2⟩
    rw [Chain_nil] at hch
    subst hch
    have hrb : lroot = lb := by
      have := hroot.symm.trans hb
      injection this
    subst hrb
    exact ⟨Hc2, lb2, hb2, List.perm_append_comm⟩
  | cons fr rest ih =>
    intro d dn H F cv D b hch hag Hc lroot lb lb2 hle hroot hb ⟨Hc2, hb2⟩
    obtain ⟨a, i⟩ := fr
    obtain ⟨nd, e, h1, hlf, hself, hnz, hfs, hcap, hok, hgi, heb, haD, hab,
      hnra, hF8, hF9, hcov, hrest⟩ := hch
    have hi : i < nd.entries.length := get?_lt hgi
    -- decompose the entries of the frame node around the link entry
    have hdecomp : nd.entries
        = nd.entries.take i ++ nd.entries[i] :: nd.entries.drop (i + 1) := by
      rw [← List.drop_eq_getElem_cons hi, List.take_append_drop]
    have hei : nd.entries[i] = e := by
      rw [List.get?_eq_getElem?, List.getElem?_eq_getElem hi] at hgi
      injection hgi
    -- every non-link entry has a collected chunk, identical in dn
    have hother : ∀ j e', j ≠ i → nd.entries.get? j = some e' →
        ∃ ch, collectGo Hc d e'.2 = some ch ∧
          collectGo Hc dn e'.2 = some ch := by
      intro j e' hji hj
      obtain ⟨hgj, _, _, hprops⟩ := hF8 j e' hji hj
      obtain ⟨_, ch, _, _, hch', _⟩ := collect_good d H e'.2 hgj
      have hchc : collectGo Hc d e'.2 = some ch :=
        collectGo_fuel_mono d H Hc e'.2 ch hle hch'
      refine ⟨ch, hchc, ?_⟩
      rw [collectGo_agree d dn Hc e'.2 ?_]
      · exact hchc
      · intro x hx
        have hprx := hprops x ⟨Hc, hx⟩
        exact hag x hprx.2.2.2 hprx.1
    -- chunks for the prefix and suffix of the entry list
    have hchunkfor : ∀ (l : List (MBR × Nat)),
        (∀ j e', l.get? j = some e' → ∃ j', j' ≠ i ∧
          nd.entries.get? j' = some e') →
        ∃ C, collectEnts (fun c => collectGo Hc d c) l = some C ∧
          collectEnts (fun c => collectGo Hc dn c) l = some C := by
      intro l
      induction l with
      | nil => intro _; exact ⟨[], rfl, rfl⟩
      | cons e' t iht =>
        intro hl
        obtain ⟨j', hj'i, hj'⟩ := hl 0 e' rfl
        obtain ⟨ch, hch1, hch2⟩ := hother j' e' hj'i hj'
        obtain ⟨C, hC1, hC2⟩ := iht (fun j e'' hj =>
          hl (j + 1) e'' (by simpa using hj))
        refine ⟨ch ++ C, ?_, ?_⟩
        · rw [collectEnts, hch1, hC1]
        · rw [collectEnts, hch2, hC2]
    have hpre : ∀ j e', (nd.entries.take i).get? j = some e' →
        ∃ j', j' ≠ i ∧ nd.entries.get? j' = some e' := by
      intro j e' hj
      have hjlen : j < (nd.entries.take i).length := get?_lt hj
      have hjlt : j < i := by
        rw [List.length_take] at hjlen
        omega
      refine ⟨j, by omega, ?_⟩
      rw [List.get?_eq_getElem?] at hj ⊢
      rw [List.getElem?_take_of_lt hjlt] at hj
      exact hj
    have hsuf : ∀ j e', (nd.entries.drop (i + 1)).get? j = some e' →
        ∃ j', j' ≠ i ∧ nd.entries.get? j' = some e' := by
      intro j e' hj
      refine ⟨i + 1 + j, by omega, ?_⟩
      rw [List.get?_eq_getElem?] at hj ⊢
      rw [List.getElem?_drop] at hj
      exact hj
    obtain ⟨C1, hC1d, hC1n⟩ := hchunkfor (nd.entries.take i) hpre
    obtain ⟨C2, hC2d, hC2n⟩ := hchunkfor (nd.entries.drop (i + 1)) hsuf
    have hbe : e.2 = b := heb
    -- the collected chunk of the frame node, in both disks
    have hlbHc2 : collectGo (max Hc Hc2) dn b = some lb2 :=
      collectGo_fuel_mono dn Hc2 (max Hc Hc2) b lb2 (Nat.le_max_right _ _) hb2
    have hC1n' : collectEnts (fun c => collectGo (max Hc Hc2) dn c)
        (nd.entries.take i) = some C1 := by
      refine collectEnts_mono_rec _ _ ?_ _ _ hC1n
      intro a' r hr
      exact collectGo_fuel_mono dn Hc (max Hc Hc2) a' r (Nat.le_max_left _ _) hr
    have hC2n' : collectEnts (fun c => collectGo (max Hc Hc2) dn c)
        (nd.entries.drop (i + 1)) = some C2 := by
      refine collectEnts_mono_rec _ _ ?_ _ _ hC2n
      intro a' r hr
      exact collectGo_fuel_mono dn Hc (max Hc Hc2) a' r (Nat.le_max_left _ _) hr
    have hmida : collectEnts (fun c => collectGo Hc d c)
        (e :: nd.entries.drop (i + 1)) = some (lb ++ C2) := by
      rw [collectEnts, hbe, hb, hC2d]
    have hmidn : collectEnts (fun c => collectGo (max Hc Hc2) dn c)
        (e :: nd.entries.drop (i + 1)) = some (lb2 ++ C2) := by
      rw [collectEnts, hbe, hlbHc2, hC2n']
    have hlad : collectGo (Nat.succ Hc) d a = some (C1 ++ (lb ++ C2)) := by
      rw [collectGo, h1]
      dsimp only
      rw [show nd.isLeaf = false from hlf]
      simp only [if_neg (by simp : ¬(false = true))]
      have := collectEnts_append (fun c => collectGo Hc d c)
        (nd.entries.take i) (e :: nd.entries.drop (i + 1)) C1 (lb ++ C2)
        hC1d hmida
      rw [← hei] at this
      rw [← hdecomp] at this
      exact this
    have hlan : collectGo (Nat.succ (max Hc Hc2)) dn a
        = some (C1 ++ (lb2 ++ C2)) := by
      rw [collectGo, hag a hfs hnra, h1]
      dsimp only
      rw [show nd.isLeaf = false from hlf]
      simp only [if_neg (by simp : ¬(false = true))]
      have := collectEnts_append (fun c => collectGo (max Hc Hc2) dn c)
        (nd.entries.take i) (e :: nd.entries.drop (i + 1)) C1 (lb2 ++ C2)
        hC1n' hmidn
      rw [← hei] at this
      rw [← hdecomp] at this
      exact this
    have hag' : ∀ x, x < F → ¬ Reach d a x → getNode dn x = getNode d x := by
      intro x hxF hnr
      refine hag x hxF ?_
      intro hrb
      exact hnr (reach_child d a nd e h1 hlf (get?_mem hgi) (hbe ▸ hrb))
    have hroot' : collectGo (Nat.succ Hc) d d.hdr.root_addr = some lroot :=
      collectGo_fuel_mono d Hc (Nat.succ Hc) d.hdr.root_addr lroot
        (by omega) hroot
    obtain ⟨Hc3, l2, hl2, hperm⟩ :=
      ih d dn H F true (b :: D) a hrest hag' (Nat.succ Hc) lroot
        (C1 ++ (lb ++ C2)) (C1 ++ (lb2 ++ C2)) (by omega) hroot' hlad
        ⟨Nat.succ (max Hc Hc2), hlan⟩
    have key : ∀ (ll lbx : List (MBR × Nat)),
        (ll ++ (C1 ++ (lbx ++ C2))).Perm ((ll ++ lbx) ++ (C1 ++ C2)) := by
      intro ll lbx
      have h2 : ((C1 ++ lbx) ++ C2).Perm ((lbx ++ C1) ++ C2) :=
        List.Perm.append_right C2 List.perm_append_comm
      have h1' : (C1 ++ (lbx ++ C2)).Perm (lbx ++ (C1 ++ C2)) := by
        simpa [List.append_assoc] using h2
      have := List.Perm.append_left ll h1'
      simpa [List.append_assoc] using this
    have hfinal : ((l2 ++ lb) ++ (C1 ++ C2)).Perm
        ((lroot ++ lb2) ++ (C1 ++ C2)) :=
      ((key l2 lb).symm.trans hperm).trans (key lroot lb2)
    exact ⟨Hc3, l2, hl2, (List.perm_append_right_iff (C1 ++ C2)).mp hfinal⟩

theorem reach_agree (d dn : Disk) (r : Nat)
    (hag : ∀ y, Reach d r y → getNode dn y = getNode d y) (x : Nat) :
    Reach dn r x ↔ Reach d r x := by
  have hsub : ∀ hf, subAddrs hf dn r = subAddrs hf d r := by
    intro hf
    exact subAddrs_agree d dn hf r (fun y hy => hag y ⟨hf, hy⟩)
  constructor
  · rintro ⟨hf, hx⟩
    exact ⟨hf, (hsub hf) ▸ hx⟩
  · rintro ⟨hf, hx⟩
    exact ⟨hf, (hsub hf).symm ▸ hx⟩

/-- Transporting a chain to a disk that agrees outside the child zone
and whose new child zone stays inside the old one except for freshly
allocated blocks at or above `F`. -/
theorem Chain_transport_gen : ∀ (L : List (Nat × Nat)) (d dn : Disk)
    (H F : Nat) (cv cvOut : Bool) (D : List Nat) (b : Nat),
    Chain d H F cv D b L →
    dn.hdr = d.hdr →
    d.fileSize ≤ dn.fileSize →
    (∀ x, x < F → ¬ Reach d b x → getNode dn x = getNode d x) →
    (∀ x, Reach dn b x → Reach d b x ∨ F ≤ x) →
    (cvOut = true → cv = true ∧ getNode dn b = getNode d b) →
    Chain dn H F cvOut D b L := by
  intro L
  induction L with
  | nil =>
    intro d dn H F cv cvOut D b hch hh _ _ _ _
    rw [Chain_nil] at hch ⊢
    rw [hh]
    exact hch
  | cons fr rest ih =>
    intro d dn H F cv cvOut D b hch hh hfs hag hRz hcv
    obtain ⟨a, i⟩ := fr
    obtain ⟨nd, e, h1, hlf, hself, hnz, hFa, hcap, hok, hgi, heb, haD, hab,
      hnra, hF8, hF9, hcov, hrest⟩ := hch
    have hna : getNode dn a = getNode d a := hag a hFa hnra
    have hsag : ∀ j e', j ≠ i → nd.entries.get? j = some e' →
        ∀ y, Reach d e'.2 y → getNode dn y = getNode d y := by
      intro j e' hji hj y hy
      have hp := (hF8 j e' hji hj).2.2.2 y hy
      exact hag y hp.2.2.2 hp.1
    have hsreach : ∀ j e', j ≠ i → nd.entries.get? j = some e' →
        ∀ x, Reach dn e'.2 x ↔ Reach d e'.2 x := by
      intro j e' hji hj
      exact reach_agree d dn e'.2 (hsag j e' hji hj)
    have hb_in_a : ∀ {x : Nat}, Reach d b x → Reach d a x := by
      intro x hx
      refine reach_child d a nd e h1 hlf (get?_mem hgi) ?_
      rw [heb]
      exact hx
    refine ⟨nd, e, hna.trans h1, hlf, hself, hnz, hFa, ?_, ?_, hgi, heb, haD,
      hab, ?_, ?_, ?_, ?_, ?_⟩
    · rw [hh]
      exact hcap
    · intro e' he'
      rw [hh]
      exact hok e' he'
    · intro hc
      rcases hRz a hc with hr | hr
      · exact hnra hr
      · omega
    · intro j e' hji hj
      obtain ⟨hgj, hcj, hsj, hprops⟩ := hF8 j e' hji hj
      refine ⟨?_, ?_, ?_, ?_⟩
      · exact goodNodeB_agree_grow d dn hh hfs H e'.2
          (fun x hx => hsag j e' hji hj x ⟨H, hx⟩) hgj
      · rw [childCoverOkB_agree d dn e' (hsag j e' hji hj e'.2 (reach_self d e'.2))]
        exact hcj
      · rw [sepB_agree d dn H e'.2 (fun x hx => hsag j e' hji hj x ⟨H, hx⟩)]
        exact hsj
      · intro x hx
        have hx' := (hsreach j e' hji hj x).mp hx
        obtain ⟨hp1, hp2, hp3, hp4⟩ := hprops x hx'
        refine ⟨?_, hp2, hp3, hp4⟩
        intro hc
        rcases hRz x hc with hr | hr
        · exact hp1 hr
        · omega
    · intro j j' e' e'' hji hj'i hjj hj hj' x hx hx2
      exact hF9 j j' e' e'' hji hj'i hjj hj hj' x
        ((hsreach j e' hji hj x).mp hx) ((hsreach j' e'' hj'i hj' x).mp hx2)
    · intro hcvt
      obtain ⟨hcveq, hbn⟩ := hcv hcvt
      obtain ⟨bnd, bcov, hbnd, hbcov, hge⟩ := hcov hcveq
      exact ⟨bnd, bcov, hbn.trans hbnd, hbcov, hge⟩
    · refine ih d dn H F true true (b :: D) a hrest hh hfs ?_ ?_
        (fun _ => ⟨rfl, hna⟩)
      · intro x hxF hnrx
        refine hag x hxF ?_
        intro hrb
        exact hnrx (hb_in_a hrb)
      · intro x hx
        have hdn : getNode dn a = some nd := hna.trans h1
        rcases reach_node_decomp dn a nd hdn x hx with hxa | ⟨e', he', hre⟩
        · refine Or.inl ?_
          rw [hxa]
          exact reach_self d a
        · obtain ⟨j, hj⟩ := List.mem_iff_get?.mp he'
          by_cases hji : j = i
          · have hee : e' = e := by
              rw [hji] at hj
              exact Option.some.inj (hj.symm.trans hgi)
            have hre' : Reach dn b x := by
              rw [← heb, ← hee]
              exact hre
            rcases hRz x hre' with hr | hr
            · exact Or.inl (hb_in_a hr)
            · exact Or.inr hr
          · have hx' := (hsreach j e' hji hj x).mp hre
            exact Or.inl (reach_child d a nd e' h1 hlf he' hx')

theorem good_subAddrs_lt (d : Disk) : ∀ h a, goodNodeB h d a = true →
    ∀ x ∈ subAddrs h d a, x < d.fileSize := by
  intro h
  induction h with
  | zero => intro a hg; simp [goodNodeB] at hg
  | succ h ih =>
    intro a hg x hx
    rw [goodNodeB_succ_iff] at hg
    obtain ⟨nd, h1, _h2, _h3, h4, _h5, h6, _h7, h8⟩ := hg
    rw [subAddrs, h1] at hx
    dsimp only at hx
    rcases List.mem_cons.mp hx with rfl | hx
    · exact h4
    · by_cases hl : nd.isLeaf
      · rw [if_pos hl] at hx
        simp at hx
      · rw [if_neg hl] at hx
        obtain ⟨e, he, hxe⟩ := List.mem_flatMap.mp hx
        rcases h8 with hleaf | hall
        · exact absurd hleaf hl
        · exact ih e.2 (hall e he).1 x hxe

theorem reach_good_mem (d : Disk) (h a : Nat) (hg : goodNodeB h d a = true)
    (x : Nat) (hr : Reach d a x) : x ∈ subAddrs h d a :=
  (reach_iff_of_heightLe d h a (goodNodeB_heightLeB d h a hg) x).mp hr

theorem reach_good_lt (d : Disk) (h a : Nat) (hg : goodNodeB h d a = true)
    (x : Nat) (hr : Reach d a x) : x < d.fileSize :=
  good_subAddrs_lt d h a hg x (reach_good_mem d h a hg x hr)

/-- Unpacking separation at an inner node: positional disjointness of
child subtrees (in either index order) and the per-child clauses. -/
theorem sepB_succ_inner (d : Disk) (h : Nat) (a : Nat) (nd : Node)
    (h1 : getNode d a = some nd) (hlf : nd.isLeaf = false)
    (hs : sepB (Nat.succ h) d a = true) :
    (∀ j j' e e', j ≠ j' → nd.entries.get? j = some e →
      nd.entries.get? j' = some e' →
      ∀ x ∈ subAddrs h d e.2, x ∉ subAddrs h d e'.2) ∧
    (∀ e ∈ nd.entries, a ∉ subAddrs h d e.2 ∧ sepB h d e.2 = true) := by
  rw [sepB, h1] at hs
  dsimp only at hs
  rw [hlf] at hs
  simp only [Bool.false_or, Bool.and_eq_true, List.all_eq_true,
    Bool.not_eq_true'] at hs
  obtain ⟨hpd, hall⟩ := hs
  have hp : nd.entries.Pairwise
      (fun e e' => ∀ x ∈ subAddrs h d e.2, x ∉ subAddrs h d e'.2) := by
    have hq := (pairwiseDisjB_iff _).mp hpd
    rw [List.pairwise_map] at hq
    refine hq.imp ?_
    intro e e' hee x hx
    have := hee x hx
    simpa using this
  refine ⟨?_, ?_⟩
  · intro j j' e e' hne hj hj' x hx
    have hjl : j < nd.entries.length := get?_lt hj
    have hj'l : j' < nd.entries.length := get?_lt hj'
    have hje : nd.entries.get ⟨j, hjl⟩ = e := by
      have := (get?_of_lt nd.entries j hjl).symm.trans hj
      injection this
    have hj'e : nd.entries.get ⟨j', hj'l⟩ = e' := by
      have := (get?_of_lt nd.entries j' hj'l).symm.trans hj'
      injection this
    rcases Nat.lt_or_ge j j' with hlt | hge
    · have := List.pairwise_iff_get.mp hp ⟨j, hjl⟩ ⟨j', hj'l⟩ hlt
      rw [hje, hj'e] at this
      exact this x hx
    · have hlt' : j' < j := by omega
      have := List.pairwise_iff_get.mp hp ⟨j', hj'l⟩ ⟨j, hjl⟩ hlt'
      rw [hje, hj'e] at this
      intro hx'
      exact this x hx' hx
  · intro e he
    obtain ⟨hc, hsep⟩ := hall e he
    refine ⟨?_, hsep⟩
    intro hmem
    have : (subAddrs h d e.2).contains a = true := by
      simpa using hmem
    rw [hc] at this
    exact absurd this (by simp)

/-- Descending with `ChooseLeaf` over a good and separated tree builds
an ancestor chain from the reached leaf to the root. -/
theorem chooseLeaf_chain : ∀ (fuel : Nat) (d : Disk) (key : MBR) (a : Nat)
    (acc : List (Nat × Nat)) (H F : Nat) (Lup : List (Nat × Nat))
    (res : List (Nat × Nat) × Nat),
    chooseLeafGo fuel d key a acc = some res →
    goodNodeB H d a = true → sepB H d a = true →
    (∀ x, Reach d a x → x < F) →
    (∀ D, (∀ x ∈ D, Reach d a x) → Chain d H F true D a Lup) →
    ∃ inner : List (Nat × Nat),
      res.1 = acc ++ (inner ++ [(res.2, 0)]) ∧
      (∃ lnd, getNode d res.2 = some lnd ∧ lnd.isLeaf = true) ∧
      goodNodeB H d res.2 = true ∧ sepB H d res.2 = true ∧
      (∀ x, Reach d res.2 x → x < F) ∧
      Chain d H F true [] res.2 (inner.reverse ++ Lup) := by
  intro fuel
  induction fuel with
  | zero =>
    intro d key a acc H F Lup res hcl
    exact absurd hcl (by rw [chooseLeafGo]; simp)
  | succ fuel ih =>
    intro d key a acc H F Lup res hcl hg hs hF hch
    cases H with
    | zero => simp [goodNodeB] at hg
    | succ h =>
    obtain ⟨nd, h1, hself, hnz, hfs, hcap, hne, hok, hrest⟩ :=
      (goodNodeB_succ_iff h d a).mp hg
    rw [chooseLeafGo, h1] at hcl
    dsimp only at hcl
    by_cases hl : nd.isLeaf
    · rw [if_pos hl] at hcl
      obtain rfl : (acc ++ [(a, 0)], a) = res := Option.some.inj hcl
      refine ⟨[], by simp, ⟨nd, h1, hl⟩, hg, hs, hF, ?_⟩
      simpa using hch [] (by simp)
    · rw [if_neg hl] at hcl
      have hlf : nd.isLeaf = false := by simpa using hl
      cases hgi : nd.entries.get? (chooseEntryIdx key nd.entries) with
      | none =>
        rw [hgi] at hcl
        exact absurd hcl (by simp)
      | some e =>
        rw [hgi] at hcl
        have hall : ∀ e' ∈ nd.entries,
            goodNodeB h d e'.2 = true ∧ childCoverOkB d e' = true := by
          rcases hrest with hleaf | hall
          · exact absurd hleaf hl
          · exact hall
        obtain ⟨hdisj, hper⟩ := sepB_succ_inner d h a nd h1 hlf hs
        have hem := get?_mem hgi
        have hcg : goodNodeB h d e.2 = true := (hall e hem).1
        have hcs : sepB h d e.2 = true := (hper e hem).2
        have hmem : ∀ e' ∈ nd.entries, ∀ x, Reach d e'.2 x →
            x ∈ subAddrs h d e'.2 :=
          fun e' he' x hx => reach_good_mem d h e'.2 (hall e' he').1 x hx
        have hch' : ∀ D, (∀ x ∈ D, Reach d e.2 x) →
            Chain d (Nat.succ h) F true D e.2
              ((a, chooseEntryIdx key nd.entries) :: Lup) := by
          intro D hD
          refine ⟨nd, e, h1, hlf, hself, hnz, hF a (reach_self d a), ?_, hok,
            hgi, rfl, ?_, ?_, ?_, ?_, ?_, ?_, ?_⟩
          · rw [hlf] at hcap
            exact hcap
          · intro haD
            exact (hper e hem).1 (hmem e hem a (hD a haD))
          · intro hae
            refine (hper e hem).1 ?_
            rw [hae]
            exact mem_subAddrs_self h d e.2
          · intro hr
            exact (hper e hem).1 (hmem e hem a hr)
          · intro j e' hji hj
            have hem' := get?_mem hj
            refine ⟨goodNodeB_mono d h (Nat.succ h) e'.2 (by omega)
              (hall e' hem').1, (hall e' hem').2, ?_, ?_⟩
            · exact sepB_stable d h (Nat.succ h) e'.2 (by omega)
                (goodNodeB_heightLeB d h e'.2 (hall e' hem').1) (hper e' hem').2
            · intro x hx
              have hxm := hmem e' hem' x hx
              refine ⟨?_, ?_, ?_, ?_⟩
              · intro hrb
                exact hdisj j (chooseEntryIdx key nd.entries) e' e hji hj hgi
                  x hxm (hmem e hem x hrb)
              · intro hxa
                exact (hper e' hem').1 (hxa ▸ hxm)
              · intro hxD
                exact hdisj j (chooseEntryIdx key nd.entries) e' e hji hj hgi
                  x hxm (hmem e hem x (hD x hxD))
              · exact hF x (reach_child d a nd e' h1 hlf hem' hx)
          · intro j j' e' e'' hji hj'i hjj hj hj' x hx hx'
            exact hdisj j j' e' e'' hjj hj hj' x (hmem e' (get?_mem hj) x hx)
              (hmem e'' (get?_mem hj') x hx')
          · intro _
            obtain ⟨c, cov, hc, hcov, hge⟩ :=
              (childCoverOkB_iff d e).mp (hall e hem).2
            exact ⟨c, cov, hc, hcov, hge⟩
          · refine hch (e.2 :: D) ?_
            intro x hx
            rcases List.mem_cons.mp hx with rfl | hx
            · exact reach_child d a nd e h1 hlf hem (reach_self d e.2)
            · exact reach_child d a nd e h1 hlf hem (hD x hx)
        obtain ⟨inner', hres1, hleaf', hg', hs', hF', hchain'⟩ :=
          ih d key e.2 (acc ++ [(a, chooseEntryIdx key nd.entries)])
            (Nat.succ h) F ((a, chooseEntryIdx key nd.entries) :: Lup) res hcl
            (goodNodeB_mono d h (Nat.succ h) e.2 (by omega) hcg)
            (sepB_stable d h (Nat.succ h) e.2 (by omega)
              (goodNodeB_heightLeB d h e.2 hcg) hcs)
            (fun x hx => hF x (reach_child d a nd e h1 hlf hem hx))
            hch'
        refine ⟨(a, chooseEntryIdx key nd.entries) :: inner', ?_, hleaf',
          hg', hs', hF', ?_⟩
        · rw [hres1]
          simp
        · simpa [List.append_assoc] using hchain'

theorem nodeInsert_some (cap dims : Nat) (nd : Node) (kvp : MBR × Nat)
    (nd' : Node) (h : nodeInsert cap dims nd kvp = some nd') :
    nd' = { nd with entries := nd.entries ++ [kvp] } ∧
    nd.entries.length < cap ∧ kvp.1.length = 2 * dims := by
  rw [nodeInsert] at h
  by_cases hc : nd.entries.length < cap ∧ kvp.1.length = 2 * dims
  · rw [if_pos hc] at h
    exact ⟨(Option.some.inj h).symm, hc.1, hc.2⟩
  · rw [if_neg hc] at h
    exact absurd h (by simp)

theorem insertAll_shape : ∀ (l : List (MBR × Nat)) (cap dims : Nat) (nd nd' : Node),
    insertAll cap dims nd l = some nd' →
    nd'.isLeaf = nd.isLeaf ∧ nd'.selfAddr = nd.selfAddr ∧
    nd'.entries = nd.entries ++ l := by
  intro l
  induction l with
  | nil =>
    intro cap dims nd nd' h
    rw [insertAll, List.foldlM] at h
    obtain rfl : nd = nd' := Option.some.inj h
    simp
  | cons e t ih =>
    intro cap dims nd nd' h
    rw [insertAll, List.foldlM] at h
    cases h1 : nodeInsert cap dims nd e with
    | none => rw [h1] at h; exact absurd h (by simp)
    | some nd1 =>
      rw [h1] at h
      simp only [Option.bind_eq_bind, Option.some_bind] at h
      obtain ⟨hnd1, hlen, _⟩ := nodeInsert_some cap dims nd e nd1 h1
      obtain ⟨hl, hs, he⟩ := ih cap dims nd1 nd' h
      refine ⟨?_, ?_, ?_⟩
      · rw [hl, hnd1]
      · rw [hs, hnd1]
      · rw [he, hnd1]
        simp

theorem mbrEnlarge_self (a : MBR) : mbrEnlarge a a = a := by
  rw [mbrEnlarge]
  refine List.ext_getElem (by simp) ?_
  intro i h1 h2
  simp only [List.getElem_map, List.getElem_range]
  rw [List.getD_eq_getElem a 0 (by simpa using h1)]
  by_cases hc : i < a.length / 2
  · rw [if_pos hc]
    simp
  · rw [if_neg hc]
    simp

theorem getNodeMbr_coverOf (nd : Node) (hne : nd.entries ≠ []) :
    getNodeMbr nd = some (coverOf nd.entries) := by
  cases hE : nd.entries with
  | nil => exact absurd hE hne
  | cons e t =>
    rw [getNodeMbr, hE, coverOf, List.foldl_cons, mbrEnlarge_self]

theorem coverOf_spec (l : List (MBR × Nat)) (L : Nat) (hne : l ≠ [])
    (hk : ∀ e ∈ l, (e.1 : MBR).length = L ∧ validMbr e.1 = true) :
    (coverOf l).length = L ∧ validMbr (coverOf l) = true ∧
    ∀ e ∈ l, mbrGe (coverOf l) e.1 = true := by
  obtain ⟨cov, hcov, hlen, hval, hge⟩ :=
    getNodeMbr_spec ⟨false, 0, l⟩ L hne hk
  have hceq : cov = coverOf l := by
    have h0 : getNodeMbr ⟨false, 0, l⟩ = some (coverOf l) :=
      getNodeMbr_coverOf ⟨false, 0, l⟩ hne
    have := h0.symm.trans hcov
    injection this with h2
    exact h2.symm
  subst hceq
  exact ⟨hlen, hval, hge⟩

theorem pickSeedPair_bounds (whole : List (MBR × Nat)) (h2 : 2 ≤ whole.length) :
    (pickSeedPair whole).1 < (pickSeedPair whole).2 ∧
    (pickSeedPair whole).2 < whole.length := by
  have hinit : ∀ pr ∈ pairsLex whole.length, lexLe (0, 1) pr := by
    intro pr hpr
    obtain ⟨h1, _⟩ := (mem_pairsLex whole.length pr).mp hpr
    rcases Nat.eq_zero_or_pos pr.1 with hz | hp
    · exact Or.inr ⟨hz.symm, by omega⟩
    · exact Or.inl hp
  have hspec := foldl_seed_spec
    (fun pr : Nat × Nat =>
      wasteOf (whole.getD pr.1 ([], 0)).1 (whole.getD pr.2 ([], 0)).1)
    (pairsLex whole.length)
    (0, 1, wasteOf (whole.getD 0 ([], 0)).1 (whole.getD 1 ([], 0)).1)
    rfl (pairsLex_pairwise _) hinit
  obtain ⟨_r1, r2, _r3, _r4, _r5, _r6⟩ := hspec
  dsimp only at r2
  have hps : pickSeedPair whole =
      (((pairsLex whole.length).foldl
        (fun s pr => if s.2.2 <
            wasteOf (whole.getD pr.1 ([], 0)).1 (whole.getD pr.2 ([], 0)).1
          then (pr.1, pr.2,
            wasteOf (whole.getD pr.1 ([], 0)).1 (whole.getD pr.2 ([], 0)).1)
          else s)
        (0, 1, wasteOf (whole.getD 0 ([], 0)).1 (whole.getD 1 ([], 0)).1)).1,
       ((pairsLex whole.length).foldl
        (fun s pr => if s.2.2 <
            wasteOf (whole.getD pr.1 ([], 0)).1 (whole.getD pr.2 ([], 0)).1
          then (pr.1, pr.2,
            wasteOf (whole.getD pr.1 ([], 0)).1 (whole.getD pr.2 ([], 0)).1)
          else s)
        (0, 1, wasteOf (whole.getD 0 ([], 0)).1 (whole.getD 1 ([], 0)).1)).2.1) :=
    rfl
  rw [hps]
  rcases r2 with h | h
  · have h1 : _ = 0 := congrArg Prod.fst h
    have h2' : _ = 1 := congrArg Prod.snd h
    constructor
    · rw [h1, h2']
      omega
    · rw [h2']
      omega
  · exact (mem_pairsLex whole.length _).mp h

theorem distribGo_perm : ∀ (fuel : Nat) (whole r1 r2 : List (MBR × Nat))
    (m1 m2 : MBR), whole.length ≤ fuel →
    ((distribGo fuel whole r1 r2 m1 m2).1 ++
      (distribGo fuel whole r1 r2 m1 m2).2).Perm (r1 ++ r2 ++ whole) ∧
    r1.length ≤ (distribGo fuel whole r1 r2 m1 m2).1.length ∧
    r2.length ≤ (distribGo fuel whole r1 r2 m1 m2).2.length := by
  intro fuel
  induction fuel with
  | zero =>
    intro whole r1 r2 m1 m2 hle
    have hw : whole = [] := List.length_eq_zero.mp (by omega)
    subst hw
    rw [distribGo]
    simp
  | succ fuel ih =>
    intro whole r1 r2 m1 m2 hle
    rw [distribGo]
    by_cases hw : whole.isEmpty
    · rw [if_pos hw]
      have hwn : whole = [] := by
        cases whole with
        | nil => rfl
        | cons e t => simp at hw
      subst hwn
      simp
    · rw [if_neg hw]
      have hne : whole ≠ [] := by
        cases whole with
        | nil => simp at hw
        | cons e t => simp
      obtain ⟨k, hk, hdp⟩ := distribPick_is_exps m1 m2 whole hne
      rw [hdp]
      dsimp only
      have hperm : whole.Perm (whole.getD k ([], 0) :: whole.eraseIdx k) := by
        rw [List.getD_eq_getElem whole ([], 0) hk]
        exact perm_getElem_eraseIdx whole k hk
      have hlen' : (whole.eraseIdx k).length ≤ fuel := by
        rw [List.length_eraseIdx_of_lt hk]
        omega
      have hshuffle : ∀ (s1 s2 : List (MBR × Nat)),
          ((s1 ++ [whole.getD k ([], 0)]) ++ s2 ++ whole.eraseIdx k).Perm
            (s1 ++ s2 ++ whole) := by
        intro s1 s2
        have h1 : ((s1 ++ [whole.getD k ([], 0)]) ++ s2).Perm
            ((s1 ++ s2) ++ [whole.getD k ([], 0)]) := by
          have h2 : (s1 ++ ([whole.getD k ([], 0)] ++ s2)).Perm
              (s1 ++ (s2 ++ [whole.getD k ([], 0)])) :=
            List.Perm.append_left s1 List.perm_append_comm
          have e1 : (s1 ++ [whole.getD k ([], 0)]) ++ s2
              = s1 ++ ([whole.getD k ([], 0)] ++ s2) := by
            rw [List.append_assoc]
          have e2 : (s1 ++ s2) ++ [whole.getD k ([], 0)]
              = s1 ++ (s2 ++ [whole.getD k ([], 0)]) := by
            rw [List.append_assoc]
          rw [e1, e2]
          exact h2
        have h3 : (((s1 ++ [whole.getD k ([], 0)]) ++ s2) ++ whole.eraseIdx k).Perm
            (((s1 ++ s2) ++ [whole.getD k ([], 0)]) ++ whole.eraseIdx k) :=
          List.Perm.append_right _ h1
        refine h3.trans ?_
        have e3 : ((s1 ++ s2) ++ [whole.getD k ([], 0)]) ++ whole.eraseIdx k
            = (s1 ++ s2) ++ (whole.getD k ([], 0) :: whole.eraseIdx k) := by
          rw [List.append_assoc]
          rfl
        rw [e3]
        exact List.Perm.append_left _ hperm.symm
      by_cases hc : enlargement m1 (whole.getD k ([], 0)).1 - area m1 <
          enlargement m2 (whole.getD k ([], 0)).1 - area m2
      · rw [if_pos hc]
        obtain ⟨hp, hl1, hl2⟩ := ih (whole.eraseIdx k) (r1 ++ [whole.getD k ([], 0)])
          r2 (mbrEnlarge m1 (whole.getD k ([], 0)).1) m2 hlen'
        refine ⟨hp.trans (hshuffle r1 r2), ?_, hl2⟩
        refine le_trans ?_ hl1
        simp
      · rw [if_neg hc]
        obtain ⟨hp, hl1, hl2⟩ := ih (whole.eraseIdx k) r1
          (r2 ++ [whole.getD k ([], 0)]) m1
          (mbrEnlarge m2 (whole.getD k ([], 0)).1) hlen'
        refine ⟨?_, hl1, ?_⟩
        · refine hp.trans ?_
          have h4 : (r1 ++ (r2 ++ [whole.getD k ([], 0)]) ++ whole.eraseIdx k).Perm
              ((r2 ++ [whole.getD k ([], 0)]) ++ r1 ++ whole.eraseIdx k) :=
            List.Perm.append_right _ List.perm_append_comm
          refine h4.trans ?_
          refine ((hshuffle r2 r1).trans ?_)
          exact List.Perm.append_right _ List.perm_append_comm
        · refine le_trans ?_ hl2
          simp

theorem pickseed_spec (entries : List (MBR × Nat)) (kvp : MBR × Nat)
    (h2 : 2 ≤ (entries ++ [kvp]).length) :
    ((pickseed entries kvp).1 ++ (pickseed entries kvp).2).Perm
      (entries ++ [kvp]) ∧
    (pickseed entries kvp).1 ≠ [] ∧ (pickseed entries kvp).2 ≠ [] := by
  obtain ⟨hij, hjl⟩ := pickSeedPair_bounds (entries ++ [kvp]) h2
  have hps : pickseed entries kvp = distribGo
      (((entries ++ [kvp]).eraseIdx (pickSeedPair (entries ++ [kvp])).2).eraseIdx
        (pickSeedPair (entries ++ [kvp])).1).length
      (((entries ++ [kvp]).eraseIdx (pickSeedPair (entries ++ [kvp])).2).eraseIdx
        (pickSeedPair (entries ++ [kvp])).1)
      [(entries ++ [kvp]).getD (pickSeedPair (entries ++ [kvp])).1 ([], 0)]
      [(entries ++ [kvp]).getD (pickSeedPair (entries ++ [kvp])).2 ([], 0)]
      ((entries ++ [kvp]).getD (pickSeedPair (entries ++ [kvp])).1 ([], 0)).1
      ((entries ++ [kvp]).getD (pickSeedPair (entries ++ [kvp])).2 ([], 0)).1 := rfl
  obtain ⟨hp, hl1, hl2⟩ := distribGo_perm
    (((entries ++ [kvp]).eraseIdx (pickSeedPair (entries ++ [kvp])).2).eraseIdx
      (pickSeedPair (entries ++ [kvp])).1).length
    (((entries ++ [kvp]).eraseIdx (pickSeedPair (entries ++ [kvp])).2).eraseIdx
      (pickSeedPair (entries ++ [kvp])).1)
    [(entries ++ [kvp]).getD (pickSeedPair (entries ++ [kvp])).1 ([], 0)]
    [(entries ++ [kvp]).getD (pickSeedPair (entries ++ [kvp])).2 ([], 0)]
    ((entries ++ [kvp]).getD (pickSeedPair (entries ++ [kvp])).1 ([], 0)).1
    ((entries ++ [kvp]).getD (pickSeedPair (entries ++ [kvp])).2 ([], 0)).1
    (le_refl _)
  rw [hps]
  refine ⟨?_, ?_, ?_⟩
  · refine hp.trans ?_
    have hil : (pickSeedPair (entries ++ [kvp])).1 < (entries ++ [kvp]).length := by
      omega
    have hi2 : (pickSeedPair (entries ++ [kvp])).1 <
        ((entries ++ [kvp]).eraseIdx (pickSeedPair (entries ++ [kvp])).2).length := by
      rw [List.length_eraseIdx_of_lt hjl]
      omega
    have hperm2 : ((entries ++ [kvp]).eraseIdx
        (pickSeedPair (entries ++ [kvp])).2).Perm
        ((entries ++ [kvp]).getD (pickSeedPair (entries ++ [kvp])).1 ([], 0) ::
          ((entries ++ [kvp]).eraseIdx (pickSeedPair (entries ++ [kvp])).2).eraseIdx
            (pickSeedPair (entries ++ [kvp])).1) := by
      have hbase := perm_getElem_eraseIdx
        ((entries ++ [kvp]).eraseIdx (pickSeedPair (entries ++ [kvp])).2)
        (pickSeedPair (entries ++ [kvp])).1 hi2
      rw [List.getElem_eraseIdx_of_lt (entries ++ [kvp])
        (pickSeedPair (entries ++ [kvp])).2 (pickSeedPair (entries ++ [kvp])).1]
        at hbase
      rw [List.getD_eq_getElem (entries ++ [kvp]) ([], 0) hil]
      exact hbase
      exact hij
    have hperm1 : ((entries ++ [kvp])).Perm
        ((entries ++ [kvp]).getD (pickSeedPair (entries ++ [kvp])).2 ([], 0) ::
          (entries ++ [kvp]).eraseIdx (pickSeedPair (entries ++ [kvp])).2) := by
      rw [List.getD_eq_getElem (entries ++ [kvp]) ([], 0) hjl]
      exact perm_getElem_eraseIdx (entries ++ [kvp]) (pickSeedPair (entries ++ [kvp])).2 hjl
    have hstep : ([(entries ++ [kvp]).getD (pickSeedPair (entries ++ [kvp])).1 ([], 0)]
        ++ [(entries ++ [kvp]).getD (pickSeedPair (entries ++ [kvp])).2 ([], 0)]
        ++ ((entries ++ [kvp]).eraseIdx (pickSeedPair (entries ++ [kvp])).2).eraseIdx
            (pickSeedPair (entries ++ [kvp])).1).Perm
        ((entries ++ [kvp]).getD (pickSeedPair (entries ++ [kvp])).2 ([], 0) ::
          (entries ++ [kvp]).eraseIdx (pickSeedPair (entries ++ [kvp])).2) := by
      refine (List.Perm.swap _ _ _).trans ?_
      exact List.Perm.cons _ hperm2.symm
    exact hstep.trans hperm1.symm
  · intro hc
    rw [hc] at hl1
    simp at hl1
  · intro hc
    rw [hc] at hl2
    simp at hl2

theorem collectEnts_perm (rec : Nat → Option (List (MBR × Nat))) :
    ∀ (l1 l2 : List (MBR × Nat)), l1.Perm l2 →
    ∀ c1, collectEnts rec l1 = some c1 →
    ∃ c2, collectEnts rec l2 = some c2 ∧ c1.Perm c2 := by
  intro l1 l2 hperm
  induction hperm with
  | nil =>
    intro c1 h1
    exact ⟨c1, h1, List.Perm.refl c1⟩
  | @cons x t1 t2 p ih =>
    intro c1 h1
    rw [collectEnts] at h1
    cases hr : rec x.2 with
    | none => rw [hr] at h1; exact absurd h1 (by simp)
    | some sub =>
      rw [hr] at h1
      cases ht : collectEnts rec t1 with
      | none => rw [ht] at h1; exact absurd h1 (by simp)
      | some u1 =>
        rw [ht] at h1
        obtain ⟨u2, hu2, hup⟩ := ih u1 ht
        refine ⟨sub ++ u2, ?_, ?_⟩
        · rw [collectEnts, hr, hu2]
        · have hcc : sub ++ u1 = c1 := by injection h1
          rw [← hcc]
          exact List.Perm.append_left sub hup
  | swap x y l =>
    intro c1 h1
    rw [collectEnts] at h1
    cases hry : rec y.2 with
    | none => rw [hry] at h1; exact absurd h1 (by simp)
    | some sy =>
      rw [hry, collectEnts] at h1
      cases hrx : rec x.2 with
      | none => rw [hrx] at h1; exact absurd h1 (by simp)
      | some sx =>
        rw [hrx] at h1
        cases ht : collectEnts rec l with
        | none => rw [ht] at h1; exact absurd h1 (by simp)
        | some tl =>
          rw [ht] at h1
          have hcc : sy ++ (sx ++ tl) = c1 := by injection h1
          refine ⟨sx ++ (sy ++ tl), ?_, ?_⟩
          · rw [collectEnts, hrx, collectEnts, hry, ht]
          · rw [← hcc]
            have e1 : sy ++ (sx ++ tl) = (sy ++ sx) ++ tl := by
              rw [List.append_assoc]
            have e2 : sx ++ (sy ++ tl) = (sx ++ sy) ++ tl := by
              rw [List.append_assoc]
            rw [e1, e2]
            exact List.Perm.append_right tl List.perm_append_comm
  | trans h12 h23 ih1 ih2 =>
    intro c1 h1
    obtain ⟨c2, h2, hp12⟩ := ih1 c1 h1
    obtain ⟨c3, h3, hp23⟩ := ih2 c2 h2
    exact ⟨c3, h3, hp12.trans hp23⟩

theorem list_all_congr {α : Type} (f g : α → Bool) : ∀ l : List α,
    (∀ e ∈ l, f e = g e) → l.all f = l.all g := by
  intro l
  induction l with
  | nil => intro _; rfl
  | cons x t ih =>
    intro h
    rw [List.all_cons, List.all_cons, h x (by simp),
      ih (fun e he => h e (List.mem_cons_of_mem _ he))]

theorem goodNodeB_set_root (d : Disk) (r : Nat) : ∀ h a,
    goodNodeB h { d with hdr := { d.hdr with root_addr := r } } a
      = goodNodeB h d a := by
  intro h
  induction h with
  | zero => intro a; rfl
  | succ h ih =>
    intro a
    rw [goodNodeB, goodNodeB]
    rw [show getNode { d with hdr := { d.hdr with root_addr := r } } a
      = getNode d a from rfl]
    cases hn : getNode d a with
    | none => rfl
    | some nd =>
      dsimp only
      congr 1
      cases hl : nd.isLeaf with
      | true => rfl
      | false =>
        simp only [Bool.false_or]
        refine list_all_congr _ _ nd.entries ?_
        intro e _
        rw [ih e.2]
        rw [show childCoverOkB { d with hdr := { d.hdr with root_addr := r } } e
          = childCoverOkB d e from rfl]

theorem collectEnts_exists (rec : Nat → Option (List (MBR × Nat))) :
    ∀ l : List (MBR × Nat), (∀ e ∈ l, ∃ ch, rec e.2 = some ch) →
    ∃ C, collectEnts rec l = some C := by
  intro l
  induction l with
  | nil => intro _; exact ⟨[], rfl⟩
  | cons e t ih =>
    intro h
    obtain ⟨ch, hch⟩ := h e (by simp)
    obtain ⟨C, hC⟩ := ih (fun e' he' => h e' (List.mem_cons_of_mem _ he'))
    exact ⟨ch ++ C, by rw [collectEnts, hch, hC]⟩

theorem setElemKey_entries (dims : Nat) (nd : Node) (k : MBR) (idx : Nat)
    (nd' : Node) (h : setElemKey dims nd k idx = some nd') :
    nd'.entries = nd.entries.set idx (k, (nd.entries.getD idx ([], 0)).2) := by
  rw [setElemKey] at h
  by_cases hc : idx < nd.entries.length ∧ k.length = 2 * dims
  · rw [if_pos hc] at h
    rw [← Option.some.inj h]
  · rw [if_neg hc] at h
    exact absurd h (by simp)

theorem perm_cancel_mid (l' lc0 l0 lc lk A1 A2 : List (MBR × Nat))
    (h : (l' ++ (A1 ++ (lc0 ++ A2))).Perm (l0 ++ ((A1 ++ (lc ++ A2)) ++ lk))) :
    (l' ++ lc0).Perm (l0 ++ (lc ++ lk)) := by
  rw [← Multiset.coe_eq_coe] at h ⊢
  simp only [← Multiset.coe_add] at h ⊢
  have h2 : (↑l' : Multiset (MBR × Nat)) + ↑lc0 + (↑A1 + ↑A2)
      = ↑l0 + (↑lc + ↑lk) + (↑A1 + ↑A2) := by
    rw [show (↑l' : Multiset (MBR × Nat)) + ↑lc0 + (↑A1 + ↑A2)
        = ↑l' + (↑A1 + (↑lc0 + ↑A2)) by ac_rfl]
    rw [h]
    ac_rfl
  exact add_right_cancel h2

theorem sepB_succ_intro (d : Disk) (h : Nat) (a : Nat) (nd : Node)
    (h1 : getNode d a = some nd)
    (hcase : nd.isLeaf = true ∨
      (nd.entries.Pairwise
        (fun e e' => ∀ x ∈ subAddrs h d e.2, x ∉ subAddrs h d e'.2) ∧
       ∀ e ∈ nd.entries, a ∉ subAddrs h d e.2 ∧ sepB h d e.2 = true)) :
    sepB (Nat.succ h) d a = true := by
  rw [sepB, h1]
  dsimp only
  rcases hcase with hl | ⟨hp, hper⟩
  · rw [hl]
    simp
  · rw [Bool.or_eq_true]
    refine Or.inr ?_
    rw [Bool.and_eq_true]
    constructor
    · rw [pairwiseDisjB_iff, List.pairwise_map]
      refine hp.imp ?_
      intro e e' hee x hx
      simpa using hee x hx
    · rw [List.all_eq_true]
      intro e he
      rw [Bool.and_eq_true]
      refine ⟨?_, (hper e he).2⟩
      rw [Bool.not_eq_true']
      by_cases hc : (subAddrs h d e.2).contains a = true
      · exact absurd (by simpa using hc) (hper e he).1
      · simpa using hc

/-- `RTree::split` on a popped inner frame with a pending key rewrite:
the schema survives, and the tree under the (possibly promoted) root
stays good and separated. -/
theorem splitGo_spec : ∀ (path : List (Nat × Nat)) (d0 d : Disk) (H Hb F : Nat)
    (D : List Nat) (c : Nat) (kvp : MBR × Nat) (mk : MBR) (d' : Disk),
    splitGo d path kvp (some mk) = some d' →
    Chain d0 H F false D c path →
    H ≤ Hb →
    d.hdr = d0.hdr →
    d0.fileSize ≤ d.fileSize →
    F ≤ d0.fileSize →
    0 < d0.hdr.block_size →
    (∀ x, x < F → ¬ Reach d0 c x → getNode d x = getNode d0 x) →
    goodNodeB Hb d c = true →
    sepB Hb d c = true →
    (∃ cnd, getNode d c = some cnd ∧ getNodeMbr cnd = some mk) →
    (∀ x, Reach d c x → (Reach d0 c x ∧ x < F) ∨ (F ≤ x ∧ x < d.fileSize)) →
    goodNodeB Hb d kvp.2 = true →
    sepB Hb d kvp.2 = true →
    (∃ knd, getNode d kvp.2 = some knd ∧ getNodeMbr knd = some kvp.1) →
    (∀ x, Reach d kvp.2 x → (Reach d0 c x ∧ x < F) ∨ (F ≤ x ∧ x < d.fileSize)) →
    (∀ x, Reach d kvp.2 x → ¬ Reach d c x) →
    (d'.hdr.dimensions = d0.hdr.dimensions ∧
     d'.hdr.key_size = d0.hdr.key_size ∧
     d'.hdr.value_size = d0.hdr.value_size ∧
     d'.hdr.block_size = d0.hdr.block_size) ∧
    (∃ H2, goodNodeB H2 d' d'.hdr.root_addr = true ∧
      sepB H2 d' d'.hdr.root_addr = true) ∧
    (∀ Hc l0 lc0 lc lk, H ≤ Hc →
      collectGo Hc d0 d0.hdr.root_addr = some l0 →
      collectGo Hc d0 c = some lc0 →
      (∃ Hk, collectGo Hk d c = some lc) →
      (∃ Hk, collectGo Hk d kvp.2 = some lk) →
      ∃ Hc2 l', collectGo Hc2 d' d'.hdr.root_addr = some l' ∧
        (l' ++ lc0).Perm (l0 ++ (lc ++ lk))) := by
  intro path
  induction path with
  | nil =>
    intro d0 d H Hb F D c kvp mk d' hsplit
    rw [splitGo] at hsplit
    exact absurd hsplit (by simp)
  | cons fr rest ih =>
    obtain ⟨a, pid⟩ := fr
    intro d0 d H Hb F D c kvp mk d' hsplit hch hHb hh hfsle hF hblk hag0
      hcg hcs hcnd hcz hkg hks hknd hkz hkc
    obtain ⟨nd, e, h1, hlf, hself, hnz, hFa, hcap, hok, hgi, heb, haD, hab,
      hnra, hF8, hF9, hcov0, hrest⟩ := hch
    have hna : getNode d a = some nd := by
      rw [hag0 a hFa hnra]
      exact h1
    obtain ⟨cnd, hcndE, hcndM⟩ := hcnd
    obtain ⟨knd, hkndE, hkndM⟩ := hknd
    obtain ⟨cnd', _, ccov, hcnd', _, hccov, _, hclen, hcval, _⟩ :=
      collect_good d Hb c hcg
    have hcc : cnd' = cnd := by
      have h2 := hcnd'.symm.trans hcndE
      injection h2
    subst hcc
    have hmkc : mk = ccov := by
      have h2 := hcndM.symm.trans hccov
      injection h2
    subst hmkc
    obtain ⟨knd', _, kcov, hknd', _, hkcov, _, hklen, hkval, _⟩ :=
      collect_good d Hb kvp.2 hkg
    have hkk : knd' = knd := by
      have h2 := hknd'.symm.trans hkndE
      injection h2
    subst hkk
    have hkvk : kvp.1 = kcov := by
      have h2 := hkndM.symm.trans hkcov
      injection h2
    have hnca : ¬ Reach d c a := by
      intro hr
      rcases hcz a hr with ⟨hr0, _⟩ | ⟨hge, _⟩
      · exact hnra hr0
      · omega
    have hnka : ¬ Reach d kvp.2 a := by
      intro hr
      rcases hkz a hr with ⟨hr0, _⟩ | ⟨hge, _⟩
      · exact hnra hr0
      · omega
    have hsag : ∀ j e', j ≠ pid → nd.entries.get? j = some e' →
        ∀ y, Reach d0 e'.2 y → getNode d y = getNode d0 y := by
      intro j e' hj hje y hy
      have hp := (hF8 j e' hj hje).2.2.2 y hy
      exact hag0 y hp.2.2.2 hp.1
    have hsreach : ∀ j e', j ≠ pid → nd.entries.get? j = some e' →
        ∀ x, Reach d e'.2 x ↔ Reach d0 e'.2 x := by
      intro j e' hj hje
      exact reach_agree d0 d e'.2 (hsag j e' hj hje)
    have hsgood : ∀ j e', j ≠ pid → nd.entries.get? j = some e' →
        goodNodeB Hb d e'.2 = true := by
      intro j e' hj hje
      refine goodNodeB_mono d H Hb e'.2 hHb ?_
      exact goodNodeB_agree_grow d0 d hh hfsle H e'.2
        (fun x hx => hsag j e' hj hje x ⟨H, hx⟩) (hF8 j e' hj hje).1
    have hssep : ∀ j e', j ≠ pid → nd.entries.get? j = some e' →
        sepB Hb d e'.2 = true := by
      intro j e' hj hje
      have hsd0 : sepB H d e'.2 = true := by
        rw [sepB_agree d0 d H e'.2 (fun x hx => hsag j e' hj hje x ⟨H, hx⟩)]
        exact (hF8 j e' hj hje).2.2.1
      refine sepB_stable d H Hb e'.2 hHb ?_ hsd0
      exact goodNodeB_heightLeB d H e'.2
        (goodNodeB_agree_grow d0 d hh hfsle H e'.2
          (fun x hx => hsag j e' hj hje x ⟨H, hx⟩) (hF8 j e' hj hje).1)
    have hscov : ∀ j e', j ≠ pid → nd.entries.get? j = some e' →
        childCoverOkB d e' = true := by
      intro j e' hj hje
      rw [childCoverOkB_agree d0 d e'
        (hsag j e' hj hje e'.2 (reach_self d0 e'.2))]
      exact (hF8 j e' hj hje).2.1
    have hsprops : ∀ j e', j ≠ pid → nd.entries.get? j = some e' →
        ∀ x, Reach d e'.2 x →
          ¬ Reach d c x ∧ ¬ Reach d kvp.2 x ∧ x ≠ a ∧ x < F := by
      intro j e' hj hje x hx
      have hx0 := (hsreach j e' hj hje x).mp hx
      have hp := (hF8 j e' hj hje).2.2.2 x hx0
      refine ⟨?_, ?_, hp.2.1, hp.2.2.2⟩
      · intro hcx
        rcases hcz x hcx with ⟨hr0, _⟩ | ⟨hge, _⟩
        · exact hp.1 hr0
        · omega
      · intro hkx
        rcases hkz x hkx with ⟨hr0, _⟩ | ⟨hge, _⟩
        · exact hp.1 hr0
        · omega
    rw [splitGo, hna] at hsplit
    dsimp only at hsplit
    cases hset : setElemKey d.hdr.dimensions nd mk pid with
    | none =>
      rw [hset] at hsplit
      dsimp only [Option.map] at hsplit
      exact absurd hsplit (by simp)
    | some nd1 =>
    rw [hset] at hsplit
    dsimp only [Option.map] at hsplit
    obtain ⟨hKleaf, hKself, hKlen, hKvals, hpidlt, _hmklen2, hKother, v,
      hvold, hKnew⟩ := setElemKey_spec d.hdr.dimensions nd mk pid nd1 hset
    have hgetD : nd.entries.getD pid ([], 0) = e := by
      rw [List.getD_eq_getElem nd.entries ([], 0) hpidlt]
      have h2 := hgi
      rw [List.get?_eq_getElem?, List.getElem?_eq_getElem hpidlt] at h2
      injection h2
    have hvc : c = v := by
      have h2 := hvold.symm.trans hgi
      injection h2 with h3
      have h4 : e.2 = v := by
        rw [← h3]
      rw [← h4, heb]
    subst hvc
    have hE1 : nd1.entries = nd.entries.set pid (mk, c) := by
      have h2 := setElemKey_entries d.hdr.dimensions nd mk pid nd1 hset
      rw [hgetD, heb] at h2
      exact h2
    -- well-formed keys of the rewritten node
    have hok1 : ∀ e' ∈ nd1.entries, entryOkB d.hdr.dimensions e' = true := by
      intro e' he'
      obtain ⟨j, hj⟩ := List.mem_iff_get?.mp he'
      by_cases hji : j = pid
      · have hee : e' = (mk, c) := by
          rw [hji] at hj
          have h2 := hj.symm.trans hKnew
          injection h2
        rw [hee, entryOkB_iff]
        exact ⟨hclen, hcval⟩
      · rw [hKother j hji] at hj
        have h2 := hok e' (get?_mem hj)
        rw [hh]
        exact h2
    have hokK : entryOkB d.hdr.dimensions kvp = true := by
      rw [entryOkB_iff, hkvk]
      exact ⟨hklen, hkval⟩
    -- positions of nd1: link at pid, siblings elsewhere
    have hN1pid : nd1.entries.get? pid = some (mk, c) := hKnew
    have hN1other : ∀ j, j ≠ pid → nd1.entries.get? j = nd.entries.get? j :=
      hKother
    -- the per-entry facts for every entry of nd1 ++ [kvp]
    have hallgood : ∀ e' ∈ nd1.entries ++ [kvp], goodNodeB Hb d e'.2 = true := by
      intro e' he'
      rcases List.mem_append.mp he' with he' | he'
      · obtain ⟨j, hj⟩ := List.mem_iff_get?.mp he'
        by_cases hji : j = pid
        · have hee : e' = (mk, c) := by
            rw [hji] at hj
            have h2 := hj.symm.trans hKnew
            injection h2
          rw [hee]
          exact hcg
        · rw [hKother j hji] at hj
          exact hsgood j e' hji hj
      · have hee : e' = kvp := List.mem_singleton.mp he'
        rw [hee]
        exact hkg
    have hallsep : ∀ e' ∈ nd1.entries ++ [kvp], sepB Hb d e'.2 = true := by
      intro e' he'
      rcases List.mem_append.mp he' with he' | he'
      · obtain ⟨j, hj⟩ := List.mem_iff_get?.mp he'
        by_cases hji : j = pid
        · have hee : e' = (mk, c) := by
            rw [hji] at hj
            have h2 := hj.symm.trans hKnew
            injection h2
          rw [hee]
          exact hcs
        · rw [hKother j hji] at hj
          exact hssep j e' hji hj
      · have hee : e' = kvp := List.mem_singleton.mp he'
        rw [hee]
        exact hks
    have hallcov : ∀ e' ∈ nd1.entries ++ [kvp], childCoverOkB d e' = true := by
      intro e' he'
      rcases List.mem_append.mp he' with he' | he'
      · obtain ⟨j, hj⟩ := List.mem_iff_get?.mp he'
        by_cases hji : j = pid
        · have hee : e' = (mk, c) := by
            rw [hji] at hj
            have h2 := hj.symm.trans hKnew
            injection h2
          rw [hee, childCoverOkB]
          dsimp only
          rw [hcndE]
          dsimp only
          rw [hcndM]
          exact mbrGe_refl mk
        · rw [hKother j hji] at hj
          exact hscov j e' hji hj
      · have hee : e' = kvp := List.mem_singleton.mp he'
        rw [hee, childCoverOkB]
        rw [hkndE]
        dsimp only
        rw [hkndM, hkvk]
        exact mbrGe_refl kcov
    have hallok : ∀ e' ∈ nd1.entries ++ [kvp],
        entryOkB d.hdr.dimensions e' = true := by
      intro e' he'
      rcases List.mem_append.mp he' with he' | he'
      · exact hok1 e' he'
      · have hee : e' = kvp := List.mem_singleton.mp he'
        rw [hee]
        exact hokK
    -- zone description of every entry of nd1 ++ [kvp]
    have hd0c_in_a : ∀ {y : Nat}, Reach d0 c y → Reach d0 a y := by
      intro y hy
      refine reach_child d0 a nd e h1 hlf (get?_mem hgi) ?_
      rw [heb]
      exact hy
    have hallzone : ∀ e' ∈ nd1.entries ++ [kvp], ∀ x, Reach d e'.2 x →
        ((Reach d0 a x ∧ x < F) ∨ (F ≤ x ∧ x < d.fileSize)) ∧ x ≠ a := by
      intro e' he' x hx
      rcases List.mem_append.mp he' with he' | he'
      · obtain ⟨j, hj⟩ := List.mem_iff_get?.mp he'
        by_cases hji : j = pid
        · have hee : e' = (mk, c) := by
            rw [hji] at hj
            have h2 := hj.symm.trans hKnew
            injection h2
          rw [hee] at hx
          refine ⟨?_, ?_⟩
          · rcases hcz x hx with ⟨hr0, hxF⟩ | ⟨hge, hlt⟩
            · exact Or.inl ⟨hd0c_in_a hr0, hxF⟩
            · exact Or.inr ⟨hge, hlt⟩
          · intro hxa
            rw [hxa] at hx
            exact hnca hx
        · rw [hKother j hji] at hj
          have hx0 := (hsreach j e' hji hj x).mp hx
          have hp := (hF8 j e' hji hj).2.2.2 x hx0
          refine ⟨Or.inl ⟨?_, hp.2.2.2⟩, hp.2.1⟩
          exact reach_child d0 a nd e' h1 hlf (get?_mem hj) hx0
      · have hee : e' = kvp := List.mem_singleton.mp he'
        rw [hee] at hx
        refine ⟨?_, ?_⟩
        · rcases hkz x hx with ⟨hr0, hxF⟩ | ⟨hge, hlt⟩
          · exact Or.inl ⟨hd0c_in_a hr0, hxF⟩
          · exact Or.inr ⟨hge, hlt⟩
        · intro hxa
          rw [hxa] at hx
          exact hnka hx
    -- pairwise disjointness of the entries of nd1 ++ [kvp]
    have hallpair : (nd1.entries ++ [kvp]).Pairwise
        (fun e1 e2 => ∀ x, Reach d e1.2 x → ¬ Reach d e2.2 x) := by
      rw [List.pairwise_append]
      refine ⟨?_, by simp, ?_⟩
      · refine pairwise_of_get? _ nd1.entries ?_
        intro j j' e1 e2 hjj hj hj'
        by_cases hji : j = pid
        · have hee : e1 = (mk, c) := by
            rw [hji] at hj
            have h2 := hj.symm.trans hKnew
            injection h2
          have hj'p : j' ≠ pid := by omega
          rw [hKother j' hj'p] at hj'
          intro x hx hx2
          rw [hee] at hx
          exact (hsprops j' e2 hj'p hj' x hx2).1 hx
        · by_cases hj'i : j' = pid
          · have hee : e2 = (mk, c) := by
              rw [hj'i] at hj'
              have h2 := hj'.symm.trans hKnew
              injection h2
            rw [hKother j hji] at hj
            intro x hx hx2
            rw [hee] at hx2
            exact (hsprops j e1 hji hj x hx).1 hx2
          · rw [hKother j hji] at hj
            rw [hKother j' hj'i] at hj'
            intro x hx hx2
            refine hF9 j j' e1 e2 hji hj'i (by omega) hj hj' x
              ((hsreach j e1 hji hj x).mp hx)
              ((hsreach j' e2 hj'i hj' x).mp hx2)
      · intro e1 he1 e2 he2
        have hee : e2 = kvp := List.mem_singleton.mp he2
        obtain ⟨j, hj⟩ := List.mem_iff_get?.mp he1
        by_cases hji : j = pid
        · have hee1 : e1 = (mk, c) := by
            rw [hji] at hj
            have h2 := hj.symm.trans hKnew
            injection h2
          intro x hx hx2
          rw [hee1] at hx
          rw [hee] at hx2
          exact hkc x hx2 hx
        · rw [hKother j hji] at hj
          intro x hx hx2
          rw [hee] at hx2
          exact (hsprops j e1 hji hj x hx).2.1 hx2
    have hne1 : nd1.entries ≠ [] := by
      intro hnil
      rw [hnil] at hN1pid
      exact absurd hN1pid (by simp)
    -- index bookkeeping around the link slot
    have hdec0 : nd.entries
        = nd.entries.take pid ++ nd.entries[pid] :: nd.entries.drop (pid + 1) := by
      rw [← List.drop_eq_getElem_cons hpidlt, List.take_append_drop]
    have hei : nd.entries[pid] = e := by
      have h2 := hgi
      rw [List.get?_eq_getElem?, List.getElem?_eq_getElem hpidlt] at h2
      injection h2
    have hmemtake : ∀ e' ∈ nd.entries.take pid, ∃ j, j ≠ pid ∧
        nd.entries.get? j = some e' := by
      intro e' he'
      obtain ⟨j, hj⟩ := List.mem_iff_get?.mp he'
      have hjl : j < (nd.entries.take pid).length := get?_lt hj
      have hjp : j < pid := by
        rw [List.length_take] at hjl
        omega
      refine ⟨j, by omega, ?_⟩
      rw [List.get?_eq_getElem?] at hj ⊢
      rw [List.getElem?_take_of_lt hjp] at hj
      exact hj
    have hmemdrop : ∀ e' ∈ nd.entries.drop (pid + 1), ∃ j, j ≠ pid ∧
        nd.entries.get? j = some e' := by
      intro e' he'
      obtain ⟨j, hj⟩ := List.mem_iff_get?.mp he'
      refine ⟨pid + 1 + j, by omega, ?_⟩
      rw [List.get?_eq_getElem?] at hj ⊢
      rw [List.getElem?_drop] at hj
      exact hj
    have hsibchunk : ∀ j e', j ≠ pid → nd.entries.get? j = some e' →
        ∀ Hc, H ≤ Hc → ∃ ch, collectGo Hc d0 e'.2 = some ch := by
      intro j e' hj hje Hc hHc
      obtain ⟨_, ch, _, _, hch, _⟩ := collect_good d0 H e'.2 (hF8 j e' hj hje).1
      exact ⟨ch, collectGo_fuel_mono d0 H Hc e'.2 ch hHc hch⟩
    -- the original chunk decomposition of the frame node in d0
    have hbuild0 : ∀ Hc lc0, H ≤ Hc → collectGo Hc d0 c = some lc0 →
        ∃ A1 A2,
          collectEnts (fun y => collectGo Hc d0 y) (nd.entries.take pid)
            = some A1 ∧
          collectEnts (fun y => collectGo Hc d0 y) (nd.entries.drop (pid + 1))
            = some A2 ∧
          collectGo (Nat.succ Hc) d0 a = some (A1 ++ (lc0 ++ A2)) := by
      intro Hc lc0 hHc hlc0
      obtain ⟨A1, hA1⟩ := collectEnts_exists (fun y => collectGo Hc d0 y)
        (nd.entries.take pid) (fun e' he' => by
          obtain ⟨j, hj, hje⟩ := hmemtake e' he'
          exact hsibchunk j e' hj hje Hc hHc)
      obtain ⟨A2, hA2⟩ := collectEnts_exists (fun y => collectGo Hc d0 y)
        (nd.entries.drop (pid + 1)) (fun e' he' => by
          obtain ⟨j, hj, hje⟩ := hmemdrop e' he'
          exact hsibchunk j e' hj hje Hc hHc)
      refine ⟨A1, A2, hA1, hA2, ?_⟩
      rw [collectGo, h1]
      dsimp only
      rw [show nd.isLeaf = false from hlf]
      simp only [if_neg (by simp : ¬(false = true))]
      have hmid : collectEnts (fun y => collectGo Hc d0 y)
          (nd.entries[pid] :: nd.entries.drop (pid + 1)) = some (lc0 ++ A2) := by
        rw [collectEnts, hei, heb, hlc0, hA2]
      have hstep := collectEnts_append (fun y => collectGo Hc d0 y)
        (nd.entries.take pid) (nd.entries[pid] :: nd.entries.drop (pid + 1))
        A1 (lc0 ++ A2) hA1 hmid
      rw [← hdec0] at hstep
      exact hstep
    by_cases hroom : nd1.entries.length < capacity (setNode d a nd1).hdr nd1.isLeaf
    · -- room: plain insert into the frame node, then the upward walk
      rw [if_pos hroom] at hsplit
      cases hins : nodeInsert (capacity (setNode d a nd1).hdr nd1.isLeaf)
          d.hdr.dimensions nd1 kvp with
      | none =>
        rw [hins] at hsplit
        exact absurd hsplit (by simp)
      | some nd2 =>
      rw [hins] at hsplit
      dsimp only at hsplit
      obtain ⟨hnd2eq, hlen2, _⟩ := nodeInsert_some _ _ nd1 kvp nd2 hins
      cases hmbr : getNodeMbr nd2 with
      | none =>
        rw [hmbr] at hsplit
        exact absurd hsplit (by simp)
      | some newMbr =>
      rw [hmbr] at hsplit
      dsimp only at hsplit
      have hE2 : nd2.entries = nd1.entries ++ [kvp] := by
        rw [hnd2eq]
      have hL2 : nd2.isLeaf = false := by
        rw [hnd2eq]
        dsimp only
        rw [hKleaf]
        exact hlf
      have hS2 : nd2.selfAddr = a := by
        rw [hnd2eq]
        dsimp only
        rw [hKself]
        exact hself
      -- the double write only touches `a`
      have hagd2 : ∀ x, x ≠ a →
          getNode (setNode (setNode d a nd1) a nd2) x = getNode d x := by
        intro x hxa
        rw [getNode_setNode_ne _ a x nd2 (fun h2 => hxa h2.symm),
          getNode_setNode_ne _ a x nd1 (fun h2 => hxa h2.symm)]
      have hd2a : getNode (setNode (setNode d a nd1) a nd2) a = some nd2 :=
        getNode_setNode_self _ a nd2
      have hd2hdr : (setNode (setNode d a nd1) a nd2).hdr = d.hdr := by
        rw [setNode_hdr, setNode_hdr]
      have hd2fs : (setNode (setNode d a nd1) a nd2).fileSize = d.fileSize := by
        rw [setNode_fileSize, setNode_fileSize]
      -- entry subtrees are untouched by the write at a
      have hsub2 : ∀ e' ∈ nd1.entries ++ [kvp], ∀ y, Reach d e'.2 y →
          getNode (setNode (setNode d a nd1) a nd2) y = getNode d y := by
        intro e' he' y hy
        exact hagd2 y (hallzone e' he' y hy).2
      have hreach2 : ∀ e' ∈ nd1.entries ++ [kvp], ∀ x,
          Reach (setNode (setNode d a nd1) a nd2) e'.2 x ↔ Reach d e'.2 x := by
        intro e' he'
        exact reach_agree d _ e'.2 (hsub2 e' he')
      -- the rebuilt frame node is good and separated
      have hga : goodNodeB (Nat.succ Hb) (setNode (setNode d a nd1) a nd2) a
          = true := by
        rw [goodNodeB_succ_iff]
        refine ⟨nd2, hd2a, hS2, hnz, ?_, ?_, ?_, ?_, Or.inr ?_⟩
        · rw [hd2fs]
          omega
        · rw [hd2hdr, hE2]
          rw [List.length_append]
          have hc2 : capacity (setNode d a nd1).hdr nd1.isLeaf
              = capacity d.hdr nd2.isLeaf := by
            rw [setNode_hdr]
            rw [hnd2eq]
          rw [← hc2]
          simpa using hlen2
        · rw [hE2]
          simp
        · intro e' he'
          rw [hd2hdr]
          rw [hE2] at he'
          exact hallok e' he'
        · intro e' he'
          rw [hE2] at he'
          refine ⟨?_, ?_⟩
          · refine goodNodeB_agree_grow d _ hd2hdr (by rw [hd2fs]) Hb e'.2
              (fun x hx => hsub2 e' he' x ⟨Hb, hx⟩) (hallgood e' he')
          · rw [childCoverOkB_agree d _ e'
              (hsub2 e' he' e'.2 (reach_self d e'.2))]
            exact hallcov e' he'
      have hsa : sepB (Nat.succ Hb) (setNode (setNode d a nd1) a nd2) a
          = true := by
        refine sepB_succ_intro _ Hb a nd2 hd2a (Or.inr ⟨?_, ?_⟩)
        · rw [hE2]
          refine pairwise_of_get? _ _ ?_
          intro j j' e1 e2 hjj hj hj'
          have he1 : e1 ∈ nd1.entries ++ [kvp] := get?_mem hj
          have he2 : e2 ∈ nd1.entries ++ [kvp] := get?_mem hj'
          have hR : ∀ x, Reach d e1.2 x → ¬ Reach d e2.2 x := by
            have hjl : j < (nd1.entries ++ [kvp]).length := get?_lt hj
            have hj'l : j' < (nd1.entries ++ [kvp]).length := get?_lt hj'
            have hje : (nd1.entries ++ [kvp]).get ⟨j, hjl⟩ = e1 := by
              have h2 := (get?_of_lt _ j hjl).symm.trans hj
              injection h2
            have hj'e : (nd1.entries ++ [kvp]).get ⟨j', hj'l⟩ = e2 := by
              have h2 := (get?_of_lt _ j' hj'l).symm.trans hj'
              injection h2
            have h3 := List.pairwise_iff_get.mp hallpair ⟨j, hjl⟩ ⟨j', hj'l⟩ hjj
            rw [hje, hj'e] at h3
            exact h3
          intro x hx hx2
          exact hR x ((hreach2 e1 he1 x).mp ⟨Hb, hx⟩)
            ((hreach2 e2 he2 x).mp ⟨Hb, hx2⟩)
        · intro e' he'
          rw [hE2] at he'
          refine ⟨?_, ?_⟩
          · intro hmem
            have hr : Reach (setNode (setNode d a nd1) a nd2) e'.2 a := ⟨Hb, hmem⟩
            have := (hreach2 e' he' a).mp hr
            exact (hallzone e' he' a this).2 rfl
          · rw [sepB_agree d _ Hb e'.2 (fun x hx => hsub2 e' he' x ⟨Hb, hx⟩)]
            exact hallsep e' he'
      -- transport the remaining chain into the written disk
      have hag2 : ∀ x, x < F → ¬ Reach d0 a x →
          getNode (setNode (setNode d a nd1) a nd2) x = getNode d0 x := by
        intro x hxF hnrx
        have hxa : x ≠ a := by
          intro h2
          rw [h2] at hnrx
          exact hnrx (reach_self d0 a)
        rw [hagd2 x hxa]
        refine hag0 x hxF ?_
        intro h2
        exact hnrx (hd0c_in_a h2)
      have hchain2 : Chain (setNode (setNode d a nd1) a nd2) H F false
          (c :: D) a rest := by
        refine Chain_transport_gen rest d0 _ H F true false (c :: D) a hrest
          (hd2hdr.trans hh) (by rw [hd2fs]; exact hfsle) hag2 ?_
          (fun h2 => absurd h2 (by simp))
        · intro x hx
          rcases reach_node_decomp _ a nd2 hd2a x hx with hxa | ⟨e', he', hre⟩
          · refine Or.inl ?_
            rw [hxa]
            exact reach_self d0 a
          · rw [hE2] at he'
            have hx' := (hreach2 e' he' x).mp hre
            rcases (hallzone e' he' x hx').1 with ⟨hr0, _⟩ | ⟨hge, _⟩
            · exact Or.inl hr0
            · exact Or.inr hge
      -- run the upward walk
      rw [show d.hdr.dimensions
        = (setNode (setNode d a nd1) a nd2).hdr.dimensions from by
          rw [hd2hdr]] at hsplit
      obtain ⟨hmph, hmpfs, hmpcoll, H2, hg2, hs2⟩ :=
        modifyParent_spec rest _ H (Nat.succ Hb) F (c :: D) a newMbr d'
          hsplit hchain2 (by omega)
          (by rw [hd2fs]; omega) hga hsa ⟨nd2, hd2a, hmbr⟩
      refine ⟨?_, ⟨H2, ?_, ?_⟩, ?_⟩
      · rw [hmph, hd2hdr, hh]
        exact ⟨rfl, rfl, rfl, rfl⟩
      · rw [hmph, hd2hdr]
        rw [hd2hdr] at hg2
        exact hg2
      · rw [hmph, hd2hdr]
        rw [hd2hdr] at hs2
        exact hs2
      · -- the collected entries: the child chunk is swapped for the
        -- current child and sibling chunks
        intro Hc l0 lc0 lc lk hHc hl0 hlc0 hlcE hlkE
        obtain ⟨Hk1, hlcf⟩ := hlcE
        obtain ⟨Hk2, hlkf⟩ := hlkE
        obtain ⟨A1, A2, hA1, hA2, hla0⟩ := hbuild0 Hc lc0 hHc hlc0
        have hlcA : collectGo (max Hc (max Hk1 Hk2)) d c = some lc :=
          collectGo_fuel_mono d Hk1 _ c lc (by omega) hlcf
        have hlkA : collectGo (max Hc (max Hk1 Hk2)) d kvp.2 = some lk :=
          collectGo_fuel_mono d Hk2 _ kvp.2 lk (by omega) hlkf
        have hsagd2 : ∀ j e', j ≠ pid → nd.entries.get? j = some e' →
            ∀ y, Reach d0 e'.2 y →
            getNode (setNode (setNode d a nd1) a nd2) y = getNode d0 y := by
          intro j e' hj hje y hy
          have hp := (hF8 j e' hj hje).2.2.2 y hy
          rw [hagd2 y hp.2.1]
          exact hsag j e' hj hje y hy
        have hsibd2 : ∀ j e', j ≠ pid → nd.entries.get? j = some e' →
            collectGo (max Hc (max Hk1 Hk2))
              (setNode (setNode d a nd1) a nd2) e'.2
              = collectGo Hc d0 e'.2 := by
          intro j e' hj hje
          obtain ⟨ch, hch⟩ := hsibchunk j e' hj hje Hc hHc
          rw [collectGo_agree d0 _ (max Hc (max Hk1 Hk2)) e'.2
            (fun y hy => hsagd2 j e' hj hje y ⟨_, hy⟩)]
          rw [collectGo_fuel_mono d0 Hc _ e'.2 ch (by omega) hch, hch]
        have hlcd2 : collectGo (max Hc (max Hk1 Hk2))
            (setNode (setNode d a nd1) a nd2) c = some lc := by
          rw [collectGo_agree d _ _ c ?_]
          · exact hlcA
          · intro y hy
            refine hagd2 y ?_
            intro h2
            rw [h2] at hy
            exact hnca ⟨_, hy⟩
        have hlkd2 : collectGo (max Hc (max Hk1 Hk2))
            (setNode (setNode d a nd1) a nd2) kvp.2 = some lk := by
          rw [collectGo_agree d _ _ kvp.2 ?_]
          · exact hlkA
          · intro y hy
            refine hagd2 y ?_
            intro h2
            rw [h2] at hy
            exact hnka ⟨_, hy⟩
        have hA1d2 : collectEnts (fun y => collectGo (max Hc (max Hk1 Hk2))
            (setNode (setNode d a nd1) a nd2) y) (nd.entries.take pid)
            = some A1 := by
          rw [collectEnts_congr_mem _ (fun y => collectGo Hc d0 y) _ (fun e' he' => by
            obtain ⟨j, hj, hje⟩ := hmemtake e' he'
            exact hsibd2 j e' hj hje)]
          exact hA1
        have hA2d2 : collectEnts (fun y => collectGo (max Hc (max Hk1 Hk2))
            (setNode (setNode d a nd1) a nd2) y) (nd.entries.drop (pid + 1))
            = some A2 := by
          rw [collectEnts_congr_mem _ (fun y => collectGo Hc d0 y) _ (fun e' he' => by
            obtain ⟨j, hj, hje⟩ := hmemdrop e' he'
            exact hsibd2 j e' hj hje)]
          exact hA2
        have hmid2 : collectEnts (fun y => collectGo (max Hc (max Hk1 Hk2))
            (setNode (setNode d a nd1) a nd2) y)
            ((mk, c) :: nd.entries.drop (pid + 1)) = some (lc ++ A2) := by
          rw [collectEnts, hlcd2, hA2d2]
        have hkvd2 : collectEnts (fun y => collectGo (max Hc (max Hk1 Hk2))
            (setNode (setNode d a nd1) a nd2) y) [kvp] = some (lk ++ []) := by
          rw [collectEnts, hlkd2, collectEnts]
        have hents2 : collectEnts (fun y => collectGo (max Hc (max Hk1 Hk2))
            (setNode (setNode d a nd1) a nd2) y) nd2.entries
            = some ((A1 ++ (lc ++ A2)) ++ (lk ++ [])) := by
          rw [hE2]
          refine collectEnts_append _ _ _ _ _ ?_ hkvd2
          rw [hE1, List.set_eq_take_cons_drop (mk, c) hpidlt]
          exact collectEnts_append _ _ _ _ _ hA1d2 hmid2
        have hla2 : collectGo (Nat.succ (max Hc (max Hk1 Hk2)))
            (setNode (setNode d a nd1) a nd2) a
            = some ((A1 ++ (lc ++ A2)) ++ (lk ++ [])) := by
          rw [collectGo, hd2a]
          dsimp only
          rw [hL2]
          simp only [if_neg (by simp : ¬(false = true))]
          exact hents2
        have hl0' : collectGo (Nat.succ Hc) d0 d0.hdr.root_addr = some l0 :=
          collectGo_fuel_mono d0 Hc _ _ l0 (by omega) hl0
        obtain ⟨Hc3, l2, hl2, hpermG⟩ := chain_collect_graft rest d0 _ H F true
          (c :: D) a hrest hag2 (Nat.succ Hc) l0 (A1 ++ (lc0 ++ A2))
          ((A1 ++ (lc ++ A2)) ++ (lk ++ []))
          (by omega) hl0' hla0 ⟨_, hla2⟩
        refine ⟨Hc3, l2, ?_, ?_⟩
        · rw [hmph, hd2hdr, hh]
          rw [hmpcoll Hc3 d0.hdr.root_addr]
          exact hl2
        · rw [List.append_nil] at hpermG
          exact perm_cancel_mid l2 lc0 l0 lc lk A1 A2 hpermG
    · -- overflow: allocate a sibling, split the entries, write both nodes
      rw [if_neg hroom] at hsplit
      simp only [allocate, setNode_fileSize, setNode_hdr] at hsplit
      cases hcur : insertAll (capacity d.hdr nd1.isLeaf) d.hdr.dimensions
          (clearNode nd1) (pickseed nd1.entries kvp).2 with
      | none =>
        rw [hcur] at hsplit
        exact absurd hsplit (by simp)
      | some cur' =>
      rw [hcur] at hsplit
      dsimp only at hsplit
      cases hnew : insertAll (capacity d.hdr nd1.isLeaf) d.hdr.dimensions
          ⟨nd1.isLeaf, d.fileSize, []⟩ (pickseed nd1.entries kvp).1 with
      | none =>
        rw [hnew] at hsplit
        exact absurd hsplit (by simp)
      | some newNode =>
      rw [hnew] at hsplit
      dsimp only at hsplit
      obtain ⟨hCleaf, hCself, hCents⟩ := insertAll_shape _ _ _ _ _ hcur
      obtain ⟨hNleaf, hNself, hNents⟩ := insertAll_shape _ _ _ _ _ hnew
      have hCleaf' : cur'.isLeaf = false := by
        rw [hCleaf]
        show nd1.isLeaf = false
        rw [hKleaf]
        exact hlf
      have hCself' : cur'.selfAddr = a := by
        rw [hCself]
        show nd1.selfAddr = a
        rw [hKself]
        exact hself
      have hCents' : cur'.entries = (pickseed nd1.entries kvp).2 := by
        rw [hCents]
        show [] ++ (pickseed nd1.entries kvp).2 = _
        simp
      have hNleaf' : newNode.isLeaf = false := by
        rw [hNleaf]
        show nd1.isLeaf = false
        rw [hKleaf]
        exact hlf
      have hNself' : newNode.selfAddr = d.fileSize := hNself
      have hNents' : newNode.entries = (pickseed nd1.entries kvp).1 := by
        rw [hNents]
        show [] ++ (pickseed nd1.entries kvp).1 = _
        simp
      have hlenW : 2 ≤ (nd1.entries ++ [kvp]).length := by
        rw [List.length_append]
        have h2 := get?_lt hN1pid
        simp only [List.length_singleton]
        omega
      obtain ⟨hperm, hP1ne, hP2ne⟩ := pickseed_spec nd1.entries kvp hlenW
      have hmem12 : ∀ e', e' ∈ (pickseed nd1.entries kvp).1 ∨
          e' ∈ (pickseed nd1.entries kvp).2 → e' ∈ nd1.entries ++ [kvp] := by
        intro e' he'
        exact hperm.mem_iff.mp (List.mem_append.mpr he')
      have hblk' : 0 < d.hdr.block_size := by
        rw [hh]
        exact hblk
      have hta : a ≠ d.fileSize := by omega
      set d3 : Disk := setNode (setNode
        ⟨d.hdr, (setNode d a nd1).nodes, d.fileSize + d.hdr.block_size⟩
        a cur') d.fileSize newNode with hd3
      have hd3hdr : d3.hdr = d.hdr := by
        rw [hd3, setNode_hdr, setNode_hdr]
      have hd3fs : d3.fileSize = d.fileSize + d.hdr.block_size := by
        rw [hd3, setNode_fileSize, setNode_fileSize]
      have hd3a : getNode d3 a = some cur' := by
        rw [hd3]
        rw [getNode_setNode_ne _ d.fileSize a newNode (fun h2 => hta h2.symm)]
        exact getNode_setNode_self _ a cur'
      have hd3t : getNode d3 d.fileSize = some newNode := by
        rw [hd3]
        exact getNode_setNode_self _ d.fileSize newNode
      have hag3 : ∀ x, x ≠ a → x ≠ d.fileSize → getNode d3 x = getNode d x := by
        intro x hxa hxt
        rw [hd3]
        rw [getNode_setNode_ne _ d.fileSize x newNode (fun h2 => hxt h2.symm)]
        rw [getNode_setNode_ne _ a x cur' (fun h2 => hxa h2.symm)]
        show getNode (setNode d a nd1) x = getNode d x
        exact getNode_setNode_ne d a x nd1 (fun h2 => hxa h2.symm)
      have hsub3 : ∀ e' ∈ nd1.entries ++ [kvp], ∀ y, Reach d e'.2 y →
          getNode d3 y = getNode d y := by
        intro e' he' y hy
        have hz := hallzone e' he' y hy
        refine hag3 y hz.2 ?_
        rcases hz.1 with ⟨_, hyF⟩ | ⟨_, hylt⟩
        · omega
        · omega
      have hreach3 : ∀ e' ∈ nd1.entries ++ [kvp], ∀ x,
          Reach d3 e'.2 x ↔ Reach d e'.2 x :=
        fun e' he' => reach_agree d d3 e'.2 (hsub3 e' he')
      have hgood3 : ∀ e' ∈ nd1.entries ++ [kvp], goodNodeB Hb d3 e'.2 = true := by
        intro e' he'
        exact goodNodeB_agree_grow d d3 hd3hdr (by rw [hd3fs]; omega) Hb e'.2
          (fun x hx => hsub3 e' he' x ⟨Hb, hx⟩) (hallgood e' he')
      have hsep3 : ∀ e' ∈ nd1.entries ++ [kvp], sepB Hb d3 e'.2 = true := by
        intro e' he'
        rw [sepB_agree d d3 Hb e'.2 (fun x hx => hsub3 e' he' x ⟨Hb, hx⟩)]
        exact hallsep e' he'
      have hcov3 : ∀ e' ∈ nd1.entries ++ [kvp], childCoverOkB d3 e' = true := by
        intro e' he'
        rw [childCoverOkB_agree d d3 e' (hsub3 e' he' e'.2 (reach_self d e'.2))]
        exact hallcov e' he'
      have hpairP : ((pickseed nd1.entries kvp).1 ++
          (pickseed nd1.entries kvp).2).Pairwise
          (fun e1 e2 => ∀ x, Reach d e1.2 x → ¬ Reach d e2.2 x) := by
        exact (List.Perm.pairwise_iff
          (fun h12 x hx hx2 => h12 x hx2 hx) hperm).mpr hallpair
      obtain ⟨hpairP1, hpairP2, hpairX⟩ := List.pairwise_append.mp hpairP
      have hcap1 : nd1.entries.length ≤ capacity d.hdr false := by
        rw [hKlen, hh]
        exact hcap
      have hlensum := hperm.length_eq
      have hcapP2 : (pickseed nd1.entries kvp).2.length ≤ capacity d.hdr false := by
        rw [List.length_append, List.length_append] at hlensum
        have h1len : 1 ≤ (pickseed nd1.entries kvp).1.length := by
          cases hE : (pickseed nd1.entries kvp).1 with
          | nil => exact absurd hE hP1ne
          | cons x t => simp
        simp only [List.length_singleton] at hlensum
        omega
      have hcapP1 : (pickseed nd1.entries kvp).1.length ≤ capacity d.hdr false := by
        rw [List.length_append, List.length_append] at hlensum
        have h2len : 1 ≤ (pickseed nd1.entries kvp).2.length := by
          cases hE : (pickseed nd1.entries kvp).2 with
          | nil => exact absurd hE hP2ne
          | cons x t => simp
        simp only [List.length_singleton] at hlensum
        omega
      have hgoodA : goodNodeB (Nat.succ Hb) d3 a = true := by
        rw [goodNodeB_succ_iff]
        refine ⟨cur', hd3a, hCself', hnz, ?_, ?_, ?_, ?_, Or.inr ?_⟩
        · rw [hd3fs]
          omega
        · rw [hd3hdr, hCleaf', hCents']
          exact hcapP2
        · rw [hCents']
          exact hP2ne
        · intro e' he'
          rw [hd3hdr]
          refine hallok e' ?_
          rw [hCents'] at he'
          exact hmem12 e' (Or.inr he')
        · intro e' he'
          rw [hCents'] at he'
          have hm := hmem12 e' (Or.inr he')
          exact ⟨hgood3 e' hm, hcov3 e' hm⟩
      have hsepA : sepB (Nat.succ Hb) d3 a = true := by
        refine sepB_succ_intro d3 Hb a cur' hd3a (Or.inr ⟨?_, ?_⟩)
        · rw [hCents']
          refine List.Pairwise.imp_of_mem ?_ hpairP2
          intro e1 e2 he1 he2 hR x hx hx2
          have hm1 := hmem12 e1 (Or.inr he1)
          have hm2 := hmem12 e2 (Or.inr he2)
          exact hR x ((hreach3 e1 hm1 x).mp ⟨Hb, hx⟩)
            ((hreach3 e2 hm2 x).mp ⟨Hb, hx2⟩)
        · intro e' he'
          rw [hCents'] at he'
          have hm := hmem12 e' (Or.inr he')
          refine ⟨?_, hsep3 e' hm⟩
          intro hmemX
          have hr := (hreach3 e' hm a).mp ⟨Hb, hmemX⟩
          exact (hallzone e' hm a hr).2 rfl
      have htnz : d.fileSize ≠ 0 := by omega
      have hgoodT : goodNodeB (Nat.succ Hb) d3 d.fileSize = true := by
        rw [goodNodeB_succ_iff]
        refine ⟨newNode, hd3t, hNself', htnz, ?_, ?_, ?_, ?_, Or.inr ?_⟩
        · rw [hd3fs]
          omega
        · rw [hd3hdr, hNleaf', hNents']
          exact hcapP1
        · rw [hNents']
          exact hP1ne
        · intro e' he'
          rw [hd3hdr]
          refine hallok e' ?_
          rw [hNents'] at he'
          exact hmem12 e' (Or.inl he')
        · intro e' he'
          rw [hNents'] at he'
          have hm := hmem12 e' (Or.inl he')
          exact ⟨hgood3 e' hm, hcov3 e' hm⟩
      have hsepT : sepB (Nat.succ Hb) d3 d.fileSize = true := by
        refine sepB_succ_intro d3 Hb d.fileSize newNode hd3t (Or.inr ⟨?_, ?_⟩)
        · rw [hNents']
          refine List.Pairwise.imp_of_mem ?_ hpairP1
          intro e1 e2 he1 he2 hR x hx hx2
          have hm1 := hmem12 e1 (Or.inl he1)
          have hm2 := hmem12 e2 (Or.inl he2)
          exact hR x ((hreach3 e1 hm1 x).mp ⟨Hb, hx⟩)
            ((hreach3 e2 hm2 x).mp ⟨Hb, hx2⟩)
        · intro e' he'
          rw [hNents'] at he'
          have hm := hmem12 e' (Or.inl he')
          refine ⟨?_, hsep3 e' hm⟩
          intro hmemX
          have hr := (hreach3 e' hm d.fileSize).mp ⟨Hb, hmemX⟩
          rcases (hallzone e' hm d.fileSize hr).1 with ⟨_, h2⟩ | ⟨_, h2⟩
          · omega
          · omega
      have hzA : ∀ x, Reach d3 a x →
          (Reach d0 a x ∧ x < F) ∨ (F ≤ x ∧ x < d3.fileSize) := by
        intro x hx
        rcases reach_node_decomp d3 a cur' hd3a x hx with hxa | ⟨e', he', hre⟩
        · rw [hxa]
          exact Or.inl ⟨reach_self d0 a, hFa⟩
        · rw [hCents'] at he'
          have hm := hmem12 e' (Or.inr he')
          have hr := (hreach3 e' hm x).mp hre
          rcases (hallzone e' hm x hr).1 with ⟨h01, h02⟩ | ⟨h03, h04⟩
          · exact Or.inl ⟨h01, h02⟩
          · refine Or.inr ⟨h03, ?_⟩
            rw [hd3fs]
            omega
      have hzT : ∀ x, Reach d3 d.fileSize x →
          (Reach d0 a x ∧ x < F) ∨ (F ≤ x ∧ x < d3.fileSize) := by
        intro x hx
        rcases reach_node_decomp d3 d.fileSize newNode hd3t x hx with hxa |
          ⟨e', he', hre⟩
        · rw [hxa]
          refine Or.inr ⟨by omega, ?_⟩
          rw [hd3fs]
          omega
        · rw [hNents'] at he'
          have hm := hmem12 e' (Or.inl he')
          have hr := (hreach3 e' hm x).mp hre
          rcases (hallzone e' hm x hr).1 with ⟨h01, h02⟩ | ⟨h03, h04⟩
          · exact Or.inl ⟨h01, h02⟩
          · refine Or.inr ⟨h03, ?_⟩
            rw [hd3fs]
            omega
      have hdisjTA : ∀ x, Reach d3 d.fileSize x → ¬ Reach d3 a x := by
        intro x hxT hxA
        rcases reach_node_decomp d3 d.fileSize newNode hd3t x hxT with hxt |
          ⟨e1, he1, hre1⟩
        · rcases reach_node_decomp d3 a cur' hd3a x hxA with hxa | ⟨e2, he2, hre2⟩
          · rw [hxa] at hxt
            exact hta hxt
          · rw [hCents'] at he2
            have hm2 := hmem12 e2 (Or.inr he2)
            have hr2 := (hreach3 e2 hm2 x).mp hre2
            rcases (hallzone e2 hm2 x hr2).1 with ⟨_, h2⟩ | ⟨_, h2⟩
            · omega
            · omega
        · rcases reach_node_decomp d3 a cur' hd3a x hxA with hxa | ⟨e2, he2, hre2⟩
          · rw [hNents'] at he1
            have hm1 := hmem12 e1 (Or.inl he1)
            have hr1 := (hreach3 e1 hm1 x).mp hre1
            rw [hxa] at hr1
            exact (hallzone e1 hm1 a hr1).2 rfl
          · rw [hNents'] at he1
            rw [hCents'] at he2
            have hm1 := hmem12 e1 (Or.inl he1)
            have hm2 := hmem12 e2 (Or.inr he2)
            have hr1 := (hreach3 e1 hm1 x).mp hre1
            have hr2 := (hreach3 e2 hm2 x).mp hre2
            exact hpairX e1 he1 e2 he2 x hr1 hr2
      have hMbrA : getNodeMbr cur' = some (coverOf (pickseed nd1.entries kvp).2) := by
        have h2 := getNodeMbr_coverOf cur' (by rw [hCents']; exact hP2ne)
        rw [hCents'] at h2
        exact h2
      have hMbrT : getNodeMbr newNode
          = some (coverOf (pickseed nd1.entries kvp).1) := by
        have h2 := getNodeMbr_coverOf newNode (by rw [hNents']; exact hP1ne)
        rw [hNents'] at h2
        exact h2
      have hchunks : ∀ Hc Hk1 Hk2 lc lk A1 A2, H ≤ Hc →
          collectGo Hk1 d c = some lc →
          collectGo Hk2 d kvp.2 = some lk →
          collectEnts (fun y => collectGo Hc d0 y) (nd.entries.take pid)
            = some A1 →
          collectEnts (fun y => collectGo Hc d0 y) (nd.entries.drop (pid + 1))
            = some A2 →
          ∃ CP1 CP2,
            collectGo (Nat.succ (max Hc (max Hk1 Hk2))) d3 a = some CP2 ∧
            collectGo (Nat.succ (max Hc (max Hk1 Hk2))) d3 d.fileSize
              = some CP1 ∧
            (CP2 ++ CP1).Perm ((A1 ++ (lc ++ A2)) ++ lk) := by
        intro Hc Hk1 Hk2 lc lk A1 A2 hHc hlcf hlkf hA1 hA2
        have hlcA : collectGo (max Hc (max Hk1 Hk2)) d c = some lc :=
          collectGo_fuel_mono d Hk1 _ c lc (by omega) hlcf
        have hlkA : collectGo (max Hc (max Hk1 Hk2)) d kvp.2 = some lk :=
          collectGo_fuel_mono d Hk2 _ kvp.2 lk (by omega) hlkf
        have hsagd3 : ∀ j e', j ≠ pid → nd.entries.get? j = some e' →
            ∀ y, Reach d0 e'.2 y → getNode d3 y = getNode d0 y := by
          intro j e' hj hje y hy
          have hp := (hF8 j e' hj hje).2.2.2 y hy
          have hyF : y < F := hp.2.2.2
          rw [hag3 y hp.2.1 (by omega)]
          exact hsag j e' hj hje y hy
        have hsibd3 : ∀ j e', j ≠ pid → nd.entries.get? j = some e' →
            collectGo (max Hc (max Hk1 Hk2)) d3 e'.2
              = collectGo Hc d0 e'.2 := by
          intro j e' hj hje
          obtain ⟨ch, hch⟩ := hsibchunk j e' hj hje Hc hHc
          rw [collectGo_agree d0 d3 (max Hc (max Hk1 Hk2)) e'.2
            (fun y hy => hsagd3 j e' hj hje y ⟨_, hy⟩)]
          rw [collectGo_fuel_mono d0 Hc _ e'.2 ch (by omega) hch, hch]
        have hlcd3 : collectGo (max Hc (max Hk1 Hk2)) d3 c = some lc := by
          rw [collectGo_agree d _ _ c ?_]
          · exact hlcA
          · intro y hy
            refine hag3 y ?_ ?_
            · intro h2
              rw [h2] at hy
              exact hnca ⟨_, hy⟩
            · rcases hcz y ⟨_, hy⟩ with ⟨_, h2⟩ | ⟨_, h2⟩
              · omega
              · omega
        have hlkd3 : collectGo (max Hc (max Hk1 Hk2)) d3 kvp.2 = some lk := by
          rw [collectGo_agree d _ _ kvp.2 ?_]
          · exact hlkA
          · intro y hy
            refine hag3 y ?_ ?_
            · intro h2
              rw [h2] at hy
              exact hnka ⟨_, hy⟩
            · rcases hkz y ⟨_, hy⟩ with ⟨_, h2⟩ | ⟨_, h2⟩
              · omega
              · omega
        have hA1d3 : collectEnts (fun y => collectGo (max Hc (max Hk1 Hk2)) d3 y)
            (nd.entries.take pid) = some A1 := by
          rw [collectEnts_congr_mem _ (fun y => collectGo Hc d0 y) _
            (fun e' he' => by
              obtain ⟨j, hj, hje⟩ := hmemtake e' he'
              exact hsibd3 j e' hj hje)]
          exact hA1
        have hA2d3 : collectEnts (fun y => collectGo (max Hc (max Hk1 Hk2)) d3 y)
            (nd.entries.drop (pid + 1)) = some A2 := by
          rw [collectEnts_congr_mem _ (fun y => collectGo Hc d0 y) _
            (fun e' he' => by
              obtain ⟨j, hj, hje⟩ := hmemdrop e' he'
              exact hsibd3 j e' hj hje)]
          exact hA2
        have hmid3 : collectEnts (fun y => collectGo (max Hc (max Hk1 Hk2)) d3 y)
            ((mk, c) :: nd.entries.drop (pid + 1)) = some (lc ++ A2) := by
          rw [collectEnts, hlcd3, hA2d3]
        have hkvd3 : collectEnts (fun y => collectGo (max Hc (max Hk1 Hk2)) d3 y)
            [kvp] = some (lk ++ []) := by
          rw [collectEnts, hlkd3, collectEnts]
        have hentsW : collectEnts (fun y => collectGo (max Hc (max Hk1 Hk2)) d3 y)
            (nd1.entries ++ [kvp])
            = some ((A1 ++ (lc ++ A2)) ++ (lk ++ [])) := by
          refine collectEnts_append _ _ _ _ _ ?_ hkvd3
          rw [hE1, List.set_eq_take_cons_drop (mk, c) hpidlt]
          exact collectEnts_append _ _ _ _ _ hA1d3 hmid3
        have hentEx : ∀ e' ∈ nd1.entries ++ [kvp],
            ∃ ch, collectGo (max Hc (max Hk1 Hk2)) d3 e'.2 = some ch := by
          intro e' he'
          rcases List.mem_append.mp he' with he1 | he2
          · rw [hE1, List.set_eq_take_cons_drop (mk, c) hpidlt] at he1
            rcases List.mem_append.mp he1 with ht | hcd
            · obtain ⟨j, hj, hje⟩ := hmemtake e' ht
              obtain ⟨ch, hch⟩ := hsibchunk j e' hj hje Hc hHc
              exact ⟨ch, (hsibd3 j e' hj hje).trans hch⟩
            · rcases List.mem_cons.mp hcd with rfl | hd
              · exact ⟨lc, hlcd3⟩
              · obtain ⟨j, hj, hje⟩ := hmemdrop e' hd
                obtain ⟨ch, hch⟩ := hsibchunk j e' hj hje Hc hHc
                exact ⟨ch, (hsibd3 j e' hj hje).trans hch⟩
          · have hek : e' = kvp := List.mem_singleton.mp he2
            rw [hek]
            exact ⟨lk, hlkd3⟩
        obtain ⟨CP1, hCP1⟩ := collectEnts_exists
          (fun y => collectGo (max Hc (max Hk1 Hk2)) d3 y)
          (pickseed nd1.entries kvp).1
          (fun e' he' => hentEx e' (hmem12 e' (Or.inl he')))
        obtain ⟨CP2, hCP2⟩ := collectEnts_exists
          (fun y => collectGo (max Hc (max Hk1 Hk2)) d3 y)
          (pickseed nd1.entries kvp).2
          (fun e' he' => hentEx e' (hmem12 e' (Or.inr he')))
        have hcat : collectEnts (fun y => collectGo (max Hc (max Hk1 Hk2)) d3 y)
            ((pickseed nd1.entries kvp).1 ++ (pickseed nd1.entries kvp).2)
            = some (CP1 ++ CP2) := collectEnts_append _ _ _ _ _ hCP1 hCP2
        obtain ⟨cW, hcW, hpermC⟩ := collectEnts_perm
          (fun y => collectGo (max Hc (max Hk1 Hk2)) d3 y)
          (nd1.entries ++ [kvp])
          ((pickseed nd1.entries kvp).1 ++ (pickseed nd1.entries kvp).2)
          hperm.symm ((A1 ++ (lc ++ A2)) ++ (lk ++ [])) hentsW
        have hcWeq : cW = CP1 ++ CP2 := by
          have h2 := hcW.symm.trans hcat
          injection h2
        rw [hcWeq] at hpermC
        have hla3 : collectGo (Nat.succ (max Hc (max Hk1 Hk2))) d3 a
            = some CP2 := by
          rw [collectGo, hd3a]
          dsimp only
          rw [hCleaf']
          simp only [if_neg (by simp : ¬(false = true))]
          rw [hCents']
          exact hCP2
        have hlt3 : collectGo (Nat.succ (max Hc (max Hk1 Hk2))) d3 d.fileSize
            = some CP1 := by
          rw [collectGo, hd3t]
          dsimp only
          rw [hNleaf']
          simp only [if_neg (by simp : ¬(false = true))]
          rw [hNents']
          exact hCP1
        refine ⟨CP1, CP2, hla3, hlt3, ?_⟩
        have h2 : (CP2 ++ CP1).Perm (CP1 ++ CP2) := List.perm_append_comm
        have h3 := h2.trans hpermC.symm
        rw [List.append_nil] at h3
        exact h3
      by_cases hisroot : cur'.selfAddr = d.hdr.root_addr
      · -- the split node was the root: promote a fresh root over both halves
        rw [if_pos hisroot] at hsplit
        cases hr1 : nodeInsert (capacity d.hdr false) d.hdr.dimensions
            ⟨false, d.fileSize + d.hdr.block_size, []⟩
            (coverOf (pickseed nd1.entries kvp).2, a) with
        | none =>
          rw [hr1] at hsplit
          exact absurd hsplit (by simp)
        | some root1 =>
        rw [hr1] at hsplit
        dsimp only at hsplit
        cases hr2 : nodeInsert (capacity d.hdr false) d.hdr.dimensions root1
            (coverOf (pickseed nd1.entries kvp).1, d.fileSize) with
        | none =>
          rw [hr2] at hsplit
          exact absurd hsplit (by simp)
        | some root2 =>
        rw [hr2] at hsplit
        dsimp only at hsplit
        obtain ⟨hR1eq, hR1lt, hR1len⟩ := nodeInsert_some _ _ _ _ root1 hr1
        obtain ⟨hR2eq, hR2lt, hR2len⟩ := nodeInsert_some _ _ _ _ root2 hr2
        have hRents : root2.entries
            = [(coverOf (pickseed nd1.entries kvp).2, a),
               (coverOf (pickseed nd1.entries kvp).1, d.fileSize)] := by
          rw [hR2eq]
          dsimp only
          rw [hR1eq]
          rfl
        have hRleaf : root2.isLeaf = false := by
          rw [hR2eq]
          dsimp only
          rw [hR1eq]
        have hRself : root2.selfAddr = d.fileSize + d.hdr.block_size := by
          rw [hR2eq]
          dsimp only
          rw [hR1eq]
        have h1len : root1.entries.length = 1 := by
          rw [hR1eq]
          rfl
        obtain rfl : (⟨⟨d.hdr.dimensions, d.hdr.key_size, d.hdr.value_size,
            d.hdr.block_size, d.fileSize + d.hdr.block_size⟩,
          (setNode ⟨d.hdr, d3.nodes,
              d.fileSize + d.hdr.block_size + d.hdr.block_size⟩
            (d.fileSize + d.hdr.block_size) root2).nodes,
          d.fileSize + d.hdr.block_size + d.hdr.block_size⟩ : Disk) = d' :=
          Option.some.inj hsplit
        set D5 : Disk := setNode ⟨d.hdr, d3.nodes,
          d.fileSize + d.hdr.block_size + d.hdr.block_size⟩
          (d.fileSize + d.hdr.block_size) root2 with hD5
        have hD5hdr : D5.hdr = d.hdr := by
          rw [hD5, setNode_hdr]
        have hD5fs : D5.fileSize
            = d.fileSize + d.hdr.block_size + d.hdr.block_size := by
          rw [hD5, setNode_fileSize]
        have hagD5 : ∀ x, x ≠ d.fileSize + d.hdr.block_size →
            getNode D5 x = getNode d3 x := by
          intro x hx
          rw [hD5, getNode_setNode_ne _ _ _ root2 (fun h2 => hx h2.symm)]
          rfl
        have hgetD5rt : getNode D5 (d.fileSize + d.hdr.block_size) = some root2 := by
          rw [hD5]
          exact getNode_setNode_self _ _ _
        have hboundA : ∀ y, Reach d3 a y → y < d.fileSize + d.hdr.block_size := by
          intro y hy
          rcases hzA y hy with ⟨_, h2⟩ | ⟨_, h2⟩
          · omega
          · rw [hd3fs] at h2
            omega
        have hboundT : ∀ y, Reach d3 d.fileSize y →
            y < d.fileSize + d.hdr.block_size := by
          intro y hy
          rcases hzT y hy with ⟨_, h2⟩ | ⟨_, h2⟩
          · omega
          · rw [hd3fs] at h2
            omega
        have hgoodA5 : goodNodeB (Nat.succ Hb) D5 a = true := by
          refine goodNodeB_agree_grow d3 D5 (hD5hdr.trans hd3hdr.symm)
            (by rw [hD5fs, hd3fs]; omega) (Nat.succ Hb) a ?_ hgoodA
          intro x hx
          exact hagD5 x (by have := hboundA x ⟨Nat.succ Hb, hx⟩; omega)
        have hgoodT5 : goodNodeB (Nat.succ Hb) D5 d.fileSize = true := by
          refine goodNodeB_agree_grow d3 D5 (hD5hdr.trans hd3hdr.symm)
            (by rw [hD5fs, hd3fs]; omega) (Nat.succ Hb) d.fileSize ?_ hgoodT
          intro x hx
          exact hagD5 x (by have := hboundT x ⟨Nat.succ Hb, hx⟩; omega)
        have hsepA5 : sepB (Nat.succ Hb) D5 a = true := by
          rw [sepB_agree d3 D5 (Nat.succ Hb) a
            (fun x hx => hagD5 x (by have := hboundA x ⟨Nat.succ Hb, hx⟩; omega))]
          exact hsepA
        have hsepT5 : sepB (Nat.succ Hb) D5 d.fileSize = true := by
          rw [sepB_agree d3 D5 (Nat.succ Hb) d.fileSize
            (fun x hx => hagD5 x (by have := hboundT x ⟨Nat.succ Hb, hx⟩; omega))]
          exact hsepT
        have hreachA5 : ∀ x, Reach D5 a x ↔ Reach d3 a x :=
          reach_agree d3 D5 a
            (fun y hy => hagD5 y (by have := hboundA y hy; omega))
        have hreachT5 : ∀ x, Reach D5 d.fileSize x ↔ Reach d3 d.fileSize x :=
          reach_agree d3 D5 d.fileSize
            (fun y hy => hagD5 y (by have := hboundT y hy; omega))
        have hkeysW : ∀ e' ∈ nd1.entries ++ [kvp],
            (e'.1 : MBR).length = 2 * d.hdr.dimensions
              ∧ validMbr e'.1 = true :=
          fun e' he' => (entryOkB_iff _ _).mp (hallok e' he')
        obtain ⟨hcl2, hcv2, _⟩ := coverOf_spec (pickseed nd1.entries kvp).2
          (2 * d.hdr.dimensions) hP2ne
          (fun e' he' => hkeysW e' (hmem12 e' (Or.inr he')))
        obtain ⟨hcl1, hcv1, _⟩ := coverOf_spec (pickseed nd1.entries kvp).1
          (2 * d.hdr.dimensions) hP1ne
          (fun e' he' => hkeysW e' (hmem12 e' (Or.inl he')))
        have hD5a : getNode D5 a = some cur' := by
          rw [hagD5 a (by omega)]
          exact hd3a
        have hD5t : getNode D5 d.fileSize = some newNode := by
          rw [hagD5 d.fileSize (by omega)]
          exact hd3t
        have hgoodRoot : goodNodeB (Nat.succ (Nat.succ Hb)) D5
            (d.fileSize + d.hdr.block_size) = true := by
          rw [goodNodeB_succ_iff]
          refine ⟨root2, hgetD5rt, hRself, by omega, ?_, ?_, ?_, ?_, Or.inr ?_⟩
          · rw [hD5fs]
            omega
          · rw [hD5hdr, hRleaf, hRents]
            rw [h1len] at hR2lt
            show 2 ≤ capacity d.hdr false
            omega
          · rw [hRents]
            simp
          · intro e' he'
            rw [hD5hdr]
            rw [hRents] at he'
            rcases List.mem_cons.mp he' with rfl | he'
            · exact (entryOkB_iff _ _).mpr ⟨hcl2, hcv2⟩
            · have hee : e' = (coverOf (pickseed nd1.entries kvp).1, d.fileSize) :=
                List.mem_singleton.mp he'
              rw [hee]
              exact (entryOkB_iff _ _).mpr ⟨hcl1, hcv1⟩
          · intro e' he'
            rw [hRents] at he'
            rcases List.mem_cons.mp he' with rfl | he'
            · refine ⟨hgoodA5, ?_⟩
              rw [childCoverOkB]
              dsimp only
              rw [hD5a]
              dsimp only
              rw [hMbrA]
              exact mbrGe_refl _
            · have hee : e' = (coverOf (pickseed nd1.entries kvp).1, d.fileSize) :=
                List.mem_singleton.mp he'
              rw [hee]
              refine ⟨hgoodT5, ?_⟩
              rw [childCoverOkB]
              dsimp only
              rw [hD5t]
              dsimp only
              rw [hMbrT]
              exact mbrGe_refl _
        have hsepRoot : sepB (Nat.succ (Nat.succ Hb)) D5
            (d.fileSize + d.hdr.block_size) = true := by
          refine sepB_succ_intro D5 (Nat.succ Hb) (d.fileSize + d.hdr.block_size)
            root2 hgetD5rt (Or.inr ⟨?_, ?_⟩)
          · rw [hRents]
            refine List.Pairwise.cons ?_ (List.pairwise_singleton _ _)
            intro e2 he2 x hx hx2
            have hee : e2 = (coverOf (pickseed nd1.entries kvp).1, d.fileSize) :=
              List.mem_singleton.mp he2
            rw [hee] at hx2
            have hrA : Reach d3 a x := (hreachA5 x).mp ⟨Nat.succ Hb, hx⟩
            have hrT : Reach d3 d.fileSize x :=
              (hreachT5 x).mp ⟨Nat.succ Hb, hx2⟩
            exact hdisjTA x hrT hrA
          · intro e' he'
            rw [hRents] at he'
            rcases List.mem_cons.mp he' with rfl | he'
            · refine ⟨?_, hsepA5⟩
              intro hmemX
              have hr := (hreachA5 (d.fileSize + d.hdr.block_size)).mp
                ⟨Nat.succ Hb, hmemX⟩
              have := hboundA _ hr
              omega
            · have hee : e' = (coverOf (pickseed nd1.entries kvp).1, d.fileSize) :=
                List.mem_singleton.mp he'
              rw [hee]
              refine ⟨?_, hsepT5⟩
              intro hmemX
              have hr := (hreachT5 (d.fileSize + d.hdr.block_size)).mp
                ⟨Nat.succ Hb, hmemX⟩
              have := hboundT _ hr
              omega
        refine ⟨⟨?_, ?_, ?_, ?_⟩, ⟨Nat.succ (Nat.succ Hb), ?_, ?_⟩, ?_⟩
        · show d.hdr.dimensions = d0.hdr.dimensions
          rw [hh]
        · show d.hdr.key_size = d0.hdr.key_size
          rw [hh]
        · show d.hdr.value_size = d0.hdr.value_size
          rw [hh]
        · show d.hdr.block_size = d0.hdr.block_size
          rw [hh]
        · have hd'eq : (⟨⟨d.hdr.dimensions, d.hdr.key_size, d.hdr.value_size,
              d.hdr.block_size, d.fileSize + d.hdr.block_size⟩, D5.nodes,
              d.fileSize + d.hdr.block_size + d.hdr.block_size⟩ : Disk)
              = { D5 with hdr := { D5.hdr with
                  root_addr := d.fileSize + d.hdr.block_size } } := by
            rw [hD5, setNode_hdr, setNode_fileSize]
          show goodNodeB (Nat.succ (Nat.succ Hb))
            (⟨⟨d.hdr.dimensions, d.hdr.key_size, d.hdr.value_size,
              d.hdr.block_size, d.fileSize + d.hdr.block_size⟩, D5.nodes,
              d.fileSize + d.hdr.block_size + d.hdr.block_size⟩ : Disk)
            (d.fileSize + d.hdr.block_size) = true
          rw [hd'eq]
          exact (goodNodeB_set_root D5 (d.fileSize + d.hdr.block_size)
            (Nat.succ (Nat.succ Hb)) (d.fileSize + d.hdr.block_size)).trans
            hgoodRoot
        · have hd'eq : (⟨⟨d.hdr.dimensions, d.hdr.key_size, d.hdr.value_size,
              d.hdr.block_size, d.fileSize + d.hdr.block_size⟩, D5.nodes,
              d.fileSize + d.hdr.block_size + d.hdr.block_size⟩ : Disk)
              = { D5 with hdr := { D5.hdr with
                  root_addr := d.fileSize + d.hdr.block_size } } := by
            rw [hD5, setNode_hdr, setNode_fileSize]
          show sepB (Nat.succ (Nat.succ Hb))
            (⟨⟨d.hdr.dimensions, d.hdr.key_size, d.hdr.value_size,
              d.hdr.block_size, d.fileSize + d.hdr.block_size⟩, D5.nodes,
              d.fileSize + d.hdr.block_size + d.hdr.block_size⟩ : Disk)
            (d.fileSize + d.hdr.block_size) = true
          rw [hd'eq]
          exact (sepB_nodes_congr
            { D5 with hdr := { D5.hdr with
                root_addr := d.fileSize + d.hdr.block_size } } D5 rfl
            (Nat.succ (Nat.succ Hb)) (d.fileSize + d.hdr.block_size)).trans
            hsepRoot
        · -- the new root collects both halves; the original root was `a`
          intro Hc l0 lc0 lc lk hHc hl0 hlc0 hlcE hlkE
          obtain ⟨Hk1, hlcf⟩ := hlcE
          obtain ⟨Hk2, hlkf⟩ := hlkE
          obtain ⟨A1, A2, hA1, hA2, hla0⟩ := hbuild0 Hc lc0 hHc hlc0
          obtain ⟨CP1, CP2, hla3, hlt3, hstep⟩ :=
            hchunks Hc Hk1 Hk2 lc lk A1 A2 hHc hlcf hlkf hA1 hA2
          have haroot : a = d0.hdr.root_addr := by
            rw [← hCself', hisroot, hh]
          have hl0a : l0 = A1 ++ (lc0 ++ A2) := by
            have h2 : collectGo (Nat.succ Hc) d0 d0.hdr.root_addr = some l0 :=
              collectGo_fuel_mono d0 Hc _ _ l0 (by omega) hl0
            rw [← haroot] at h2
            have h3 := h2.symm.trans hla0
            injection h3
          have hla5 : collectGo (Nat.succ (max Hc (max Hk1 Hk2))) D5 a
              = some CP2 := by
            rw [collectGo_agree d3 D5 _ a
              (fun y hy => hagD5 y (by have := hboundA y ⟨_, hy⟩; omega))]
            exact hla3
          have hlt5 : collectGo (Nat.succ (max Hc (max Hk1 Hk2))) D5 d.fileSize
              = some CP1 := by
            rw [collectGo_agree d3 D5 _ d.fileSize
              (fun y hy => hagD5 y (by have := hboundT y ⟨_, hy⟩; omega))]
            exact hlt3
          have hone : collectEnts (fun y =>
              collectGo (Nat.succ (max Hc (max Hk1 Hk2))) D5 y)
              [(coverOf (pickseed nd1.entries kvp).1, d.fileSize)]
              = some (CP1 ++ []) := by
            rw [collectEnts, hlt5, collectEnts]
          have hroot5 : collectGo (Nat.succ (Nat.succ (max Hc (max Hk1 Hk2)))) D5
              (d.fileSize + d.hdr.block_size) = some (CP2 ++ (CP1 ++ [])) := by
            rw [collectGo, hgetD5rt]
            dsimp only
            rw [hRleaf]
            simp only [if_neg (by simp : ¬(false = true))]
            rw [hRents]
            rw [collectEnts, hla5, hone]
          refine ⟨Nat.succ (Nat.succ (max Hc (max Hk1 Hk2))), CP2 ++ (CP1 ++ []),
            ?_, ?_⟩
          · show collectGo (Nat.succ (Nat.succ (max Hc (max Hk1 Hk2))))
              (⟨⟨d.hdr.dimensions, d.hdr.key_size, d.hdr.value_size,
                d.hdr.block_size, d.fileSize + d.hdr.block_size⟩, D5.nodes,
                d.fileSize + d.hdr.block_size + d.hdr.block_size⟩ : Disk)
              (d.fileSize + d.hdr.block_size) = some (CP2 ++ (CP1 ++ []))
            rw [collectGo_nodes_congr (⟨⟨d.hdr.dimensions, d.hdr.key_size,
              d.hdr.value_size, d.hdr.block_size,
              d.fileSize + d.hdr.block_size⟩, D5.nodes,
              d.fileSize + d.hdr.block_size + d.hdr.block_size⟩ : Disk) D5 rfl]
            exact hroot5
          · rw [List.append_nil, hl0a]
            refine (List.Perm.append_right lc0 hstep).trans ?_
            rw [← Multiset.coe_eq_coe]
            simp only [← Multiset.coe_add]
            ac_rfl
      · -- recurse upward with the new sibling entry
        rw [if_neg hisroot] at hsplit
        have hag0' : ∀ x, x < F → ¬ Reach d0 a x →
            getNode d3 x = getNode d0 x := by
          intro x hxF hnrx
          have hxa : x ≠ a := by
            intro h2
            rw [h2] at hnrx
            exact hnrx (reach_self d0 a)
          rw [hag3 x hxa (by omega)]
          refine hag0 x hxF ?_
          intro h2
          exact hnrx (hd0c_in_a h2)
        obtain ⟨hdrc, goodc, collc⟩ := ih d0 d3 H (Nat.succ Hb) F (c :: D) a
          (coverOf (pickseed nd1.entries kvp).1, d.fileSize)
          (coverOf (pickseed nd1.entries kvp).2) d' hsplit
          (Chain_weaken d0 H F false (c :: D) a rest hrest) (by omega)
          (hd3hdr.trans hh) (by rw [hd3fs]; omega) hF hblk
          hag0' hgoodA hsepA ⟨cur', hd3a, hMbrA⟩ hzA hgoodT hsepT
          ⟨newNode, hd3t, hMbrT⟩ hzT hdisjTA
        refine ⟨hdrc, goodc, ?_⟩
        intro Hc l0 lc0 lc lk hHc hl0 hlc0 hlcE hlkE
        obtain ⟨Hk1, hlcf⟩ := hlcE
        obtain ⟨Hk2, hlkf⟩ := hlkE
        obtain ⟨A1, A2, hA1, hA2, hla0⟩ := hbuild0 Hc lc0 hHc hlc0
        obtain ⟨CP1, CP2, hla3, hlt3, hstep⟩ :=
          hchunks Hc Hk1 Hk2 lc lk A1 A2 hHc hlcf hlkf hA1 hA2
        have hl0' : collectGo (Nat.succ Hc) d0 d0.hdr.root_addr = some l0 :=
          collectGo_fuel_mono d0 Hc _ _ l0 (by omega) hl0
        obtain ⟨Hc2, l', hl', hpermI⟩ := collc (Nat.succ Hc) l0
          (A1 ++ (lc0 ++ A2)) CP2 CP1 (by omega) hl0' hla0 ⟨_, hla3⟩ ⟨_, hlt3⟩
        refine ⟨Hc2, l', hl', ?_⟩
        exact perm_cancel_mid l' lc0 l0 lc lk A1 A2
          (hpermI.trans (List.Perm.append_left l0 hstep))

theorem good_reach_good (d : Disk) : ∀ h a, goodNodeB h d a = true →
    ∀ x, x ∈ subAddrs h d a → goodNodeB h d x = true := by
  intro h
  induction h with
  | zero => intro a hg; simp [goodNodeB] at hg
  | succ h ih =>
    intro a hg x hx
    have hg' := hg
    rw [goodNodeB_succ_iff] at hg'
    obtain ⟨nd, h1, _, _, _, _, h6, _, h8⟩ := hg'
    rw [subAddrs, h1] at hx
    dsimp only at hx
    rcases List.mem_cons.mp hx with rfl | hx
    · exact hg
    · by_cases hl : nd.isLeaf
      · rw [if_pos hl] at hx
        simp at hx
      · rw [if_neg hl] at hx
        obtain ⟨e, he, hxe⟩ := List.mem_flatMap.mp hx
        rcases h8 with hleaf | hall
        · exact absurd hleaf hl
        · exact goodNodeB_mono d h (Nat.succ h) x (by omega)
            (ih e.2 (hall e he).1 x hxe)

/-- On a good tree, every inner entry's key contains (axis-wise)
every MBR collected in the subtree of its child. -/
theorem wf_covering_containment (d' : Disk) (H2 : Nat)
    (hg2 : goodNodeB H2 d' d'.hdr.root_addr = true) :
    ∀ x, Reach d' d'.hdr.root_addr x →
      ∀ nd, getNode d' x = some nd → nd.isLeaf = false →
      ∀ e ∈ nd.entries, ∃ l, collectGo H2 d' e.2 = some l ∧ l ≠ [] ∧
        ∀ p ∈ l, mbrGe e.1 p.1 = true := by
  intro x hrx nd hnd hinner e he
  have hxm := reach_good_mem d' H2 d'.hdr.root_addr hg2 x hrx
  have hgx : goodNodeB H2 d' x = true :=
    good_reach_good d' H2 d'.hdr.root_addr hg2 x hxm
  cases H2 with
  | zero => simp [goodNodeB] at hgx
  | succ h2 =>
  rw [goodNodeB_succ_iff] at hgx
  obtain ⟨nd', h1, _, _, _, _, _, hok, h8⟩ := hgx
  have hnn : nd' = nd := by
    have h2e := h1.symm.trans hnd
    injection h2e
  subst hnn
  rcases h8 with hleaf | hall
  · rw [hinner] at hleaf
    exact absurd hleaf (by simp)
  · obtain ⟨cnd, l, cov, hcnd, hl, hcovM, hlne, hcovlen, _hcovval, hbound⟩ :=
      collect_good d' h2 e.2 (hall e he).1
    obtain ⟨cnd2, cov2, hcnd2, hcov2, hge⟩ :=
      (childCoverOkB_iff d' e).mp (hall e he).2
    have hcc : cnd2 = cnd := by
      have h2e := hcnd2.symm.trans hcnd
      injection h2e
    subst hcc
    have hvv : cov = cov2 := by
      have h2e := hcovM.symm.trans hcov2
      injection h2e
    subst hvv
    refine ⟨l, collectGo_fuel_mono d' h2 (Nat.succ h2) e.2 l (by omega) hl,
      hlne, ?_⟩
    intro p hp
    have hkey : (e.1 : MBR).length = 2 * d'.hdr.dimensions :=
      ((entryOkB_iff _ _).mp (hok e he)).1
    refine mbrGe_trans e.1 cov p.1 ?_ hge (hbound p hp).2.2
    rw [hkey, hcovlen]

theorem reach_leaf_eq (d : Disk) (a : Nat) (nd : Node)
    (h1 : getNode d a = some nd) (hl : nd.isLeaf = true) :
    ∀ x, Reach d a x → x = a := by
  intro x hx
  obtain ⟨hf, hx⟩ := hx
  cases hf with
  | zero =>
    rw [subAddrs] at hx
    exact List.mem_singleton.mp hx
  | succ h =>
    rw [subAddrs, h1] at hx
    dsimp only at hx
    rcases List.mem_cons.mp hx with rfl | hx
    · rfl
    · rw [if_pos hl] at hx
      simp at hx

theorem perm_cancel_right (l' l0 m k : List (MBR × Nat))
    (h : (l' ++ m).Perm (l0 ++ (m ++ k))) : l'.Perm (l0 ++ k) := by
  rw [← Multiset.coe_eq_coe] at h ⊢
  simp only [← Multiset.coe_add] at h ⊢
  have h2 : (↑l' : Multiset (MBR × Nat)) + ↑m = ↑l0 + ↑k + ↑m := by
    rw [h]
    ac_rfl
  exact add_right_cancel h2

theorem goodNodeB_leaf_intro (d : Disk) (h : Nat) (a : Nat) (nd : Node)
    (h1 : getNode d a = some nd) (hl : nd.isLeaf = true)
    (hself : nd.selfAddr = a) (hnz : a ≠ 0) (hfs : a < d.fileSize)
    (hcap : nd.entries.length ≤ capacity d.hdr true)
    (hne : nd.entries ≠ [])
    (hok : ∀ e ∈ nd.entries, entryOkB d.hdr.dimensions e = true) :
    goodNodeB (Nat.succ h) d a = true := by
  rw [goodNodeB_succ_iff]
  refine ⟨nd, h1, hself, hnz, hfs, ?_, hne, hok, Or.inl hl⟩
  rw [hl]
  exact hcap

theorem collectGo_leaf (h : Nat) (d : Disk) (a : Nat) (nd : Node)
    (h1 : getNode d a = some nd) (hl : nd.isLeaf = true) :
    collectGo (Nat.succ h) d a = some nd.entries := by
  rw [collectGo, h1]
  dsimp only
  rw [if_pos hl]

/-- `RTree::Insert` into an empty index (`root_addr = 0`): a fresh
leaf is allocated, made the root and given the single entry. -/
theorem rtreeInsert_empty_spec (d : Disk) (kvp : MBR × Nat) (d' : Disk)
    (hr : d.hdr.root_addr = 0) (hfs : 0 < d.fileSize)
    (hblk : 0 < d.hdr.block_size)
    (hkv : validMbr kvp.1 = true)
    (hins : rtreeInsert d kvp = some d') :
    (d'.hdr.dimensions = d.hdr.dimensions ∧ d'.hdr.key_size = d.hdr.key_size ∧
     d'.hdr.value_size = d.hdr.value_size ∧
     d'.hdr.block_size = d.hdr.block_size) ∧
    (∃ H2, goodNodeB H2 d' d'.hdr.root_addr = true ∧
      sepB H2 d' d'.hdr.root_addr = true) ∧
    (∃ Hc2, collectGo Hc2 d' d'.hdr.root_addr = some [kvp]) := by
  rw [rtreeInsert, if_pos hr] at hins
  simp only [allocate] at hins
  cases hni : nodeInsert
      (capacity (setNode ⟨⟨d.hdr.dimensions, d.hdr.key_size, d.hdr.value_size,
          d.hdr.block_size, d.fileSize⟩, d.nodes,
          d.fileSize + d.hdr.block_size⟩ d.fileSize
        ⟨true, d.fileSize, []⟩).hdr true)
      (setNode ⟨⟨d.hdr.dimensions, d.hdr.key_size, d.hdr.value_size,
          d.hdr.block_size, d.fileSize⟩, d.nodes,
          d.fileSize + d.hdr.block_size⟩ d.fileSize
        ⟨true, d.fileSize, []⟩).hdr.dimensions
      ⟨true, d.fileSize, []⟩ kvp with
  | none =>
    rw [hni] at hins
    exact absurd hins (by simp)
  | some nd2 =>
  rw [hni] at hins
  dsimp only [Option.map] at hins
  obtain ⟨hnd2eq, hlt, hklen⟩ := nodeInsert_some _ _ _ _ nd2 hni
  obtain rfl : setNode (setNode ⟨⟨d.hdr.dimensions, d.hdr.key_size,
      d.hdr.value_size, d.hdr.block_size, d.fileSize⟩, d.nodes,
      d.fileSize + d.hdr.block_size⟩ d.fileSize ⟨true, d.fileSize, []⟩)
      d.fileSize nd2 = d' := Option.some.inj hins
  have hL2 : nd2.isLeaf = true := by rw [hnd2eq]
  have hS2 : nd2.selfAddr = d.fileSize := by rw [hnd2eq]
  have hE2 : nd2.entries = [kvp] := by
    rw [hnd2eq]
    simp
  have hdh1 : (setNode ⟨⟨d.hdr.dimensions, d.hdr.key_size, d.hdr.value_size,
      d.hdr.block_size, d.fileSize⟩, d.nodes,
      d.fileSize + d.hdr.block_size⟩ d.fileSize
      ⟨true, d.fileSize, []⟩).hdr
      = ⟨d.hdr.dimensions, d.hdr.key_size, d.hdr.value_size,
         d.hdr.block_size, d.fileSize⟩ := setNode_hdr _ _ _
  have hdh : (setNode (setNode ⟨⟨d.hdr.dimensions, d.hdr.key_size,
      d.hdr.value_size, d.hdr.block_size, d.fileSize⟩, d.nodes,
      d.fileSize + d.hdr.block_size⟩ d.fileSize ⟨true, d.fileSize, []⟩)
      d.fileSize nd2).hdr
      = ⟨d.hdr.dimensions, d.hdr.key_size, d.hdr.value_size,
         d.hdr.block_size, d.fileSize⟩ := by
    rw [setNode_hdr, setNode_hdr]
  have hdfs : (setNode (setNode ⟨⟨d.hdr.dimensions, d.hdr.key_size,
      d.hdr.value_size, d.hdr.block_size, d.fileSize⟩, d.nodes,
      d.fileSize + d.hdr.block_size⟩ d.fileSize ⟨true, d.fileSize, []⟩)
      d.fileSize nd2).fileSize = d.fileSize + d.hdr.block_size := by
    rw [setNode_fileSize, setNode_fileSize]
  have hda : getNode (setNode (setNode ⟨⟨d.hdr.dimensions, d.hdr.key_size,
      d.hdr.value_size, d.hdr.block_size, d.fileSize⟩, d.nodes,
      d.fileSize + d.hdr.block_size⟩ d.fileSize ⟨true, d.fileSize, []⟩)
      d.fileSize nd2) d.fileSize = some nd2 := getNode_setNode_self _ _ _
  have hroot : (setNode (setNode ⟨⟨d.hdr.dimensions, d.hdr.key_size,
      d.hdr.value_size, d.hdr.block_size, d.fileSize⟩, d.nodes,
      d.fileSize + d.hdr.block_size⟩ d.fileSize ⟨true, d.fileSize, []⟩)
      d.fileSize nd2).hdr.root_addr = d.fileSize := by
    rw [hdh]
  refine ⟨?_, ⟨Nat.succ 0, ?_, ?_⟩, ⟨Nat.succ 0, ?_⟩⟩
  · rw [hdh]
    exact ⟨rfl, rfl, rfl, rfl⟩
  · rw [hroot]
    refine goodNodeB_leaf_intro _ 0 d.fileSize nd2 hda hL2 hS2 (by omega) ?_
      ?_ ?_ ?_
    · rw [hdfs]
      omega
    · rw [hdh1] at hlt
      have hlt2 : 0 < capacity ⟨d.hdr.dimensions, d.hdr.key_size,
          d.hdr.value_size, d.hdr.block_size, d.fileSize⟩ true := hlt
      rw [hdh, hE2]
      show 1 ≤ _
      omega
    · rw [hE2]
      simp
    · intro e he
      rw [hE2] at he
      rw [List.mem_singleton.mp he, hdh]
      refine (entryOkB_iff _ _).mpr ⟨?_, hkv⟩
      rw [hdh1] at hklen
      exact hklen
  · rw [hroot]
    exact sepB_succ_intro _ 0 d.fileSize nd2 hda (Or.inl hL2)
  · rw [hroot]
    rw [collectGo_leaf 0 _ d.fileSize nd2 hda hL2]
    rw [hE2]
/-- `RTree::Insert` into a non-empty well-formed index: the schema is
preserved, the tree stays good and separated, and the collected leaf
entries gain exactly the new pair (up to order). -/
theorem rtreeInsert_spec (d : Disk) (kvp : MBR × Nat) (H : Nat) (d' : Disk)
    (hg : goodNodeB H d d.hdr.root_addr = true)
    (hs : sepB H d d.hdr.root_addr = true)
    (hblk : 0 < d.hdr.block_size)
    (hkl : (kvp.1 : MBR).length = 2 * d.hdr.dimensions)
    (hkv : validMbr kvp.1 = true)
    (hins : rtreeInsert d kvp = some d') :
    (d'.hdr.dimensions = d.hdr.dimensions ∧ d'.hdr.key_size = d.hdr.key_size ∧
     d'.hdr.value_size = d.hdr.value_size ∧
     d'.hdr.block_size = d.hdr.block_size) ∧
    (∃ H2, goodNodeB H2 d' d'.hdr.root_addr = true ∧
      sepB H2 d' d'.hdr.root_addr = true) ∧
    (∀ Hc l0, H ≤ Hc → collectGo Hc d d.hdr.root_addr = some l0 →
      ∃ Hc2 l', collectGo Hc2 d' d'.hdr.root_addr = some l' ∧
        l'.Perm (l0 ++ [kvp])) := by
  have hr0 : ¬ d.hdr.root_addr = 0 := by
    have hg2 := hg
    cases H with
    | zero => simp [goodNodeB] at hg2
    | succ h =>
      rw [goodNodeB_succ_iff] at hg2
      obtain ⟨nd, _, _, hnz, _⟩ := hg2
      exact hnz
  rw [rtreeInsert, if_neg hr0] at hins
  cases hcl : chooseLeafGo (fuelOf d) d kvp.1 d.hdr.root_addr [] with
  | none =>
    rw [hcl] at hins
    exact absurd hins (by simp)
  | some res =>
  obtain ⟨path, laddr0⟩ := res
  rw [hcl] at hins
  dsimp only at hins
  obtain ⟨inner, hpath, ⟨tnd, hdt, htl⟩, hgt, hst, hreacht, hchain0⟩ :=
    chooseLeaf_chain (fuelOf d) d kvp.1 d.hdr.root_addr [] H d.fileSize []
      (path, laddr0) hcl hg hs
      (fun x hx => reach_good_lt d H d.hdr.root_addr hg x hx)
      (fun D hD => by rw [Chain_nil])
  dsimp only at hpath hdt hgt hst hreacht hchain0
  rw [List.append_nil] at hchain0
  rw [hpath, List.nil_append, List.reverse_append, List.reverse_singleton,
      List.singleton_append] at hins
  rw [splitGo, hdt] at hins
  dsimp only at hins
  obtain ⟨H0, hH0⟩ : ∃ H0, H = Nat.succ H0 := by
    cases H with
    | zero => simp [goodNodeB] at hg
    | succ h => exact ⟨h, rfl⟩
  subst hH0
  have hgt2 := hgt
  rw [goodNodeB_succ_iff] at hgt2
  obtain ⟨tnd2, hdt2, htself, htnz, htfs, htcap, htne, htok, _⟩ := hgt2
  have htt : tnd = tnd2 := by
    have h2 := hdt.symm.trans hdt2
    injection h2
  subst htt
  have hkok : entryOkB d.hdr.dimensions kvp = true :=
    (entryOkB_iff _ _).mpr ⟨hkl, hkv⟩
  have hcollT : ∀ Hc, 1 ≤ Hc → collectGo Hc d laddr0 = some tnd.entries := by
    intro Hc h1
    obtain ⟨Hc0, rfl⟩ : ∃ Hc0, Hc = Nat.succ Hc0 := ⟨Hc - 1, by omega⟩
    exact collectGo_leaf Hc0 d laddr0 tnd hdt htl
  have hreachT : ∀ x, Reach d laddr0 x → x = laddr0 :=
    reach_leaf_eq d laddr0 tnd hdt htl
  by_cases hroom : tnd.entries.length < capacity d.hdr tnd.isLeaf
  · -- the leaf has room: append the pair and walk the covers upward
    rw [if_pos hroom] at hins
    cases hni : nodeInsert (capacity d.hdr tnd.isLeaf) d.hdr.dimensions
        tnd kvp with
    | none =>
      rw [hni] at hins
      exact absurd hins (by simp)
    | some nd2 =>
    rw [hni] at hins
    dsimp only at hins
    obtain ⟨hnd2eq, _, _⟩ := nodeInsert_some _ _ _ _ nd2 hni
    have hL2 : nd2.isLeaf = true := by
      rw [hnd2eq]
      exact htl
    have hS2 : nd2.selfAddr = laddr0 := by
      rw [hnd2eq]
      exact htself
    have hE2 : nd2.entries = tnd.entries ++ [kvp] := by
      rw [hnd2eq]
    cases hmbr : getNodeMbr nd2 with
    | none =>
      obtain ⟨cov, hcov⟩ := getNodeMbr_some_of_ne_nil nd2 (by rw [hE2]; simp)
      rw [hmbr] at hcov
      exact absurd hcov (by simp)
    | some newMbr =>
    rw [hmbr] at hins
    dsimp only at hins
    have hd2a : getNode (setNode d laddr0 nd2) laddr0 = some nd2 :=
      getNode_setNode_self d laddr0 nd2
    have hd2hdr : (setNode d laddr0 nd2).hdr = d.hdr := setNode_hdr d laddr0 nd2
    have hd2fs : (setNode d laddr0 nd2).fileSize = d.fileSize :=
      setNode_fileSize d laddr0 nd2
    have hagd2 : ∀ x, x ≠ laddr0 →
        getNode (setNode d laddr0 nd2) x = getNode d x :=
      fun x hx => getNode_setNode_ne d laddr0 x nd2 (fun h2 => hx h2.symm)
    have hag2 : ∀ x, x < d.fileSize → ¬ Reach d laddr0 x →
        getNode (setNode d laddr0 nd2) x = getNode d x := by
      intro x _ hnr
      refine hagd2 x ?_
      intro h2
      rw [h2] at hnr
      exact hnr (reach_self d laddr0)
    have hreach2 : ∀ x, Reach (setNode d laddr0 nd2) laddr0 x → x = laddr0 :=
      reach_leaf_eq (setNode d laddr0 nd2) laddr0 nd2 hd2a hL2
    have hchain2 : Chain (setNode d laddr0 nd2) (Nat.succ H0) d.fileSize false
        [] laddr0 inner.reverse := by
      refine Chain_transport_gen inner.reverse d _ (Nat.succ H0) d.fileSize
        true false [] laddr0 hchain0 hd2hdr (by rw [hd2fs]) hag2 ?_
        (fun h2 => absurd h2 (by simp))
      intro x hx
      refine Or.inl ?_
      rw [hreach2 x hx]
      exact reach_self d laddr0
    have hg2t : goodNodeB (Nat.succ H0) (setNode d laddr0 nd2) laddr0 = true := by
      refine goodNodeB_leaf_intro _ H0 laddr0 nd2 hd2a hL2 hS2 htnz ?_ ?_ ?_ ?_
      · rw [hd2fs]
        exact htfs
      · rw [hd2hdr, hE2, List.length_append, List.length_singleton]
        have h2 := hroom
        rw [htl] at h2
        omega
      · rw [hE2]
        simp
      · intro e he
        rw [hd2hdr]
        rw [hE2] at he
        rcases List.mem_append.mp he with h2 | h2
        · exact htok e h2
        · rw [List.mem_singleton.mp h2]
          exact hkok
    have hs2t : sepB (Nat.succ H0) (setNode d laddr0 nd2) laddr0 = true :=
      sepB_succ_intro _ H0 laddr0 nd2 hd2a (Or.inl hL2)
    rw [show d.hdr.dimensions = (setNode d laddr0 nd2).hdr.dimensions from by
      rw [hd2hdr]] at hins
    obtain ⟨hmph, hmpfs, hmpcoll, H2, hg2, hs2⟩ :=
      modifyParent_spec inner.reverse _ (Nat.succ H0) (Nat.succ H0) d.fileSize
        [] laddr0 newMbr d' hins hchain2 (le_refl _) (by rw [hd2fs])
        hg2t hs2t ⟨nd2, hd2a, hmbr⟩
    refine ⟨?_, ⟨H2, ?_, ?_⟩, ?_⟩
    · rw [hmph, hd2hdr]
      exact ⟨rfl, rfl, rfl, rfl⟩
    · rw [hmph, hd2hdr]
      rw [hd2hdr] at hg2
      exact hg2
    · rw [hmph, hd2hdr]
      rw [hd2hdr] at hs2
      exact hs2
    · intro Hc l0 hHc hl0
      have hlt : collectGo Hc d laddr0 = some tnd.entries :=
        hcollT Hc (by omega)
      have hlt2 : collectGo (Nat.succ 0) (setNode d laddr0 nd2) laddr0
          = some nd2.entries := collectGo_leaf 0 _ laddr0 nd2 hd2a hL2
      obtain ⟨Hc3, l2, hl2, hpermG⟩ := chain_collect_graft inner.reverse d _
        (Nat.succ H0) d.fileSize true [] laddr0 hchain0 hag2 Hc l0 tnd.entries
        nd2.entries hHc hl0 hlt ⟨_, hlt2⟩
      refine ⟨Hc3, l2, ?_, ?_⟩
      · rw [hmph, hd2hdr]
        rw [hmpcoll Hc3 d.hdr.root_addr]
        exact hl2
      · rw [hE2] at hpermG
        exact perm_cancel_right l2 l0 tnd.entries [kvp] hpermG
  · -- overflow: split the leaf into two and push a new entry upward
    rw [if_neg hroom] at hins
    simp only [allocate, setNode_fileSize, setNode_hdr] at hins
    cases hcur : insertAll (capacity d.hdr tnd.isLeaf) d.hdr.dimensions
        (clearNode tnd) (pickseed tnd.entries kvp).2 with
    | none =>
      rw [hcur] at hins
      exact absurd hins (by simp)
    | some cur' =>
    rw [hcur] at hins
    dsimp only at hins
    cases hnew : insertAll (capacity d.hdr tnd.isLeaf) d.hdr.dimensions
        ⟨tnd.isLeaf, d.fileSize, []⟩ (pickseed tnd.entries kvp).1 with
    | none =>
      rw [hnew] at hins
      exact absurd hins (by simp)
    | some newNode =>
    rw [hnew] at hins
    dsimp only at hins
    obtain ⟨hCleaf, hCself, hCents⟩ := insertAll_shape _ _ _ _ _ hcur
    obtain ⟨hNleaf, hNself, hNents⟩ := insertAll_shape _ _ _ _ _ hnew
    have hCleaf' : cur'.isLeaf = true := by
      rw [hCleaf]
      exact htl
    have hCself' : cur'.selfAddr = laddr0 := by
      rw [hCself]
      exact htself
    have hCents' : cur'.entries = (pickseed tnd.entries kvp).2 := by
      rw [hCents]
      show [] ++ _ = _
      simp
    have hNleaf' : newNode.isLeaf = true := by
      rw [hNleaf]
      exact htl
    have hNself' : newNode.selfAddr = d.fileSize := hNself
    have hNents' : newNode.entries = (pickseed tnd.entries kvp).1 := by
      rw [hNents]
      show [] ++ _ = _
      simp
    have hlenW : 2 ≤ (tnd.entries ++ [kvp]).length := by
      rw [List.length_append, List.length_singleton]
      cases hE : tnd.entries with
      | nil => exact absurd hE htne
      | cons x t => simp
    obtain ⟨hperm, hP1ne, hP2ne⟩ := pickseed_spec tnd.entries kvp hlenW
    have hmem12 : ∀ e', e' ∈ (pickseed tnd.entries kvp).1 ∨
        e' ∈ (pickseed tnd.entries kvp).2 → e' ∈ tnd.entries ++ [kvp] := by
      intro e' he'
      exact hperm.mem_iff.mp (List.mem_append.mpr he')
    have hlensum := hperm.length_eq
    have htcap' : tnd.entries.length ≤ capacity d.hdr true := by
      rw [← htl]
      exact htcap
    have hcapP2 : (pickseed tnd.entries kvp).2.length ≤ capacity d.hdr true := by
      rw [List.length_append, List.length_append] at hlensum
      have h1len : 1 ≤ (pickseed tnd.entries kvp).1.length := by
        cases hE : (pickseed tnd.entries kvp).1 with
        | nil => exact absurd hE hP1ne
        | cons x t => simp
      simp only [List.length_singleton] at hlensum
      omega
    have hcapP1 : (pickseed tnd.entries kvp).1.length ≤ capacity d.hdr true := by
      rw [List.length_append, List.length_append] at hlensum
      have h2len : 1 ≤ (pickseed tnd.entries kvp).2.length := by
        cases hE : (pickseed tnd.entries kvp).2 with
        | nil => exact absurd hE hP2ne
        | cons x t => simp
      simp only [List.length_singleton] at hlensum
      omega
    have hallokW : ∀ e' ∈ tnd.entries ++ [kvp],
        entryOkB d.hdr.dimensions e' = true := by
      intro e' he'
      rcases List.mem_append.mp he' with h2 | h2
      · exact htok e' h2
      · rw [List.mem_singleton.mp h2]
        exact hkok
    have hta : laddr0 ≠ d.fileSize := by omega
    set d3 : Disk := setNode (setNode
      ⟨d.hdr, d.nodes, d.fileSize + d.hdr.block_size⟩ laddr0 cur')
      d.fileSize newNode with hd3
    have hd3hdr : d3.hdr = d.hdr := by
      rw [hd3, setNode_hdr, setNode_hdr]
    have hd3fs : d3.fileSize = d.fileSize + d.hdr.block_size := by
      rw [hd3, setNode_fileSize, setNode_fileSize]
    have hd3a : getNode d3 laddr0 = some cur' := by
      rw [hd3]
      rw [getNode_setNode_ne _ d.fileSize laddr0 newNode (fun h2 => hta h2.symm)]
      exact getNode_setNode_self _ laddr0 cur'
    have hd3t : getNode d3 d.fileSize = some newNode := by
      rw [hd3]
      exact getNode_setNode_self _ d.fileSize newNode
    have hag3 : ∀ x, x ≠ laddr0 → x ≠ d.fileSize →
        getNode d3 x = getNode d x := by
      intro x hxa hxt
      rw [hd3]
      rw [getNode_setNode_ne _ d.fileSize x newNode (fun h2 => hxt h2.symm)]
      rw [getNode_setNode_ne _ laddr0 x cur' (fun h2 => hxa h2.symm)]
      rfl
    have hreachC : ∀ x, Reach d3 laddr0 x → x = laddr0 :=
      reach_leaf_eq d3 laddr0 cur' hd3a hCleaf'
    have hreachN : ∀ x, Reach d3 d.fileSize x → x = d.fileSize :=
      reach_leaf_eq d3 d.fileSize newNode hd3t hNleaf'
    have hgoodC : goodNodeB (Nat.succ H0) d3 laddr0 = true := by
      refine goodNodeB_leaf_intro d3 H0 laddr0 cur' hd3a hCleaf' hCself'
        htnz ?_ ?_ ?_ ?_
      · rw [hd3fs]
        omega
      · rw [hd3hdr, hCents']
        exact hcapP2
      · rw [hCents']
        exact hP2ne
      · intro e he
        rw [hd3hdr]
        rw [hCents'] at he
        exact hallokW e (hmem12 e (Or.inr he))
    have hsepC : sepB (Nat.succ H0) d3 laddr0 = true :=
      sepB_succ_intro d3 H0 laddr0 cur' hd3a (Or.inl hCleaf')
    have hgoodN : goodNodeB (Nat.succ H0) d3 d.fileSize = true := by
      refine goodNodeB_leaf_intro d3 H0 d.fileSize newNode hd3t hNleaf' hNself'
        (by omega) ?_ ?_ ?_ ?_
      · rw [hd3fs]
        omega
      · rw [hd3hdr, hNents']
        exact hcapP1
      · rw [hNents']
        exact hP1ne
      · intro e he
        rw [hd3hdr]
        rw [hNents'] at he
        exact hallokW e (hmem12 e (Or.inl he))
    have hsepN : sepB (Nat.succ H0) d3 d.fileSize = true :=
      sepB_succ_intro d3 H0 d.fileSize newNode hd3t (Or.inl hNleaf')
    have hMbrC : getNodeMbr cur'
        = some (coverOf (pickseed tnd.entries kvp).2) := by
      have h2 := getNodeMbr_coverOf cur' (by rw [hCents']; exact hP2ne)
      rw [hCents'] at h2
      exact h2
    have hMbrN : getNodeMbr newNode
        = some (coverOf (pickseed tnd.entries kvp).1) := by
      have h2 := getNodeMbr_coverOf newNode (by rw [hNents']; exact hP1ne)
      rw [hNents'] at h2
      exact h2
    have hzC : ∀ x, Reach d3 laddr0 x →
        (Reach d laddr0 x ∧ x < d.fileSize) ∨
          (d.fileSize ≤ x ∧ x < d3.fileSize) := by
      intro x hx
      rw [hreachC x hx]
      exact Or.inl ⟨reach_self d laddr0, htfs⟩
    have hzN : ∀ x, Reach d3 d.fileSize x →
        (Reach d laddr0 x ∧ x < d.fileSize) ∨
          (d.fileSize ≤ x ∧ x < d3.fileSize) := by
      intro x hx
      rw [hreachN x hx]
      refine Or.inr ⟨le_refl _, ?_⟩
      rw [hd3fs]
      omega
    have hdisjNC : ∀ x, Reach d3 d.fileSize x → ¬ Reach d3 laddr0 x := by
      intro x hx1 hx2
      rw [hreachN x hx1] at hx2
      have := hreachC d.fileSize hx2
      omega
    have hlc3 : collectGo (Nat.succ 0) d3 laddr0
        = some (pickseed tnd.entries kvp).2 := by
      rw [collectGo_leaf 0 d3 laddr0 cur' hd3a hCleaf', hCents']
    have hlk3 : collectGo (Nat.succ 0) d3 d.fileSize
        = some (pickseed tnd.entries kvp).1 := by
      rw [collectGo_leaf 0 d3 d.fileSize newNode hd3t hNleaf', hNents']
    by_cases hisroot : cur'.selfAddr = d.hdr.root_addr
    · -- the split leaf was the root: promote a fresh inner root
      rw [if_pos hisroot] at hins
      cases hr1 : nodeInsert (capacity d.hdr false) d.hdr.dimensions
          ⟨false, d.fileSize + d.hdr.block_size, []⟩
          (coverOf (pickseed tnd.entries kvp).2, laddr0) with
      | none =>
        rw [hr1] at hins
        exact absurd hins (by simp)
      | some root1 =>
      rw [hr1] at hins
      dsimp only at hins
      cases hr2 : nodeInsert (capacity d.hdr false) d.hdr.dimensions root1
          (coverOf (pickseed tnd.entries kvp).1, d.fileSize) with
      | none =>
        rw [hr2] at hins
        exact absurd hins (by simp)
      | some root2 =>
      rw [hr2] at hins
      dsimp only at hins
      obtain ⟨hR1eq, hR1lt, hR1len⟩ := nodeInsert_some _ _ _ _ root1 hr1
      obtain ⟨hR2eq, hR2lt, hR2len⟩ := nodeInsert_some _ _ _ _ root2 hr2
      have hRents : root2.entries
          = [(coverOf (pickseed tnd.entries kvp).2, laddr0),
             (coverOf (pickseed tnd.entries kvp).1, d.fileSize)] := by
        rw [hR2eq]
        dsimp only
        rw [hR1eq]
        rfl
      have hRleaf : root2.isLeaf = false := by
        rw [hR2eq]
        dsimp only
        rw [hR1eq]
      have hRself : root2.selfAddr = d.fileSize + d.hdr.block_size := by
        rw [hR2eq]
        dsimp only
        rw [hR1eq]
      have h1len : root1.entries.length = 1 := by
        rw [hR1eq]
        rfl
      obtain rfl : (⟨⟨d.hdr.dimensions, d.hdr.key_size, d.hdr.value_size,
          d.hdr.block_size, d.fileSize + d.hdr.block_size⟩,
        (setNode ⟨d.hdr, d3.nodes,
            d.fileSize + d.hdr.block_size + d.hdr.block_size⟩
          (d.fileSize + d.hdr.block_size) root2).nodes,
        d.fileSize + d.hdr.block_size + d.hdr.block_size⟩ : Disk) = d' :=
        Option.some.inj hins
      set D5 : Disk := setNode ⟨d.hdr, d3.nodes,
        d.fileSize + d.hdr.block_size + d.hdr.block_size⟩
        (d.fileSize + d.hdr.block_size) root2 with hD5
      have hD5hdr : D5.hdr = d.hdr := by
        rw [hD5, setNode_hdr]
      have hD5fs : D5.fileSize
          = d.fileSize + d.hdr.block_size + d.hdr.block_size := by
        rw [hD5, setNode_fileSize]
      have hagD5 : ∀ x, x ≠ d.fileSize + d.hdr.block_size →
          getNode D5 x = getNode d3 x := by
        intro x hx
        rw [hD5, getNode_setNode_ne _ _ _ root2 (fun h2 => hx h2.symm)]
        rfl
      have hgetD5rt : getNode D5 (d.fileSize + d.hdr.block_size)
          = some root2 := by
        rw [hD5]
        exact getNode_setNode_self _ _ _
      have hboundA : ∀ y, Reach d3 laddr0 y →
          y < d.fileSize + d.hdr.block_size := by
        intro y hy
        have := hreachC y hy
        omega
      have hboundT : ∀ y, Reach d3 d.fileSize y →
          y < d.fileSize + d.hdr.block_size := by
        intro y hy
        have := hreachN y hy
        omega
      have hgoodA5 : goodNodeB (Nat.succ H0) D5 laddr0 = true := by
        refine goodNodeB_agree_grow d3 D5 (hD5hdr.trans hd3hdr.symm)
          (by rw [hD5fs, hd3fs]; omega) (Nat.succ H0) laddr0 ?_ hgoodC
        intro x hx
        exact hagD5 x (by have := hboundA x ⟨Nat.succ H0, hx⟩; omega)
      have hgoodT5 : goodNodeB (Nat.succ H0) D5 d.fileSize = true := by
        refine goodNodeB_agree_grow d3 D5 (hD5hdr.trans hd3hdr.symm)
          (by rw [hD5fs, hd3fs]; omega) (Nat.succ H0) d.fileSize ?_ hgoodN
        intro x hx
        exact hagD5 x (by have := hboundT x ⟨Nat.succ H0, hx⟩; omega)
      have hsepA5 : sepB (Nat.succ H0) D5 laddr0 = true := by
        rw [sepB_agree d3 D5 (Nat.succ H0) laddr0
          (fun x hx => hagD5 x (by have := hboundA x ⟨Nat.succ H0, hx⟩; omega))]
        exact hsepC
      have hsepT5 : sepB (Nat.succ H0) D5 d.fileSize = true := by
        rw [sepB_agree d3 D5 (Nat.succ H0) d.fileSize
          (fun x hx => hagD5 x (by have := hboundT x ⟨Nat.succ H0, hx⟩; omega))]
        exact hsepN
      have hreachA5 : ∀ x, Reach D5 laddr0 x ↔ Reach d3 laddr0 x :=
        reach_agree d3 D5 laddr0
          (fun y hy => hagD5 y (by have := hboundA y hy; omega))
      have hreachT5 : ∀ x, Reach D5 d.fileSize x ↔ Reach d3 d.fileSize x :=
        reach_agree d3 D5 d.fileSize
          (fun y hy => hagD5 y (by have := hboundT y hy; omega))
      have hkeysW : ∀ e' ∈ tnd.entries ++ [kvp],
          (e'.1 : MBR).length = 2 * d.hdr.dimensions
            ∧ validMbr e'.1 = true :=
        fun e' he' => (entryOkB_iff _ _).mp (hallokW e' he')
      obtain ⟨hcl2, hcv2, _⟩ := coverOf_spec (pickseed tnd.entries kvp).2
        (2 * d.hdr.dimensions) hP2ne
        (fun e' he' => hkeysW e' (hmem12 e' (Or.inr he')))
      obtain ⟨hcl1, hcv1, _⟩ := coverOf_spec (pickseed tnd.entries kvp).1
        (2 * d.hdr.dimensions) hP1ne
        (fun e' he' => hkeysW e' (hmem12 e' (Or.inl he')))
      have hD5a : getNode D5 laddr0 = some cur' := by
        rw [hagD5 laddr0 (by omega)]
        exact hd3a
      have hD5t : getNode D5 d.fileSize = some newNode := by
        rw [hagD5 d.fileSize (by omega)]
        exact hd3t
      have hgoodRoot : goodNodeB (Nat.succ (Nat.succ H0)) D5
          (d.fileSize + d.hdr.block_size) = true := by
        rw [goodNodeB_succ_iff]
        refine ⟨root2, hgetD5rt, hRself, by omega, ?_, ?_, ?_, ?_, Or.inr ?_⟩
        · rw [hD5fs]
          omega
        · rw [hD5hdr, hRleaf, hRents]
          rw [h1len] at hR2lt
          show 2 ≤ capacity d.hdr false
          omega
        · rw [hRents]
          simp
        · intro e' he'
          rw [hD5hdr]
          rw [hRents] at he'
          rcases List.mem_cons.mp he' with rfl | he'
          · exact (entryOkB_iff _ _).mpr ⟨hcl2, hcv2⟩
          · have hee : e'
                = (coverOf (pickseed tnd.entries kvp).1, d.fileSize) :=
              List.mem_singleton.mp he'
            rw [hee]
            exact (entryOkB_iff _ _).mpr ⟨hcl1, hcv1⟩
        · intro e' he'
          rw [hRents] at he'
          rcases List.mem_cons.mp he' with rfl | he'
          · refine ⟨hgoodA5, ?_⟩
            rw [childCoverOkB]
            dsimp only
            rw [hD5a]
            dsimp only
            rw [hMbrC]
            exact mbrGe_refl _
          · have hee : e'
                = (coverOf (pickseed tnd.entries kvp).1, d.fileSize) :=
              List.mem_singleton.mp he'
            rw [hee]
            refine ⟨hgoodT5, ?_⟩
            rw [childCoverOkB]
            dsimp only
            rw [hD5t]
            dsimp only
            rw [hMbrN]
            exact mbrGe_refl _
      have hsepRoot : sepB (Nat.succ (Nat.succ H0)) D5
          (d.fileSize + d.hdr.block_size) = true := by
        refine sepB_succ_intro D5 (Nat.succ H0) (d.fileSize + d.hdr.block_size)
          root2 hgetD5rt (Or.inr ⟨?_, ?_⟩)
        · rw [hRents]
          refine List.Pairwise.cons ?_ (List.pairwise_singleton _ _)
          intro e2 he2 x hx hx2
          have hee : e2 = (coverOf (pickseed tnd.entries kvp).1, d.fileSize) :=
            List.mem_singleton.mp he2
          rw [hee] at hx2
          have hrA : Reach d3 laddr0 x := (hreachA5 x).mp ⟨Nat.succ H0, hx⟩
          have hrT : Reach d3 d.fileSize x :=
            (hreachT5 x).mp ⟨Nat.succ H0, hx2⟩
          exact hdisjNC x hrT hrA
        · intro e' he'
          rw [hRents] at he'
          rcases List.mem_cons.mp he' with rfl | he'
          · refine ⟨?_, hsepA5⟩
            intro hmemX
            have hr := (hreachA5 (d.fileSize + d.hdr.block_size)).mp
              ⟨Nat.succ H0, hmemX⟩
            have := hboundA _ hr
            omega
          · have hee : e'
                = (coverOf (pickseed tnd.entries kvp).1, d.fileSize) :=
              List.mem_singleton.mp he'
            rw [hee]
            refine ⟨?_, hsepT5⟩
            intro hmemX
            have hr := (hreachT5 (d.fileSize + d.hdr.block_size)).mp
              ⟨Nat.succ H0, hmemX⟩
            have := hboundT _ hr
            omega
      refine ⟨⟨?_, ?_, ?_, ?_⟩, ⟨Nat.succ (Nat.succ H0), ?_, ?_⟩, ?_⟩
      · show d.hdr.dimensions = d.hdr.dimensions
        rfl
      · show d.hdr.key_size = d.hdr.key_size
        rfl
      · show d.hdr.value_size = d.hdr.value_size
        rfl
      · show d.hdr.block_size = d.hdr.block_size
        rfl
      · have hd2eq : (⟨⟨d.hdr.dimensions, d.hdr.key_size, d.hdr.value_size,
            d.hdr.block_size, d.fileSize + d.hdr.block_size⟩, D5.nodes,
            d.fileSize + d.hdr.block_size + d.hdr.block_size⟩ : Disk)
            = { D5 with hdr := { D5.hdr with
                root_addr := d.fileSize + d.hdr.block_size } } := by
          rw [hD5, setNode_hdr, setNode_fileSize]
        show goodNodeB (Nat.succ (Nat.succ H0))
          (⟨⟨d.hdr.dimensions, d.hdr.key_size, d.hdr.value_size,
            d.hdr.block_size, d.fileSize + d.hdr.block_size⟩, D5.nodes,
            d.fileSize + d.hdr.block_size + d.hdr.block_size⟩ : Disk)
          (d.fileSize + d.hdr.block_size) = true
        rw [hd2eq]
        exact (goodNodeB_set_root D5 (d.fileSize + d.hdr.block_size)
          (Nat.succ (Nat.succ H0)) (d.fileSize + d.hdr.block_size)).trans
          hgoodRoot
      · have hd2eq : (⟨⟨d.hdr.dimensions, d.hdr.key_size, d.hdr.value_size,
            d.hdr.block_size, d.fileSize + d.hdr.block_size⟩, D5.nodes,
            d.fileSize + d.hdr.block_size + d.hdr.block_size⟩ : Disk)
            = { D5 with hdr := { D5.hdr with
                root_addr := d.fileSize + d.hdr.block_size } } := by
          rw [hD5, setNode_hdr, setNode_fileSize]
        show sepB (Nat.succ (Nat.succ H0))
          (⟨⟨d.hdr.dimensions, d.hdr.key_size, d.hdr.value_size,
            d.hdr.block_size, d.fileSize + d.hdr.block_size⟩, D5.nodes,
            d.fileSize + d.hdr.block_size + d.hdr.block_size⟩ : Disk)
          (d.fileSize + d.hdr.block_size) = true
        rw [hd2eq]
        exact (sepB_nodes_congr
          { D5 with hdr := { D5.hdr with
              root_addr := d.fileSize + d.hdr.block_size } } D5 rfl
          (Nat.succ (Nat.succ H0)) (d.fileSize + d.hdr.block_size)).trans
          hsepRoot
      · intro Hc l0 hHc hl0
        have haroot : laddr0 = d.hdr.root_addr := by
          rw [← hCself']
          exact hisroot
        have hl0t : l0 = tnd.entries := by
          have h2 := hcollT Hc (by omega)
          rw [haroot] at h2
          have h3 := hl0.symm.trans h2
          injection h3
        have hla5 : collectGo (Nat.succ 0) D5 laddr0
            = some (pickseed tnd.entries kvp).2 := by
          rw [collectGo_agree d3 D5 (Nat.succ 0) laddr0
            (fun y hy => hagD5 y (by have := hboundA y ⟨_, hy⟩; omega))]
          exact hlc3
        have hlt5 : collectGo (Nat.succ 0) D5 d.fileSize
            = some (pickseed tnd.entries kvp).1 := by
          rw [collectGo_agree d3 D5 (Nat.succ 0) d.fileSize
            (fun y hy => hagD5 y (by have := hboundT y ⟨_, hy⟩; omega))]
          exact hlk3
        have hone : collectEnts (fun y => collectGo (Nat.succ 0) D5 y)
            [(coverOf (pickseed tnd.entries kvp).1, d.fileSize)]
            = some ((pickseed tnd.entries kvp).1 ++ []) := by
          rw [collectEnts, hlt5, collectEnts]
        have hroot5 : collectGo (Nat.succ (Nat.succ 0)) D5
            (d.fileSize + d.hdr.block_size)
            = some ((pickseed tnd.entries kvp).2
                ++ ((pickseed tnd.entries kvp).1 ++ [])) := by
          rw [collectGo, hgetD5rt]
          dsimp only
          rw [hRleaf]
          simp only [if_neg (by simp : ¬(false = true))]
          rw [hRents]
          rw [collectEnts, hla5, hone]
        refine ⟨Nat.succ (Nat.succ 0), (pickseed tnd.entries kvp).2
            ++ ((pickseed tnd.entries kvp).1 ++ []), ?_, ?_⟩
        · show collectGo (Nat.succ (Nat.succ 0))
            (⟨⟨d.hdr.dimensions, d.hdr.key_size, d.hdr.value_size,
              d.hdr.block_size, d.fileSize + d.hdr.block_size⟩, D5.nodes,
              d.fileSize + d.hdr.block_size + d.hdr.block_size⟩ : Disk)
            (d.fileSize + d.hdr.block_size)
            = some ((pickseed tnd.entries kvp).2
                ++ ((pickseed tnd.entries kvp).1 ++ []))
          rw [collectGo_nodes_congr (⟨⟨d.hdr.dimensions, d.hdr.key_size,
            d.hdr.value_size, d.hdr.block_size,
            d.fileSize + d.hdr.block_size⟩, D5.nodes,
            d.fileSize + d.hdr.block_size + d.hdr.block_size⟩ : Disk) D5 rfl]
          exact hroot5
        · rw [List.append_nil, hl0t]
          exact List.Perm.trans List.perm_append_comm hperm
    · -- the leaf was not the root: recurse upward with the sibling entry
      rw [if_neg hisroot] at hins
      have hag0' : ∀ x, x < d.fileSize → ¬ Reach d laddr0 x →
          getNode d3 x = getNode d x := by
        intro x hxF hnrx
        have hxa : x ≠ laddr0 := by
          intro h2
          rw [h2] at hnrx
          exact hnrx (reach_self d laddr0)
        exact hag3 x hxa (by omega)
      have hchainF : Chain d (Nat.succ H0) d.fileSize false []
          laddr0 inner.reverse :=
        Chain_weaken d (Nat.succ H0) d.fileSize false [] laddr0
          inner.reverse hchain0
      obtain ⟨hdrc, goodc, collc⟩ := splitGo_spec inner.reverse d d3
        (Nat.succ H0) (Nat.succ H0) d.fileSize [] laddr0
        (coverOf (pickseed tnd.entries kvp).1, d.fileSize)
        (coverOf (pickseed tnd.entries kvp).2) d' hins hchainF (le_refl _)
        hd3hdr (by rw [hd3fs]; omega) (le_refl _) hblk hag0'
        hgoodC hsepC ⟨cur', hd3a, hMbrC⟩ hzC hgoodN hsepN
        ⟨newNode, hd3t, hMbrN⟩ hzN hdisjNC
      refine ⟨hdrc, goodc, ?_⟩
      intro Hc l0 hHc hl0
      obtain ⟨Hc2, l', hl', hpermI⟩ := collc Hc l0 tnd.entries
        (pickseed tnd.entries kvp).2 (pickseed tnd.entries kvp).1
        hHc hl0 (hcollT Hc (by omega)) ⟨_, hlc3⟩ ⟨_, hlk3⟩
      refine ⟨Hc2, l', hl', ?_⟩
      have hP : ((pickseed tnd.entries kvp).2
          ++ (pickseed tnd.entries kvp).1).Perm (tnd.entries ++ [kvp]) :=
        List.Perm.trans List.perm_append_comm hperm
      have h2 : (l' ++ tnd.entries).Perm (l0 ++ (tnd.entries ++ [kvp])) :=
        hpermI.trans (List.Perm.append_left l0 hP)
      exact perm_cancel_right l' l0 tnd.entries [kvp] h2
/-- On a good, separated tree, `RTree::search` returns every collected
leaf entry whose stored MBR satisfies the leaf predicate. -/
theorem search_finds_of_collect (d' : Disk) (H2 : Nat) (q : MBR)
    (e : MBR × Nat) (mode : SearchMode)
    (hg : goodNodeB H2 d' d'.hdr.root_addr = true)
    (hs : sepB H2 d' d'.hdr.root_addr = true)
    (hq : q.length = 2 * d'.hdr.dimensions)
    (Hc2 : Nat) (l' : List (MBR × Nat))
    (hcoll : collectGo Hc2 d' d'.hdr.root_addr = some l')
    (hmem : e ∈ l')
    (hmatch : leafMatch mode q e = true) :
    ∃ l, searchGo (fuelOf d') d' q mode d'.hdr.root_addr = some l ∧ e ∈ l := by
  obtain ⟨hgF, hsF⟩ := good_sep_fuelOf d' H2 d'.hdr.root_addr hg hs
  obtain ⟨lF, hlF, hsearch⟩ :=
    search_eq_filter d' q mode hq (fuelOf d') d'.hdr.root_addr hgF
  have hl1 : collectGo (max Hc2 (fuelOf d')) d' d'.hdr.root_addr = some l' :=
    collectGo_fuel_mono d' Hc2 _ _ l' (by omega) hcoll
  have hl2 : collectGo (max Hc2 (fuelOf d')) d' d'.hdr.root_addr = some lF :=
    collectGo_fuel_mono d' (fuelOf d') _ _ lF (by omega) hlF
  have hll : l' = lF := by
    have h2 := hl1.symm.trans hl2
    injection h2
  refine ⟨lF.filter (leafMatch mode q), hsearch, ?_⟩
  rw [← hll]
  exact List.mem_filter.mpr ⟨hmem, hmatch⟩

/-- C1, counterexample: inserting the **inverted** rectangle
`[1,1,0,0]` (lo > hi on both axes) succeeds, yet the immediate
`OverlapSearch` with the very same key returns the empty result set,
because `IsOverlap` is irreflexive on invalid rectangles — the claim
fails without a validity restriction on the inserted key. -/
theorem C1_roundtrip_counterexample :
    rtreeInsert demoDisk0 ([1, 1, 0, 0], 9) = some demoBadDisk ∧
    validMbr [1, 1, 0, 0] = false ∧
    rtreeOverlapSearch demoBadDisk [1, 1, 0, 0] = some [] := by
  refine ⟨by decide, by decide, by decide⟩

/-- A successful sequence of public operations whose insertions carry
well-sized valid rectangles and whose deletions avoid the key `k`
preserves the schema, well-formedness, and the presence of `(k, v)`
among the collected leaf entries. -/
theorem runOps_keeps : ∀ (ops : List Op) (d dN : Disk) (k : MBR) (v : Nat),
    runOps d ops = some dN →
    (∀ op ∈ ops, opOkB d.hdr.dimensions k op = true) →
    0 < d.hdr.block_size →
    (∃ H, goodNodeB H d d.hdr.root_addr = true ∧
      sepB H d d.hdr.root_addr = true) →
    (∃ Hc lc, collectGo Hc d d.hdr.root_addr = some lc ∧
      ((k, v) : MBR × Nat) ∈ lc) →
    (dN.hdr.dimensions = d.hdr.dimensions ∧
     dN.hdr.block_size = d.hdr.block_size) ∧
    (∃ H, goodNodeB H dN dN.hdr.root_addr = true ∧
      sepB H dN dN.hdr.root_addr = true) ∧
    (∃ Hc lc, collectGo Hc dN dN.hdr.root_addr = some lc ∧
      ((k, v) : MBR × Nat) ∈ lc) := by
  intro ops
  induction ops with
  | nil =>
    intro d dN k v hrun hops hblk hWF hC
    rw [runOps, List.foldlM] at hrun
    obtain rfl : d = dN := Option.some.inj hrun
    exact ⟨⟨rfl, rfl⟩, hWF, hC⟩
  | cons op rest ih =>
    intro d dN k v hrun hops hblk hWF hC
    rw [runOps, List.foldlM] at hrun
    cases op with
    | ins kvp2 =>
      cases happ : rtreeInsert d kvp2 with
      | none =>
        rw [show applyOp d (Op.ins kvp2) = none from happ] at hrun
        exact absurd hrun (by simp)
      | some d1 =>
      rw [show applyOp d (Op.ins kvp2) = some d1 from happ] at hrun
      simp only [Option.bind_eq_bind, Option.some_bind] at hrun
      obtain ⟨H, hg, hs⟩ := hWF
      have hok := hops (Op.ins kvp2) (List.mem_cons_self _ rest)
      rw [opOkB, Bool.and_eq_true, decide_eq_true_eq] at hok
      obtain ⟨hlen, hval⟩ := hok
      obtain ⟨⟨hdim1, _, _, hblk1⟩, ⟨H2, hg2, hs2⟩, hcoll⟩ :=
        rtreeInsert_spec d kvp2 H d1 hg hs hblk hlen hval happ
      obtain ⟨Hc, lc, hc, hmem⟩ := hC
      have hc2 : collectGo (max H Hc) d d.hdr.root_addr = some lc :=
        collectGo_fuel_mono d Hc _ _ lc (by omega) hc
      obtain ⟨Hc2, l', hl', hperm2⟩ := hcoll (max H Hc) lc (by omega) hc2
      have hmem2 : ((k, v) : MBR × Nat) ∈ l' :=
        hperm2.mem_iff.mpr (List.mem_append.mpr (Or.inl hmem))
      have hops1 : ∀ op2 ∈ rest, opOkB d1.hdr.dimensions k op2 = true := by
        intro op2 hop2
        rw [hdim1]
        exact hops op2 (List.mem_cons_of_mem _ hop2)
      obtain ⟨⟨hdA, hdB⟩, hW, hCC⟩ := ih d1 dN k v hrun hops1
        (by rw [hblk1]; exact hblk) ⟨H2, hg2, hs2⟩ ⟨Hc2, l', hl', hmem2⟩
      exact ⟨⟨hdA.trans hdim1, hdB.trans hblk1⟩, hW, hCC⟩
    | del k2 =>
      cases hdel : rtreeDelete d k2 with
      | none =>
        rw [show applyOp d (Op.del k2) = none from by
          show (rtreeDelete d k2).map Prod.snd = none
          rw [hdel]
          rfl] at hrun
        exact absurd hrun (by simp)
      | some pr =>
      obtain ⟨flag, d1⟩ := pr
      rw [show applyOp d (Op.del k2) = some d1 from by
        show (rtreeDelete d k2).map Prod.snd = some d1
        rw [hdel]
        rfl] at hrun
      simp only [Option.bind_eq_bind, Option.some_bind] at hrun
      obtain ⟨H, hg, hs⟩ := hWF
      have hok := hops (Op.del k2) (List.mem_cons_self _ rest)
      rw [opOkB, decide_eq_true_eq] at hok
      obtain ⟨hhdr, hfs2, ⟨H2, hg2, hs2⟩, l, l', hl, hl', hsub, hkeep⟩ :=
        rtreeDelete_spec d k2 H flag d1 hg hs hdel
      obtain ⟨Hc, lc, hc, hmem⟩ := hC
      have hcM : collectGo (max H Hc) d d.hdr.root_addr = some lc :=
        collectGo_fuel_mono d Hc _ _ lc (by omega) hc
      have hlM : collectGo (max H Hc) d d.hdr.root_addr = some l :=
        collectGo_fuel_mono d H _ _ l (by omega) hl
      have hll : lc = l := by
        have h2 := hcM.symm.trans hlM
        injection h2
      have hmeml : ((k, v) : MBR × Nat) ∈ l := by
        rw [← hll]
        exact hmem
      have hmem2 : ((k, v) : MBR × Nat) ∈ l' :=
        hkeep (k, v) hmeml (fun h2 => hok h2.symm)
      have hdim1 : d1.hdr.dimensions = d.hdr.dimensions := by
        rw [hhdr]
      have hblk1 : d1.hdr.block_size = d.hdr.block_size := by
        rw [hhdr]
      have hops1 : ∀ op2 ∈ rest, opOkB d1.hdr.dimensions k op2 = true := by
        intro op2 hop2
        rw [hdim1]
        exact hops op2 (List.mem_cons_of_mem _ hop2)
      obtain ⟨⟨hdA, hdB⟩, hW, hCC⟩ := ih d1 dN k v hrun hops1
        (by rw [hblk1]; exact hblk)
        ⟨H2, by rw [hhdr]; exact hg2, by rw [hhdr]; exact hs2⟩
        ⟨H, l', by rw [hhdr]; exact hl', hmem2⟩
      exact ⟨⟨hdA.trans hdim1, hdB.trans hblk1⟩, hW, hCC⟩

/-- C1, amended: for every pair `(k, v)` inserted via `Insert` whose
key is a **valid** rectangle (`2·D` coordinates, `lo ≤ hi` on every
axis), if the later operations insert only well-sized valid
rectangles and never `Delete` the key `k` (so the pair is not
subsequently deleted), then a later `OverlapSearch(k)` returns a
result set containing `(k, v)`, and the containment search with query
equal to `k` also returns a result set containing `(k, v)`. -/
theorem C1_roundtrip_valid (d : Disk) (k : MBR) (v : Nat) (H : Nat)
    (d1 dN : Disk) (ops : List Op)
    (hwf : d.hdr.root_addr = 0 ∨
      (goodNodeB H d d.hdr.root_addr = true ∧
       sepB H d d.hdr.root_addr = true))
    (hblk : 0 < d.hdr.block_size) (hfs : 0 < d.fileSize)
    (hkl : k.length = 2 * d.hdr.dimensions) (hkv : validMbr k = true)
    (hins : rtreeInsert d (k, v) = some d1)
    (hops : ∀ op ∈ ops, opOkB d.hdr.dimensions k op = true)
    (hrun : runOps d1 ops = some dN) :
    ∃ l1 l2, rtreeOverlapSearch dN k = some l1 ∧ ((k, v) : MBR × Nat) ∈ l1 ∧
      rtreeCompriseSearch dN k = some l2 ∧ ((k, v) : MBR × Nat) ∈ l2 := by
  have hmain : (d1.hdr.dimensions = d.hdr.dimensions ∧
      d1.hdr.block_size = d.hdr.block_size) ∧
      (∃ H2, goodNodeB H2 d1 d1.hdr.root_addr = true ∧
        sepB H2 d1 d1.hdr.root_addr = true) ∧
      (∃ Hc2 l', collectGo Hc2 d1 d1.hdr.root_addr = some l' ∧
        ((k, v) : MBR × Nat) ∈ l') := by
    rcases hwf with hr | ⟨hg, hs⟩
    · obtain ⟨⟨hd1, _, _, hb1⟩, hWF, Hc2, hcoll⟩ :=
        rtreeInsert_empty_spec d (k, v) d1 hr hfs hblk hkv hins
      exact ⟨⟨hd1, hb1⟩, hWF, Hc2, [(k, v)], hcoll, by simp⟩
    · obtain ⟨_, l0, _, _, hl0, _⟩ := collect_good d H d.hdr.root_addr hg
      obtain ⟨⟨hd1, _, _, hb1⟩, hWF, hcollcl⟩ :=
        rtreeInsert_spec d (k, v) H d1 hg hs hblk hkl hkv hins
      obtain ⟨Hc2, l', hl', hperm2⟩ := hcollcl H l0 (le_refl _) hl0
      refine ⟨⟨hd1, hb1⟩, hWF, Hc2, l', hl', ?_⟩
      refine hperm2.mem_iff.mpr ?_
      simp
  obtain ⟨⟨hd1, hb1⟩, hWF1, hC1⟩ := hmain
  have hops1 : ∀ op ∈ ops, opOkB d1.hdr.dimensions k op = true := by
    intro op hop
    rw [hd1]
    exact hops op hop
  obtain ⟨⟨hdN, hbN⟩, ⟨H2, hg2, hs2⟩, ⟨Hc2, l', hl', hmeme⟩⟩ :=
    runOps_keeps ops d1 dN k v hrun hops1 (by rw [hb1]; exact hblk) hWF1 hC1
  have hq2 : k.length = 2 * dN.hdr.dimensions := by
    rw [hdN, hd1]
    exact hkl
  have hcond : k.length / 2 = dN.hdr.dimensions := by omega
  obtain ⟨l1, hs1, hm1⟩ := search_finds_of_collect dN H2 k (k, v) .overlap
    hg2 hs2 hq2 Hc2 l' hl' hmeme (isOverlap_self_of_valid k hkv)
  obtain ⟨l2, hs2b, hm2⟩ := search_finds_of_collect dN H2 k (k, v) .comprise
    hg2 hs2 hq2 Hc2 l' hl' hmeme (mbrGe_refl k)
  refine ⟨l1, l2, ?_, hm1, ?_, hm2⟩
  · rw [rtreeOverlapSearch, if_pos hcond]
    exact hs1
  · rw [rtreeCompriseSearch, if_pos hcond]
    exact hs2b

/-- C1, witness: the amended round trip on the empty demo index with
the valid rectangle `[0,0,1,1]`, followed by a further insertion and
a deletion of a different (absent) key. -/
theorem C1_roundtrip_valid_witness :
    rtreeInsert demoDisk0 ([0, 0, 1, 1], 7) = some demoLeafDisk ∧
    validMbr [0, 0, 1, 1] = true ∧
    runOps demoLeafDisk [Op.ins ([10, 10, 11, 11], 2), Op.del [5, 5, 6, 6]]
      = some demoTraceDisk ∧
    (∃ l1 l2, rtreeOverlapSearch demoTraceDisk [0, 0, 1, 1] = some l1 ∧
      (([0, 0, 1, 1], 7) : MBR × Nat) ∈ l1 ∧
      rtreeCompriseSearch demoTraceDisk [0, 0, 1, 1] = some l2 ∧
      (([0, 0, 1, 1], 7) : MBR × Nat) ∈ l2) :=
  ⟨by decide, by decide, by decide,
    C1_roundtrip_valid demoDisk0 [0, 0, 1, 1] 7 0 demoLeafDisk demoTraceDisk
      [Op.ins ([10, 10, 11, 11], 2), Op.del [5, 5, 6, 6]]
      (Or.inl (by decide)) (by decide) (by decide) (by decide) (by decide)
      (by decide) (by decide) (by decide)⟩

/-- C2, amended: after every public mutating operation (`Insert` of a
well-sized valid rectangle, or `Delete`) on a well-formed index —
the searches and `GetAllEntries` do not modify the tree — every entry
of every inner node reachable from the root **contains** (axis-wise,
`mbrGe`) every MBR collected in the subtree of its child; only
containment survives a `Delete`: the counterexample shows the key can
strictly exceed the recomputed union, because `Delete` never writes
recomputed covering MBRs back into ancestor entries. -/
theorem C2_covering_containment (d : Disk) (op : Op) (H : Nat) (d' : Disk)
    (hg : goodNodeB H d d.hdr.root_addr = true)
    (hs : sepB H d d.hdr.root_addr = true)
    (hblk : 0 < d.hdr.block_size)
    (hop : insOkB d.hdr.dimensions op = true)
    (happ : applyOp d op = some d') :
    ∃ H2, ∀ x, Reach d' d'.hdr.root_addr x →
      ∀ nd, getNode d' x = some nd → nd.isLeaf = false →
      ∀ e ∈ nd.entries, ∃ l, collectGo H2 d' e.2 = some l ∧ l ≠ [] ∧
        ∀ p ∈ l, mbrGe e.1 p.1 = true := by
  cases op with
  | ins kvp =>
    rw [insOkB, Bool.and_eq_true, decide_eq_true_eq] at hop
    obtain ⟨hlen, hval⟩ := hop
    obtain ⟨_, ⟨H2, hg2, _⟩, _⟩ :=
      rtreeInsert_spec d kvp H d' hg hs hblk hlen hval happ
    exact ⟨H2, wf_covering_containment d' H2 hg2⟩
  | del k2 =>
    have happ2 : (rtreeDelete d k2).map Prod.snd = some d' := happ
    cases hdel : rtreeDelete d k2 with
    | none =>
      rw [hdel] at happ2
      exact absurd happ2 (by simp)
    | some pr =>
      obtain ⟨flag, d2⟩ := pr
      rw [hdel] at happ2
      obtain rfl : d2 = d' := by
        simp only [Option.map] at happ2
        injection happ2
      obtain ⟨hhdr, _, ⟨H2, hg2, _⟩, _⟩ :=
        rtreeDelete_spec d k2 H flag d2 hg hs hdel
      rw [← hhdr] at hg2
      exact ⟨H2, wf_covering_containment d2 H2 hg2⟩

/-- C2, witness: the amended containment theorem applied to the demo
index for the public operation `Delete [10,10,11,11]`. -/
theorem C2_covering_containment_witness :
    goodNodeB 3 demoDisk3 demoDisk3.hdr.root_addr = true ∧
    sepB 3 demoDisk3 demoDisk3.hdr.root_addr = true ∧
    0 < demoDisk3.hdr.block_size ∧
    insOkB demoDisk3.hdr.dimensions (Op.del [10, 10, 11, 11]) = true ∧
    applyOp demoDisk3 (Op.del [10, 10, 11, 11]) = some demoDisk4 ∧
    (∃ H2, ∀ x, Reach demoDisk4 demoDisk4.hdr.root_addr x →
      ∀ nd, getNode demoDisk4 x = some nd → nd.isLeaf = false →
      ∀ e ∈ nd.entries, ∃ l, collectGo H2 demoDisk4 e.2 = some l ∧ l ≠ [] ∧
        ∀ p ∈ l, mbrGe e.1 p.1 = true) :=
  ⟨by decide, by decide, by decide, by decide, by decide,
    C2_covering_containment demoDisk3 (Op.del [10, 10, 11, 11]) 3 demoDisk4
      (by decide) (by decide) (by decide) (by decide) (by decide)⟩
end SpatialStorage
